import Mathlib

/-!
Shallow embedding of the `IniMap` INI document model (ini.ts) and proofs
about it.  Pure functions of the source become Lean functions; the mutable
`IniMap` object state becomes an explicit record threaded through the
operations.  Shared mutable line records (reachable both from the ordered
line list and from the key indices) are modelled arena-style: every line
record lives once in the ordered list, tagged with a unique identifier, and
the global/section key maps store identifiers.  Mutating a record through
any alias is an update of the uniquely identified entry in the list.
-/

/-! ## JavaScript string helpers -/

/-- Whitespace class used by JavaScript `String.prototype.trim` and by the
regular expression class `\s` (restricted to the characters that can
realistically occur in INI input). -/
def jsIsWs (c : Char) : Bool :=
  c = ' ' || c = '\t' || c = '\n' || c = '\r' ||
  c = '\x0b' || c = '\x0c' || c = ' ' || c = '﻿'

/-- Drop leading JavaScript whitespace. -/
def jsTrimLeftList (cs : List Char) : List Char :=
  cs.dropWhile jsIsWs

/-- JavaScript `trim`: drop leading and trailing whitespace. -/
def jsTrimList (cs : List Char) : List Char :=
  ((cs.dropWhile jsIsWs).reverse.dropWhile jsIsWs).reverse

/-- JavaScript `trim` on strings. -/
def jsTrim (s : String) : String :=
  String.mk (jsTrimList s.data)

/-- List version of `startsWith`. -/
def startsWithL (pre : List Char) : List Char → Bool
  | [] => pre = []
  | c :: rest =>
    match pre with
    | [] => true
    | p :: ps => p = c && startsWithL ps rest

/-- JavaScript `String.prototype.startsWith`. -/
def jsStartsWith (s pre : String) : Bool :=
  startsWithL pre.data s.data

/-- JavaScript `String.prototype.endsWith`. -/
def jsEndsWith (s suf : String) : Bool :=
  startsWithL suf.data.reverse s.data.reverse

/-! ## INI values and the default reviver -/

/-- JavaScript numbers as produced by `+string`, excluding NaN (an `Option`
is used for NaN).  Finite values are kept exact as rationals; the claims
under verification never exercise double rounding. -/
inductive JNum where
  | fin (q : ℚ)
  | inf (pos : Bool)
deriving DecidableEq, Repr

/-- The `IniValue` union: `string | number | boolean | null | undefined`. -/
inductive IniValue where
  | str (s : String)
  | num (n : JNum)
  | bool (b : Bool)
  | null
  | undef
deriving DecidableEq, Repr

/-- Value of a list of decimal digit characters. -/
def digitsVal (cs : List Char) : ℕ :=
  cs.foldl (fun a c => a * 10 + (c.toNat - '0'.toNat)) 0

/-- Hexadecimal digit test. -/
def isHexDigitCh (c : Char) : Bool :=
  c.isDigit || ('a' ≤ c && c ≤ 'f') || ('A' ≤ c && c ≤ 'F')

/-- Value of a single hexadecimal digit character. -/
def hexDigitVal (c : Char) : ℕ :=
  if c.isDigit then c.toNat - '0'.toNat
  else if 'a' ≤ c && c ≤ 'f' then c.toNat - 'a'.toNat + 10
  else c.toNat - 'A'.toNat + 10

/-- Value of a list of hexadecimal digit characters. -/
def hexVal (cs : List Char) : ℕ :=
  cs.foldl (fun a c => a * 16 + hexDigitVal c) 0

/-- Value of a list of octal digit characters. -/
def octVal (cs : List Char) : ℕ :=
  cs.foldl (fun a c => a * 8 + (c.toNat - '0'.toNat)) 0

/-- Value of a list of binary digit characters. -/
def binVal (cs : List Char) : ℕ :=
  cs.foldl (fun a c => a * 2 + (c.toNat - '0'.toNat)) 0

/-- Exponent part of a decimal numeric string (the characters after the
`e`/`E`): an optional sign followed by at least one digit. -/
def parseExpPart (cs : List Char) : Option ℤ :=
  let (neg, ds) :=
    match cs with
    | '+' :: rest => (false, rest)
    | '-' :: rest => (true, rest)
    | _ => (false, cs)
  if ds ≠ [] ∧ ds.all Char.isDigit then
    some (if neg then -(digitsVal ds : ℤ) else (digitsVal ds : ℤ))
  else none

/-- Mantissa of a decimal numeric string: `digits`, `digits.digits?`, or
`.digits`. -/
def parseMantissa (cs : List Char) : Option ℚ :=
  match cs.findIdx? (· = '.') with
  | none =>
    if cs ≠ [] ∧ cs.all Char.isDigit then some (digitsVal cs : ℚ) else none
  | some i =>
    let intPart := cs.take i
    let fracPart := cs.drop (i + 1)
    if (intPart ≠ [] ∨ fracPart ≠ []) ∧ intPart.all Char.isDigit ∧
        fracPart.all Char.isDigit then
      some ((digitsVal intPart : ℚ) + (digitsVal fracPart : ℚ) / 10 ^ fracPart.length)
    else none

/-- Unsigned decimal numeric string, with optional exponent. -/
def parseUnsignedDec (cs : List Char) : Option ℚ :=
  match cs.findIdx? (fun c => c = 'e' || c = 'E') with
  | none => parseMantissa cs
  | some i =>
    match parseMantissa (cs.take i), parseExpPart (cs.drop (i + 1)) with
    | some m, some e => some (m * (10 : ℚ) ^ e)
    | _, _ => none

/-- JavaScript `ToNumber` applied to a string (the semantics of `+value`);
`none` models NaN.  Follows the ECMAScript StringNumericLiteral grammar:
surrounding whitespace, the empty string (value 0), signed decimal
literals, signed `Infinity`, and unsigned `0x`/`0o`/`0b` literals. -/
def jsStringToNumber (s : String) : Option JNum :=
  let cs := jsTrimList s.data
  match cs with
  | [] => some (.fin 0)
  | _ =>
    match cs with
    | '0' :: x :: rest =>
      if x = 'x' || x = 'X' then
        if rest ≠ [] ∧ rest.all isHexDigitCh then some (.fin (hexVal rest : ℚ)) else none
      else if x = 'o' || x = 'O' then
        if rest ≠ [] ∧ rest.all (fun c => '0' ≤ c && c ≤ '7') then
          some (.fin (octVal rest : ℚ))
        else none
      else if x = 'b' || x = 'B' then
        if rest ≠ [] ∧ rest.all (fun c => c = '0' || c = '1') then
          some (.fin (binVal rest : ℚ))
        else none
      else
        jsStringToNumberSigned cs
    | _ => jsStringToNumberSigned cs
where
  /-- Signed decimal or `Infinity` part of the grammar. -/
  jsStringToNumberSigned (cs : List Char) : Option JNum :=
    let (neg, rest) :=
      match cs with
      | '+' :: r => (false, r)
      | '-' :: r => (true, r)
      | _ => (false, cs)
    if rest = ['I', 'n', 'f', 'i', 'n', 'i', 't', 'y'] then
      some (.inf !neg)
    else
      (parseUnsignedDec rest).map (fun q => .fin (if neg then -q else q))

/-- Mirrors `trimQuotes` of the source: strip one pair of surrounding
double quotes (JavaScript `slice(1, -1)`). -/
def trimQuotes (value : String) : String :=
  if jsStartsWith value "\"" && jsEndsWith value "\"" then
    String.mk ((value.data.drop 1).dropLast)
  else value

/-- Reviver functions map (key, raw string value, optional section name) to
an INI value. -/
def Reviver : Type := String → String → Option String → IniValue

/-- The default reviver of `IniMap.parse`: numeric strings (by JavaScript
`+value`, when no double quote occurs) become numbers, then the literals
`null`, `true` and `false`, otherwise the string with one pair of
surrounding quotes stripped. -/
def defaultReviver : Reviver := fun _key value _section =>
  match jsStringToNumber value, value.data.contains '"' with
  | some n, false => .num n
  | _, _ =>
    if value = "null" then .null
    else if value = "true" then .bool true
    else if value = "false" then .bool false
    else .str (trimQuotes value)

/-! ## Line records and the `IniMap` state -/

/-- A comment line (`LineComment` of the source). -/
structure LComment where
  num : ℕ
  val : String
deriving DecidableEq, Repr

/-- A section header line (`LineSection` of the source).  The key map
stores identifiers of the `LValue` records owned by the section; `endL`
is the source's `end` field. -/
structure LSection where
  num : ℕ
  sec : String
  map : List (String × ℕ)
  endL : ℕ
deriving DecidableEq, Repr

/-- A key/value line (`LineValue` of the source). -/
structure LValue where
  num : ℕ
  sec : Option String
  key : String
  val : IniValue
deriving DecidableEq, Repr

/-- The `Line` tagged union of the source. -/
inductive Line where
  | com (c : LComment)
  | sec (s : LSection)
  | val (v : LValue)
deriving DecidableEq, Repr

/-- Line number (`num`) of a line record. -/
def Line.num : Line → ℕ
  | .com c => c.num
  | .sec s => s.num
  | .val v => v.num

/-- Section line test (`line.type === "section"`). -/
def Line.isSec : Line → Bool
  | .sec _ => true
  | _ => false

/-- The `LineOp` constants of the source (`Add = 1`, `Del = -1`). -/
inductive LineOp where
  | add
  | del
deriving DecidableEq

/-- Apply a line operation to a line number (`n += op`).  `del` on 0 cannot
occur in reachable states (line numbers are positive). -/
def LineOp.app : LineOp → ℕ → ℕ
  | .add, n => n + 1
  | .del, n => n - 1

/-- Bump the `num` field of a record by a line operation. -/
def Line.addNum (op : LineOp) : Line → Line
  | .com c => .com { c with num := op.app c.num }
  | .sec s => .sec { s with num := op.app s.num }
  | .val v => .val { v with num := op.app v.num }

/-- Bump the `end` field of a section record; other records unchanged (in
the source, `end` only exists on section objects). -/
def Line.addEnd (op : LineOp) : Line → Line
  | .sec s => .sec { s with endL := op.app s.endL }
  | l => l

/-- Full bump of a line record as performed by the shift loop of
`#appendOrDeleteLine` on the lines after an insertion: the line number
always, the section `end` when the record is a section. -/
def Line.bump (op : LineOp) (l : Line) : Line :=
  if (l.addNum op).isSec then (l.addNum op).addEnd op else l.addNum op

/-- Lookup in an ordered association list (JavaScript `Map.get`). -/
def assocGet {β : Type} (l : List (String × β)) (k : String) : Option β :=
  match l with
  | [] => none
  | p :: rest => if p.1 = k then some p.2 else assocGet rest k

/-- Update in an ordered association list (JavaScript `Map.set`): replace
the value in place if the key exists, else append, preserving insertion
order. -/
def assocSet {β : Type} (l : List (String × β)) (k : String) (v : β) :
    List (String × β) :=
  match l with
  | [] => [(k, v)]
  | p :: rest => if p.1 = k then (k, v) :: rest else p :: assocSet rest k v

/-- Replace the section key map of a section record (other records are
untouched; in the source the operation is only applied to sections). -/
def Line.mapSet (k : String) (vid : ℕ) : Line → Line
  | .sec s => .sec { s with map := assocSet s.map k vid }
  | l => l

/-- Overwrite the `end` field of a section record. -/
def Line.setEnd (n : ℕ) : Line → Line
  | .sec s => .sec { s with endL := n }
  | l => l

/-- Overwrite the `val` field of a value record (`exists.val = value` of
the source; only ever applied to value records). -/
def Line.setVal (x : IniValue) : Line → Line
  | .val v => .val { v with val := x }
  | l => l

/-- State of an `IniMap` object.  `lines` is the ordered physical document,
each record tagged with its unique identifier; `global` and `sections`
are the key indices (`#global`, `#sections`), storing identifiers; the two
formatting fields model the options bag. -/
structure IniMap where
  nextId : ℕ
  lines : List (ℕ × Line)
  global : List (String × ℕ)
  sections : List (String × ℕ)
  lineBreak : Option String
  pretty : Option Bool
deriving Repr

/-- A freshly constructed `IniMap` with no explicit formatting options. -/
def IniMap.empty : IniMap :=
  { nextId := 0, lines := [], global := [], sections := [],
    lineBreak := none, pretty := none }

/-- Dereference a record identifier (following an object reference held by
one of the indices). -/
def IniMap.lineById (m : IniMap) (id : ℕ) : Option Line :=
  (m.lines.find? (fun p => p.1 = id)).map (fun p => p.2)

/-- Mutate the record with the given identifier (mutation of a shared
object through any of its aliases). -/
def updateLine (lines : List (ℕ × Line)) (id : ℕ) (f : Line → Line) :
    List (ℕ × Line) :=
  lines.map (fun p => if p.1 = id then (p.1, f p.2) else p)

/-- JavaScript `Array.prototype.splice(n, 0, a)` (insertion): the index is
clamped to the length.  Negative indices never occur in reachable states
and are not modelled. -/
def insertAt (n : ℕ) (a : ℕ × Line) (l : List (ℕ × Line)) : List (ℕ × Line) :=
  l.take n ++ a :: l.drop n

/-- JavaScript `Array.prototype.splice(n, 1)` (deletion). -/
def eraseAt (n : ℕ) (l : List (ℕ × Line)) : List (ℕ × Line) :=
  l.take n ++ l.drop (n + 1)

/-- One step of the shift loop of `#appendOrDeleteLine`, applied to the
record at position `i`: `line.num += op`; for sections additionally
`line.end += op` and the comment flag is cleared; when the flag is set and
the record is a value line owned by a section, that section's `end` is
bumped through the section index and the flag is cleared. -/
def shiftStep (secs : List (String × ℕ)) (op : LineOp) (i : ℕ)
    (st : List (ℕ × Line) × Bool) : List (ℕ × Line) × Bool :=
  match st.1.get? i with
  | none => st
  | some (id, line) =>
    let line1 := line.addNum op
    let isS := line1.isSec
    let line2 := if isS then line1.addEnd op else line1
    let upd1 := if isS then false else st.2
    let lines1 := st.1.set i (id, line2)
    if upd1 then
      match line2 with
      | .val v =>
        match v.sec with
        | some s =>
          match assocGet secs s with
          | some sid => (updateLine lines1 sid (Line.addEnd op), false)
          | none => (lines1, upd1)
        | none => (lines1, upd1)
      | _ => (lines1, upd1)
    else (lines1, upd1)

/-- The shift loop of `#appendOrDeleteLine`: process positions `i`,
`i + 1`, … of the line list (`for (const line of this.#lines.slice(start))`),
with the comment flag threaded through. -/
def shiftLoop (secs : List (String × ℕ)) (op : LineOp) :
    ℕ → ℕ → List (ℕ × Line) × Bool → List (ℕ × Line) × Bool
  | _, 0, st => st
  | i, fuel + 1, st => shiftLoop secs op (i + 1) fuel (shiftStep secs op i st)

/-- Mirrors `IniMap.#appendOrDeleteLine`: splice the record in (or out) at
index `num - 1`, then shift the line numbers and section bounds of every
subsequent line; a comment insertion additionally bumps the `end` of the
nearest enclosing section that follows it. -/
def IniMap.appendOrDeleteLine (m : IniMap) (id : ℕ) (input : Line)
    (op : LineOp) : IniMap :=
  let lines0 :=
    match op with
    | .add => insertAt (input.num - 1) (id, input) m.lines
    | .del => eraseAt (input.num - 1) m.lines
  let updateSection := match input with | .com _ => true | _ => false
  let start := match op with | .add => input.num | .del => input.num - 1
  { m with lines := (shiftLoop m.sections op start lines0.length (lines0, updateSection)).1 }

/-- Scan of the global append path (`for (const [i, line] of
this.#lines.entries())`): index of the first section line, if any, counting
from `i`. -/
def firstSecIdxAux : ℕ → List (ℕ × Line) → Option ℕ
  | _, [] => none
  | i, p :: rest => if p.2.isSec then some i else firstSecIdxAux (i + 1) rest

/-- Mirrors `IniMap.#appendValue`: place a new value record, either as the
only line, at the known end of its section, or immediately before the
first section line for global values, then shift subsequent lines. -/
def IniMap.appendValue (m : IniMap) (id : ℕ) (v : LValue) : IniMap :=
  if m.lines.length = 0 then
    { m with lines := [(id, .val { v with num := 1 })] }
  else if v.sec.isSome then
    m.appendOrDeleteLine id (.val v) .add
  else
    let num :=
      match firstSecIdxAux 0 m.lines with
      | some i => i + 1
      | none => m.lines.length + 1
    m.appendOrDeleteLine id (.val { v with num := num }) .add

/-- Mirrors `IniMap.#getOrCreateSection`: return the existing section
record for the name, or append a fresh one at the end of the document.
Returns the identifier of the record together with a copy of the record as
read at call time (in the source the object itself is returned; it cannot
dangle there, so a dangling identifier — impossible in reachable states —
returns a dummy record). -/
def IniMap.getOrCreateSection (m : IniMap) (section_ : String) :
    IniMap × ℕ × LSection :=
  match assocGet m.sections section_ with
  | some sid =>
    match m.lineById sid with
    | some (.sec s) => (m, sid, s)
    | _ => (m, sid, { num := 0, sec := section_, map := [], endL := 0 })
  | none =>
    let s : LSection :=
      { num := m.lines.length + 1, sec := section_, map := [],
        endL := m.lines.length + 1 }
    let sid := m.nextId
    ({ m with
        nextId := sid + 1,
        lines := m.lines ++ [(sid, .sec s)],
        sections := assocSet m.sections section_ sid },
      sid, s)

/-- Mirrors `IniMap.set`.  The overloads collapse into one implementation:
when `valueOrKey` is a string and `value` is not `undefined`, the call
targets a section (`set(section, key, value)`); otherwise it targets the
global scope (`set(key, value)`). -/
def IniMap.set (m : IniMap) (keyOrSection : String) (valueOrKey : IniValue)
    (value : IniValue) : IniMap :=
  match valueOrKey, value with
  | .str vk, value =>
    if value ≠ .undef then
      let (m1, sid, s) := m.getOrCreateSection keyOrSection
      match assocGet s.map vk with
      | some vid =>
        { m1 with lines := updateLine m1.lines vid (Line.setVal value) }
      | none =>
        let m2 := { m1 with lines := updateLine m1.lines sid (Line.addEnd .add) }
        let lv : LValue :=
          { num := s.endL + 1, sec := some s.sec, key := vk, val := value }
        let vid := m2.nextId
        let m3 := { m2 with nextId := vid + 1 }
        let m4 := m3.appendValue vid lv
        { m4 with lines := updateLine m4.lines sid (Line.mapSet vk vid) }
    else
      setGlobal m keyOrSection valueOrKey
  | valueOrKey, _ =>
    setGlobal m keyOrSection valueOrKey
where
  /-- The global branch of `IniMap.set` (the `else` arm of the source). -/
  setGlobal (m : IniMap) (keyOrSection : String) (valueOrKey : IniValue) :
      IniMap :=
    let lv : LValue :=
      { num := 0, sec := none, key := keyOrSection, val := valueOrKey }
    let vid := m.nextId
    let m1 := { m with nextId := vid + 1 }
    let m2 := m1.appendValue vid lv
    { m2 with global := assocSet m2.global keyOrSection vid }

/-! ## Tokenizer, parse, and rendering -/

/-- Line splitting of `IniMap.#readTextLines`: one line per `\n`, `\r\n`
or `\r` terminator, plus one final line after the last terminator (the
whole text when there is no terminator); terminators are not part of the
yielded lines. -/
def splitLinesAux : List Char → List Char → List String
  | [], cur => [String.mk cur.reverse]
  | '\n' :: rest, cur => String.mk cur.reverse :: splitLinesAux rest []
  | '\r' :: '\n' :: rest, cur => String.mk cur.reverse :: splitLinesAux rest []
  | '\r' :: rest, cur => String.mk cur.reverse :: splitLinesAux rest []
  | c :: rest, cur => splitLinesAux rest (c :: cur)

/-- Line splitting of the tokenizer, starting with an empty current line. -/
def splitLines (text : String) : List String :=
  splitLinesAux text.data []

/-- Line-break detection of `IniMap.#readTextLines`: the first terminator
encountered sets `formatting.lineBreak`, unless already configured. -/
def detectLB : List Char → Option String → Option String
  | [], lb => lb
  | '\n' :: rest, lb => detectLB rest (if lb.isSome then lb else some "\n")
  | '\r' :: '\n' :: rest, lb => detectLB rest (if lb.isSome then lb else some "\r\n")
  | '\r' :: rest, lb => detectLB rest (if lb.isSome then lb else some "\r")
  | _ :: rest, lb => detectLB rest lb

/-- Number of line terminators in a text, `\r\n` counting as one. -/
def countTerms : List Char → ℕ
  | [] => 0
  | '\n' :: rest => countTerms rest + 1
  | '\r' :: '\n' :: rest => countTerms rest + 1
  | '\r' :: rest => countTerms rest + 1
  | _ :: rest => countTerms rest

/-- Error kinds a JavaScript caller can distinguish; the source only ever
constructs `SyntaxError`. -/
inductive JsErrorKind where
  | syntaxError
  | typeError
deriving DecidableEq, Repr

/-- The errors thrown by `IniMap.parse` (all `SyntaxError`s in the source,
distinguished here by their message shape and payload). -/
inductive ParseErr where
  | nonStringInput (tok : String)
  | unexpectedEndOfSection (lineNo : ℕ)
  | emptySectionName (lineNo : ℕ)
  | unexpectedToken (c : Option Char) (lineNo : ℕ)
  | emptyKeyName (lineNo : ℕ)
deriving DecidableEq, Repr

/-- Constructor kind of every error the source throws. -/
def ParseErr.kind : ParseErr → JsErrorKind := fun _ => .syntaxError

/-- The 1-based line number carried in the error message (0 for the
non-string input guard). -/
def ParseErr.lineNo : ParseErr → ℕ
  | .nonStringInput _ => 0
  | .unexpectedEndOfSection n => n
  | .emptySectionName n => n
  | .unexpectedToken _ n => n
  | .emptyKeyName n => n

/-- Mirrors `isComment`: the empty string or a `#`, `;` or `//` prefix. -/
def isComment (input : String) : Bool :=
  input = "" || jsStartsWith input "#" || jsStartsWith input ";" ||
  jsStartsWith input "//"

/-- Mirrors `isSection`: a leading `[` makes the line a section header and
a missing closing `]` a syntax error. -/
def isSectionCheck (input : String) (lineNumber : ℕ) : Except ParseErr Bool :=
  if jsStartsWith input "[" then
    if jsEndsWith input "]" then .ok true
    else .error (.unexpectedEndOfSection lineNumber)
  else .ok false

/-- Left-hand side of an assignment line (`trimmed.substring(0, pos)`). -/
def kvLeft (t : String) (p : ℕ) : String :=
  String.mk (t.data.take p)

/-- Right-hand side of an assignment line (`trimmed.substring(pos + 1)`). -/
def kvRight (t : String) (p : ℕ) : String :=
  String.mk (t.data.drop (p + 1))

/-- Section name between the brackets (`trimmed.substring(1, length - 1)`). -/
def secNameOf (t : String) : String :=
  String.mk ((t.data.drop 1).dropLast)

/-- Pretty-spacing flag read off an assignment line: the untrimmed left side
ends with a space and the untrimmed right side begins with one. -/
def prettyOf (t : String) (p : ℕ) : Bool :=
  jsEndsWith (kvLeft t p) " " && jsStartsWith (kvRight t p) " "

/-- Set the pretty flag if not already explicitly configured. -/
def applyPretty (m : IniMap) (b : Bool) : IniMap :=
  if m.pretty = none then { m with pretty := some b } else m

/-- One iteration of the parse loop of `IniMap.parse`, processing a single
raw line at 1-based line number `ln`; `cur` is the current-section cursor
(identifier and name of the section record, the name being immutable in
the source). -/
def IniMap.parseLine (m : IniMap) (cur : Option (ℕ × String)) (rev : Reviver)
    (raw : String) (ln : ℕ) : Except ParseErr (IniMap × Option (ℕ × String)) :=
  let trimmed := jsTrim raw
  if isComment trimmed then
    let cid := m.nextId
    .ok ({ m with
            nextId := cid + 1,
            lines := m.lines ++ [(cid, Line.com { num := ln, val := trimmed })] },
      cur)
  else
    match isSectionCheck trimmed ln with
    | .error e => .error e
    | .ok true =>
      let secName := secNameOf trimmed
      if !(secName.data.any (fun c => !jsIsWs c)) then
        .error (.emptySectionName ln)
      else
        let sid := m.nextId
        let s : LSection := { num := ln, sec := secName, map := [], endL := ln }
        .ok ({ m with
                nextId := sid + 1,
                lines := m.lines ++ [(sid, Line.sec s)],
                sections := assocSet m.sections secName sid },
          some (sid, secName))
    | .ok false =>
      match trimmed.data.findIdx? (fun c => c = '=') with
      | none => .error (.unexpectedToken trimmed.data.head? ln)
      | some 0 => .error (.emptyKeyName ln)
      | some p =>
        let leftHand := kvLeft trimmed p
        let rightHand := kvRight trimmed p
        let m1 := applyPretty m (jsEndsWith leftHand " " && jsStartsWith rightHand " ")
        let key := jsTrim leftHand
        let value := jsTrim rightHand
        match cur with
        | some (sid, secName) =>
          let vid := m1.nextId
          let lv : LValue :=
            { num := ln, sec := some secName, key := key,
              val := rev key value (some secName) }
          let m2 := { m1 with
                        nextId := vid + 1,
                        lines := updateLine m1.lines sid (Line.mapSet key vid) }
          let m3 := { m2 with lines := m2.lines ++ [(vid, Line.val lv)] }
          .ok ({ m3 with lines := updateLine m3.lines sid (Line.setEnd ln) }, cur)
        | none =>
          let vid := m1.nextId
          let lv : LValue :=
            { num := ln, sec := none, key := key, val := rev key value none }
          .ok ({ m1 with
                  nextId := vid + 1,
                  global := assocSet m1.global key vid,
                  lines := m1.lines ++ [(vid, Line.val lv)] },
            cur)

/-- The parse loop of `IniMap.parse`, walking the tokenized lines with a
1-based running line counter and the current-section cursor. -/
def IniMap.parseGo (rev : Reviver) :
    IniMap → Option (ℕ × String) → ℕ → List String → Except ParseErr IniMap
  | m, _, _, [] => .ok m
  | m, cur, ln, l :: rest =>
    match m.parseLine cur rev l ln with
    | .error e => .error e
    | .ok (m', cur') => IniMap.parseGo rev m' cur' (ln + 1) rest

/-- Mirrors `IniMap.parse` on string input: install the default reviver if
none is supplied, record the line-break style, and walk the lines.  On a
syntax error the source throws, leaving the partially mutated object
behind; the claims only concern the error itself and successful parses, so
the partial state is not returned here. -/
def IniMap.parseStr (m : IniMap) (text : String) (reviver : Option Reviver) :
    Except ParseErr IniMap :=
  let rev := match reviver with | some r => r | none => defaultReviver
  let m1 := { m with lineBreak := detectLB text.data m.lineBreak }
  IniMap.parseGo rev m1 none 1 (splitLines text)

/-- A JavaScript argument to `parse`: a string, or any non-string value
(carrying its string interpolation for the error message). -/
inductive JsInput where
  | str (s : String)
  | nonString (shown : String)

/-- Mirrors `IniMap.parse` including the dynamic `typeof text !== "string"`
guard, which throws `SyntaxError` with line number 0. -/
def IniMap.parseAny (m : IniMap) (input : JsInput) (reviver : Option Reviver) :
    Except ParseErr IniMap :=
  match input with
  | .nonString shown => .error (.nonStringInput shown)
  | .str s => m.parseStr s reviver

/-- Values of the plain object produced by `toObject`: a scalar, or a
nested section table. -/
inductive ObjValue where
  | prim (v : IniValue)
  | table (kvs : List (String × IniValue))
deriving DecidableEq, Repr

/-- Mirrors `IniMap.toObject`: global keys first in index order, then one
nested table per section; `Object.defineProperty` semantics keep the first
insertion position on redefinition, as `assocSet` does. -/
def IniMap.toObject (m : IniMap) : List (String × ObjValue) :=
  let withGlobals := m.global.foldl (fun acc p =>
    match m.lineById p.2 with
    | some (.val v) => assocSet acc v.key (ObjValue.prim v.val)
    | _ => acc) []
  m.sections.foldl (fun acc p =>
    match m.lineById p.2 with
    | some (.sec s) =>
      let tbl := s.map.foldl (fun a q =>
        match m.lineById q.2 with
        | some (.val v) => assocSet a v.key v.val
        | _ => a) []
      assocSet acc s.sec (ObjValue.table tbl)
    | _ => acc) withGlobals

/-- Value stored for a global key: follow the index to the shared record. -/
def IniMap.lookupGlobalVal (m : IniMap) (k : String) : Option IniValue :=
  match assocGet m.global k with
  | some vid =>
    match m.lineById vid with
    | some (.val v) => some v.val
    | _ => none
  | none => none

/-- Value stored for a key of a named section: follow the section index,
then the section's key map. -/
def IniMap.lookupSectionVal (m : IniMap) (s k : String) : Option IniValue :=
  match assocGet m.sections s with
  | some sid =>
    match m.lineById sid with
    | some (.sec r) =>
      match assocGet r.map k with
      | some vid =>
        match m.lineById vid with
        | some (.val v) => some v.val
        | _ => none
      | none => none
    | _ => none
  | none => none

/-! ## Invariants and claim-support definitions -/

/-- Line numbers of the records of a list are `k`, `k + 1`, … in order. -/
def numsFrom : ℕ → List (ℕ × Line) → Prop
  | _, [] => True
  | k, p :: rest => p.2.num = k ∧ numsFrom (k + 1) rest

instance numsFromDec : (k : ℕ) → (L : List (ℕ × Line)) → Decidable (numsFrom k L)
  | _, [] => isTrue trivial
  | k, _ :: rest => @instDecidableAnd _ _ _ (numsFromDec (k + 1) rest)

/-- Line numbers in the ordered sequence are exactly 1..length, matching
array position. -/
def numsContiguous (m : IniMap) : Prop :=
  numsFrom 1 m.lines

/-- Record identifiers in the line list are pairwise distinct. -/
def idsNodup (m : IniMap) : Prop :=
  (m.lines.map Prod.fst).Nodup

/-- Record identifiers in the line list are below the allocation counter. -/
def idsBound (m : IniMap) : Prop :=
  ∀ p ∈ m.lines, p.1 < m.nextId

/-- Identifiers stored in the global key index are below the counter. -/
def globRefsBound (m : IniMap) : Prop :=
  ∀ p ∈ m.global, p.2 < m.nextId

/-- An optional line resolves to a section record with the given name. -/
def resolvesSection : Option Line → String → Prop
  | some (.sec r), n => r.sec = n
  | _, _ => False

instance : (o : Option Line) → (n : String) → Decidable (resolvesSection o n)
  | none, _ => isFalse id
  | some (.com _), _ => isFalse id
  | some (.sec r), n => inferInstanceAs (Decidable (r.sec = n))
  | some (.val _), _ => isFalse id

/-- Every entry of the section name index points at a section record
carrying that name. -/
def secRefsOk (m : IniMap) : Prop :=
  ∀ p ∈ m.sections, resolvesSection (m.lineById p.2) p.1

/-- Key-map identifiers of a section record are below the counter. -/
def lineMapBound (n : ℕ) : Line → Prop
  | .sec r => ∀ q ∈ r.map, q.2 < n
  | _ => True

instance : (n : ℕ) → (l : Line) → Decidable (lineMapBound n l)
  | _, .com _ => isTrue trivial
  | n, .sec r => inferInstanceAs (Decidable (∀ q ∈ r.map, q.2 < n))
  | _, .val _ => isTrue trivial

/-- All key-map identifiers in the document are below the counter. -/
def mapRefsBound (m : IniMap) : Prop :=
  ∀ p ∈ m.lines, lineMapBound m.nextId p.2

/-- Bounds of a section record: the header line is not after the last
owned line, which is within the document. -/
def lineSecBound (len : ℕ) : Line → Prop
  | .sec r => r.num ≤ r.endL ∧ r.endL ≤ len
  | _ => True

instance : (len : ℕ) → (l : Line) → Decidable (lineSecBound len l)
  | _, .com _ => isTrue trivial
  | len, .sec r => inferInstanceAs (Decidable (r.num ≤ r.endL ∧ r.endL ≤ len))
  | _, .val _ => isTrue trivial

/-- Every section record of a list respects the bounds for a document of
the given length. -/
def secBoundsOkL (len : ℕ) (L : List (ℕ × Line)) : Prop :=
  ∀ p ∈ L, lineSecBound len p.2

/-- Every section record respects its bounds. -/
def secBoundsOk (m : IniMap) : Prop :=
  secBoundsOkL m.lines.length m.lines

/-- Two section records in document order do not overlap: the earlier one
ends before the later one begins. -/
def pairDisj : Line → Line → Prop
  | .sec a, .sec b => a.endL < b.num
  | _, _ => True

instance : (a b : Line) → Decidable (pairDisj a b)
  | .sec a, .sec b => inferInstanceAs (Decidable (a.endL < b.num))
  | .sec _, .com _ => isTrue trivial
  | .sec _, .val _ => isTrue trivial
  | .com _, _ => isTrue trivial
  | .val _, _ => isTrue trivial

/-- Section ranges are disjoint along the document order. -/
def linesDisj (L : List (ℕ × Line)) : Prop :=
  List.Pairwise (fun p q => pairDisj p.2 q.2) L

/-- Section disjointness of a state. -/
def secDisjoint (m : IniMap) : Prop :=
  linesDisj m.lines

/-- Well-formedness of an `IniMap` state: all invariants that hold in every
state reachable through the construction API. -/
def WF (m : IniMap) : Prop :=
  idsNodup m ∧ idsBound m ∧ globRefsBound m ∧ secRefsOk m ∧ mapRefsBound m ∧
  numsContiguous m ∧ secBoundsOk m ∧ secDisjoint m

/-- Classification outcome of one raw line, mirroring the error checks of
the parse loop in their evaluation order. -/
def lineIssue (raw : String) (ln : ℕ) : Option ParseErr :=
  let trimmed := jsTrim raw
  if isComment trimmed then none
  else if jsStartsWith trimmed "[" then
    if !jsEndsWith trimmed "]" then some (.unexpectedEndOfSection ln)
    else if !(((trimmed.data.drop 1).dropLast).any (fun c => !jsIsWs c)) then
      some (.emptySectionName ln)
    else none
  else
    match trimmed.data.findIdx? (fun c => c = '=') with
    | none => some (.unexpectedToken trimmed.data.head? ln)
    | some 0 => some (.emptyKeyName ln)
    | some _ => none

/-- First malformed line of a tokenized document, with its error. -/
def firstIssue : List String → ℕ → Option ParseErr
  | [], _ => none
  | l :: rest, ln =>
    match lineIssue l ln with
    | some e => some e
    | none => firstIssue rest (ln + 1)

/-- Pretty-spacing inference of one trimmed line: `some b` when the line is
a key/value line (so it would determine the flag), `none` otherwise. -/
def kvPrettyOf (trimmed : String) : Option Bool :=
  if isComment trimmed then none
  else if jsStartsWith trimmed "[" then none
  else
    match trimmed.data.findIdx? (fun c => c = '=') with
    | none => none
    | some 0 => none
    | some p => some (prettyOf trimmed p)

/-- Pretty flag determined by the first key/value line of the document,
if any. -/
def firstKvPretty : List String → Option Bool
  | [] => none
  | l :: rest =>
    match kvPrettyOf (jsTrim l) with
    | some b => some b
    | none => firstKvPretty rest

/-- Fallback chain of the default coercion, as the specification words it:
the literal `null`, the boolean literals, else the string with one pair of
surrounding double quotes stripped if present on both ends. -/
def specCoercionNonNum (value : String) : IniValue :=
  if value = "null" then .null
  else if value = "true" then .bool true
  else if value = "false" then .bool false
  else .str (trimQuotes value)

/-- Default coercion as described by the specification: a number exactly
when the string parses fully as a numeric literal and contains no double
quote, then the fallback chain. -/
def specCoercion (value : String) : IniValue :=
  match jsStringToNumber value with
  | some n => if value.data.contains '"' then specCoercionNonNum value else .num n
  | none => specCoercionNonNum value

/-- One operation of the construction API, for statements quantifying over
operation sequences. -/
inductive IniOp where
  | doSet (keyOrSection : String) (valueOrKey : IniValue) (value : IniValue)
  | doParse (text : String) (reviver : Option Reviver)

/-- Run one operation; `none` when a parse fails (the sequence is then not
a sequence of successful operations). -/
def runOp (m : IniMap) : IniOp → Option IniMap
  | .doSet a b c => some (m.set a b c)
  | .doParse t r =>
    match m.parseStr t r with
    | .ok m' => some m'
    | .error _ => none

/-- Run a sequence of operations from a starting state. -/
def runOps : IniMap → List IniOp → Option IniMap
  | m, [] => some m
  | m, op :: rest =>
    match runOp m op with
    | some m' => runOps m' rest
    | none => none

/-- Operations that are `set` calls (no parse). -/
def IniOp.isSet : IniOp → Prop
  | .doSet _ _ _ => True
  | .doParse _ _ => False

/-- Boolean test that an operation is a `set` call. -/
def IniOp.isSetB : IniOp → Bool
  | .doSet _ _ _ => true
  | .doParse _ _ => false

/-- Sequences in which a `parse` can occur only as the very first
operation: every operation after the head is a `set`. -/
def setsOnlyTail : List IniOp → Bool
  | [] => true
  | _ :: rest => rest.all IniOp.isSetB

instance (m : IniMap) : Decidable (numsContiguous m) :=
  inferInstanceAs (Decidable (numsFrom 1 m.lines))

instance (m : IniMap) : Decidable (idsNodup m) :=
  inferInstanceAs (Decidable (m.lines.map Prod.fst).Nodup)

instance (m : IniMap) : Decidable (idsBound m) :=
  inferInstanceAs (Decidable (∀ p ∈ m.lines, p.1 < m.nextId))

instance (m : IniMap) : Decidable (globRefsBound m) :=
  inferInstanceAs (Decidable (∀ p ∈ m.global, p.2 < m.nextId))

instance (m : IniMap) : Decidable (secRefsOk m) :=
  inferInstanceAs (Decidable (∀ p ∈ m.sections, resolvesSection (m.lineById p.2) p.1))

instance (m : IniMap) : Decidable (mapRefsBound m) :=
  inferInstanceAs (Decidable (∀ p ∈ m.lines, lineMapBound m.nextId p.2))

instance (m : IniMap) : Decidable (secBoundsOk m) :=
  inferInstanceAs (Decidable (∀ p ∈ m.lines, lineSecBound m.lines.length p.2))

instance (L : List (ℕ × Line)) : Decidable (linesDisj L) :=
  inferInstanceAs (Decidable (List.Pairwise
    (fun (p q : ℕ × Line) => pairDisj p.2 q.2) L))

instance (m : IniMap) : Decidable (secDisjoint m) :=
  inferInstanceAs (Decidable (linesDisj m.lines))

instance (m : IniMap) : Decidable (WF m) :=
  inferInstanceAs (Decidable (idsNodup m ∧ idsBound m ∧ globRefsBound m ∧
    secRefsOk m ∧ mapRefsBound m ∧ numsContiguous m ∧ secBoundsOk m ∧
    secDisjoint m))

instance : (op : IniOp) → Decidable op.isSet
  | .doSet _ _ _ => isTrue trivial
  | .doParse _ _ => isFalse id

/-- Entry-level bump: identifier kept, record bumped (the shift loop of an
insertion). -/
def bumpE (p : ℕ × Line) : ℕ × Line :=
  (p.1, p.2.bump .add)

/-- Insertion index for a new global value: the position of the first
section line, or the document length when there is none (the line
preceding the first section, as computed by the scan in `#appendValue`). -/
def gIdx (m : IniMap) : ℕ :=
  match firstSecIdxAux 0 m.lines with
  | some i => i
  | none => m.lines.length

/-- List-level record dereference by identifier. -/
def lineByIdL (L : List (ℕ × Line)) (id : ℕ) : Option Line :=
  (L.find? (fun p => p.1 = id)).map Prod.snd

/-- Invariant of the parse loop: the state is well formed, the running line
counter is one past the current document length, and the current-section
cursor, when set, points at the last section record of the document (every
line after it belongs to it). -/
def ParseInv (m : IniMap) (cur : Option (ℕ × String)) (ln : ℕ) : Prop :=
  WF m ∧ ln = m.lines.length + 1 ∧
    (match cur with
     | none => True
     | some (sid, name) => ∃ A r B, m.lines = A ++ (sid, Line.sec r) :: B ∧
         r.sec = name ∧ (∀ p ∈ B, p.2.isSec = false) ∧
         sid ∉ A.map Prod.fst ∧ sid ∉ B.map Prod.fst)

/-- Weak disjointness of two records: an earlier section may end exactly
where a later one begins (the relation that survives an insertion between
them). -/
def pairDisjLe : Line → Line → Prop
  | .sec a, .sec b => a.endL ≤ b.num
  | _, _ => True

instance : (a b : Line) → Decidable (pairDisjLe a b)
  | .sec a, .sec b => inferInstanceAs (Decidable (a.endL ≤ b.num))
  | .sec _, .com _ => isTrue trivial
  | .sec _, .val _ => isTrue trivial
  | .com _, _ => isTrue trivial
  | .val _, _ => isTrue trivial

/-! ## Basic lemmas about records, bumps, and identifier lookups -/

theorem bumpE_fst (p : ℕ × Line) : (bumpE p).1 = p.1 := rfl

theorem bump_add_com (c : LComment) :
    (Line.com c).bump .add = Line.com { c with num := c.num + 1 } := rfl

theorem bump_add_sec (s : LSection) :
    (Line.sec s).bump .add =
      Line.sec { s with num := s.num + 1, endL := s.endL + 1 } := rfl

theorem bump_add_val (v : LValue) :
    (Line.val v).bump .add = Line.val { v with num := v.num + 1 } := rfl

theorem num_bump_add (l : Line) : (l.bump .add).num = l.num + 1 := by
  cases l <;> rfl

theorem isSec_bump_add (l : Line) : (l.bump .add).isSec = l.isSec := by
  cases l <;> rfl

theorem map_fst_map_bumpE (L : List (ℕ × Line)) :
    (L.map bumpE).map Prod.fst = L.map Prod.fst := by
  induction L with
  | nil => rfl
  | cons p rest ih => simp [ih, bumpE_fst]

theorem length_updateLine (L : List (ℕ × Line)) (id : ℕ) (f : Line → Line) :
    (updateLine L id f).length = L.length := by
  simp [updateLine]

theorem map_fst_updateLine (L : List (ℕ × Line)) (id : ℕ) (f : Line → Line) :
    (updateLine L id f).map Prod.fst = L.map Prod.fst := by
  induction L with
  | nil => rfl
  | cons p rest ih =>
    simp only [updateLine, List.map_cons] at ih ⊢
    by_cases h : p.1 = id <;> simp [h, ih]

theorem updateLine_append (A B : List (ℕ × Line)) (id : ℕ) (f : Line → Line) :
    updateLine (A ++ B) id f = updateLine A id f ++ updateLine B id f := by
  simp [updateLine]

theorem updateLine_cons (p : ℕ × Line) (L : List (ℕ × Line)) (id : ℕ)
    (f : Line → Line) :
    updateLine (p :: L) id f =
      (if p.1 = id then (p.1, f p.2) else p) :: updateLine L id f := rfl

theorem updateLine_of_not_mem (L : List (ℕ × Line)) (id : ℕ) (f : Line → Line)
    (h : id ∉ L.map Prod.fst) : updateLine L id f = L := by
  induction L with
  | nil => rfl
  | cons p rest ih =>
    simp only [List.map_cons, List.mem_cons] at h
    push_neg at h
    simp [updateLine_cons, Ne.symm h.1, ih h.2]

theorem lineByIdL_nil (id : ℕ) : lineByIdL [] id = none := rfl

theorem lineByIdL_append (A B : List (ℕ × Line)) (id : ℕ) :
    lineByIdL (A ++ B) id =
      match lineByIdL A id with
      | some l => some l
      | none => lineByIdL B id := by
  simp only [lineByIdL, List.find?_append]
  cases A.find? (fun p => p.1 = id) <;> simp [Option.orElse]

theorem lineByIdL_cons (p : ℕ × Line) (L : List (ℕ × Line)) (id : ℕ) :
    lineByIdL (p :: L) id =
      if p.1 = id then some p.2 else lineByIdL L id := by
  simp only [lineByIdL, List.find?_cons]
  by_cases h : p.1 = id <;> simp [h]

theorem lineByIdL_map_bumpE (L : List (ℕ × Line)) (id : ℕ) :
    lineByIdL (L.map bumpE) id = (lineByIdL L id).map (Line.bump .add) := by
  induction L with
  | nil => rfl
  | cons p rest ih =>
    simp only [List.map_cons, lineByIdL_cons, bumpE]
    by_cases h : p.1 = id <;> simp [h, ih]

theorem lineByIdL_updateLine_self (L : List (ℕ × Line)) (id : ℕ)
    (f : Line → Line) :
    lineByIdL (updateLine L id f) id = (lineByIdL L id).map f := by
  induction L with
  | nil => rfl
  | cons p rest ih =>
    simp only [updateLine_cons, lineByIdL_cons]
    by_cases h : p.1 = id <;> simp [h, ih]

theorem lineByIdL_updateLine_ne (L : List (ℕ × Line)) (id id' : ℕ)
    (f : Line → Line) (hne : id' ≠ id) :
    lineByIdL (updateLine L id f) id' = lineByIdL L id' := by
  induction L with
  | nil => rfl
  | cons p rest ih =>
    by_cases h : p.1 = id
    · simp [updateLine_cons, lineByIdL_cons, h, Ne.symm hne, ih]
    · simp [updateLine_cons, lineByIdL_cons, h, ih]

theorem lineById_eq_lineByIdL (m : IniMap) (id : ℕ) :
    m.lineById id = lineByIdL m.lines id := rfl

theorem mem_of_lineByIdL_eq_some (L : List (ℕ × Line)) (id : ℕ) (l : Line)
    (h : lineByIdL L id = some l) : (id, l) ∈ L := by
  induction L with
  | nil => simp [lineByIdL] at h
  | cons p rest ih =>
    rw [lineByIdL_cons] at h
    by_cases hp : p.1 = id
    · rw [if_pos hp] at h
      have hpl : p = (id, l) := by
        obtain ⟨a, b⟩ := p
        simp only [Option.some.injEq] at h
        simp_all
      exact List.mem_cons.mpr (Or.inl hpl.symm)
    · rw [if_neg hp] at h
      exact List.mem_cons_of_mem _ (ih h)

/-! ## Lemmas about the invariant building blocks -/

theorem assocGet_nil {β : Type} (k : String) :
    assocGet ([] : List (String × β)) k = none := rfl

theorem assocGet_cons {β : Type} (p : String × β) (rest : List (String × β))
    (k : String) :
    assocGet (p :: rest) k = if p.1 = k then some p.2 else assocGet rest k := rfl

theorem assocSet_nil {β : Type} (k : String) (v : β) :
    assocSet ([] : List (String × β)) k v = [(k, v)] := rfl

theorem assocSet_cons {β : Type} (p : String × β) (rest : List (String × β))
    (k : String) (v : β) :
    assocSet (p :: rest) k v =
      if p.1 = k then (k, v) :: rest else p :: assocSet rest k v := rfl

theorem numsFrom_append (k : ℕ) (A B : List (ℕ × Line)) :
    numsFrom k (A ++ B) ↔ numsFrom k A ∧ numsFrom (k + A.length) B := by
  induction A generalizing k with
  | nil => simp [numsFrom]
  | cons p rest ih =>
    show p.2.num = k ∧ numsFrom (k + 1) (rest ++ B) ↔
      (p.2.num = k ∧ numsFrom (k + 1) rest) ∧ numsFrom (k + (rest.length + 1)) B
    rw [ih]
    constructor
    · rintro ⟨h1, h2, h3⟩
      exact ⟨⟨h1, h2⟩,
        by rwa [show k + (rest.length + 1) = k + 1 + rest.length by omega]⟩
    · rintro ⟨⟨h1, h2⟩, h3⟩
      exact ⟨h1, h2,
        by rwa [show k + 1 + rest.length = k + (rest.length + 1) by omega]⟩

theorem numsFrom_map_bumpE (k : ℕ) (B : List (ℕ × Line))
    (h : numsFrom k B) : numsFrom (k + 1) (B.map bumpE) := by
  induction B generalizing k with
  | nil => trivial
  | cons p rest ih =>
    obtain ⟨h1, h2⟩ := h
    exact ⟨by simp [bumpE, num_bump_add, h1], ih _ h2⟩

theorem numsFrom_take (k n : ℕ) (L : List (ℕ × Line)) (h : numsFrom k L) :
    numsFrom k (L.take n) := by
  induction L generalizing k n with
  | nil => simp [numsFrom]
  | cons p rest ih =>
    cases n with
    | zero => trivial
    | succ n => exact ⟨h.1, ih _ _ h.2⟩

theorem numsFrom_drop (k n : ℕ) (L : List (ℕ × Line)) (h : numsFrom k L) :
    numsFrom (k + n) (L.drop n) := by
  induction n generalizing k L with
  | zero => simpa using h
  | succ n ih =>
    cases L with
    | nil => trivial
    | cons p rest =>
      have h2 := ih (k + 1) rest h.2
      rw [show k + (n + 1) = k + 1 + n by omega]
      exact h2

theorem numsFrom_num_of_mem (k : ℕ) (L : List (ℕ × Line)) (p : ℕ × Line)
    (h : numsFrom k L) (hp : p ∈ L) : k ≤ p.2.num := by
  induction L generalizing k with
  | nil => cases hp
  | cons q rest ih =>
    rcases List.mem_cons.mp hp with rfl | hmem
    · exact h.1.ge
    · exact le_trans (Nat.le_succ k) (ih _ h.2 hmem)

theorem numsFrom_get (k : ℕ) (L : List (ℕ × Line)) (h : numsFrom k L) :
    ∀ i (hi : i < L.length), ((L.get ⟨i, hi⟩).2).num = k + i := by
  induction L generalizing k with
  | nil => intro i hi; cases hi
  | cons p rest ih =>
    intro i hi
    cases i with
    | zero => simpa using h.1
    | succ i =>
      have h2 := ih _ h.2 i (Nat.lt_of_succ_lt_succ hi)
      rw [show k + (i + 1) = k + 1 + i by omega]
      exact h2

theorem assocGet_assocSet_self {β : Type} (l : List (String × β)) (k : String)
    (v : β) : assocGet (assocSet l k v) k = some v := by
  induction l with
  | nil => simp [assocGet_nil, assocGet_cons, assocSet_nil]
  | cons p rest ih =>
    by_cases h : p.1 = k
    · simp [assocSet_cons, assocGet_cons, h]
    · simp [assocSet_cons, assocGet_cons, h, ih]

theorem assocGet_assocSet_ne {β : Type} (l : List (String × β)) (k k' : String)
    (v : β) (hne : k' ≠ k) : assocGet (assocSet l k v) k' = assocGet l k' := by
  induction l with
  | nil => simp [assocGet_nil, assocGet_cons, assocSet_nil, Ne.symm hne]
  | cons p rest ih =>
    by_cases h : p.1 = k
    · have h2 : ¬(p.1 = k') := by rw [h]; exact Ne.symm hne
      rw [assocSet_cons, if_pos h, assocGet_cons, assocGet_cons, if_neg h2]
      rw [if_neg (show ¬((k, v).1 = k') from Ne.symm hne)]
    · simp [assocSet_cons, assocGet_cons, h, ih]

theorem mem_assocSet {β : Type} (l : List (String × β)) (k : String) (v : β)
    (p : String × β) (hp : p ∈ assocSet l k v) : p ∈ l ∨ p = (k, v) := by
  induction l with
  | nil => simpa [assocSet_nil] using hp
  | cons q rest ih =>
    by_cases h : q.1 = k
    · rw [assocSet_cons, if_pos h] at hp
      rcases List.mem_cons.mp hp with rfl | hmem
      · exact Or.inr rfl
      · exact Or.inl (List.mem_cons_of_mem _ hmem)
    · rw [assocSet_cons, if_neg h] at hp
      rcases List.mem_cons.mp hp with rfl | hmem
      · exact Or.inl (List.mem_cons_self _ _)
      · rcases ih hmem with h1 | h2
        · exact Or.inl (List.mem_cons_of_mem _ h1)
        · exact Or.inr h2

theorem assocSet_of_absent {β : Type} (l : List (String × β)) (k : String)
    (v : β) (h : assocGet l k = none) : assocSet l k v = l ++ [(k, v)] := by
  induction l with
  | nil => rfl
  | cons p rest ih =>
    by_cases hp : p.1 = k
    · rw [assocGet_cons, if_pos hp] at h
      cases h
    · rw [assocGet_cons, if_neg hp] at h
      rw [assocSet_cons, if_neg hp, ih h, List.cons_append]

theorem lineSecBound_mono (n n' : ℕ) (l : Line) (h : lineSecBound n l)
    (hle : n ≤ n') : lineSecBound n' l := by
  cases l with
  | sec s => exact ⟨h.1, le_trans h.2 hle⟩
  | com c => trivial
  | val v => trivial

theorem lineSecBound_bump (n : ℕ) (l : Line) (h : lineSecBound n l) :
    lineSecBound (n + 1) (l.bump .add) := by
  cases l with
  | sec s => exact ⟨Nat.succ_le_succ h.1, Nat.succ_le_succ h.2⟩
  | com c => trivial
  | val v => trivial

theorem lineMapBound_mono (n n' : ℕ) (l : Line) (h : lineMapBound n l)
    (hle : n ≤ n') : lineMapBound n' l := by
  cases l with
  | sec s => exact fun q hq => lt_of_lt_of_le (h q hq) hle
  | com c => trivial
  | val v => trivial

theorem lineMapBound_bump (n : ℕ) (l : Line) (h : lineMapBound n l) :
    lineMapBound n (l.bump .add) := by
  cases l with
  | sec s => exact h
  | com c => trivial
  | val v => trivial

theorem pairDisj_val_right (a : Line) (v : LValue) : pairDisj a (.val v) := by
  cases a <;> trivial

theorem pairDisj_val_left (v : LValue) (b : Line) : pairDisj (.val v) b := by
  cases b <;> trivial

theorem pairDisj_com_left (c : LComment) (b : Line) : pairDisj (.com c) b := by
  cases b <;> trivial

theorem pairDisj_bump_bump (a b : Line) (h : pairDisj a b) :
    pairDisj (a.bump .add) (b.bump .add) := by
  cases a with
  | sec sa =>
    cases b with
    | sec sb => exact Nat.succ_lt_succ h
    | com c => trivial
    | val v => trivial
  | com c => exact pairDisj_com_left _ _
  | val v => exact pairDisj_val_left _ _

/-! ## Characterization of the shift loop for value insertions -/

theorem shiftStep_false (secs : List (String × ℕ)) (i : ℕ)
    (L : List (ℕ × Line)) :
    shiftStep secs .add i (L, false) =
      (match L.get? i with
       | none => L
       | some p => L.set i (bumpE p), false) := by
  unfold shiftStep
  cases h : L.get? i with
  | none => rfl
  | some p =>
    obtain ⟨id, line⟩ := p
    simp only [ite_self, Bool.false_eq_true, if_false]
    cases hs : (line.addNum .add).isSec <;>
      simp [hs, bumpE, Line.bump, ite_self]

theorem shiftLoop_false (secs : List (String × ℕ)) :
    ∀ (fuel i : ℕ) (L : List (ℕ × Line)), L.length ≤ i + fuel →
      shiftLoop secs .add i fuel (L, false) =
        (L.take i ++ (L.drop i).map bumpE, false) := by
  intro fuel
  induction fuel with
  | zero =>
    intro i L hlen
    rw [shiftLoop, List.take_of_length_le (by omega),
      List.drop_eq_nil_of_le (by omega)]
    simp
  | succ fuel ih =>
    intro i L hlen
    rw [shiftLoop, shiftStep_false]
    cases h : L.get? i with
    | none =>
      have hge : L.length ≤ i := List.get?_eq_none.mp h
      rw [ih (i + 1) L (by omega), List.take_of_length_le (by omega),
        List.take_of_length_le hge, List.drop_eq_nil_of_le (by omega),
        List.drop_eq_nil_of_le hge]
    | some p =>
      have hi : i < L.length := List.get?_eq_some.mp h |>.choose
      have hset : L.set i (bumpE p) = L.take i ++ bumpE p :: L.drop (i + 1) :=
        List.set_eq_take_cons_drop _ hi
      have htk : (L.take i).length = i := by
        rw [List.length_take]; omega
      rw [ih (i + 1) (L.set i (bumpE p)) (by rw [List.length_set]; omega), hset]
      have h1 : (L.take i ++ bumpE p :: L.drop (i + 1)).take (i + 1) =
          L.take i ++ [bumpE p] := by
        rw [List.take_append_eq_append_take, List.take_of_length_le (by omega),
          htk]
        congr 1
        rw [show i + 1 - i = 1 by omega]
        rfl
      have h2 : (L.take i ++ bumpE p :: L.drop (i + 1)).drop (i + 1) =
          L.drop (i + 1) := by
        rw [List.drop_append_eq_append_drop, List.drop_eq_nil_of_le (by omega),
          htk, List.nil_append]
        rw [show i + 1 - i = 1 by omega]
        rfl
      rw [h1, h2]
      have hget : L[i] = p := by
        have := List.get?_eq_some.mp h
        obtain ⟨hh, he⟩ := this
        simpa using he
      have h3 : L.drop i = p :: L.drop (i + 1) := by
        rw [← List.getElem_cons_drop L i hi, hget]
      rw [h3, List.map_cons, List.append_assoc, List.singleton_append]

theorem appendOrDeleteLine_add_val (m : IniMap) (id : ℕ) (v : LValue)
    (h1 : 1 ≤ v.num) (h2 : v.num - 1 ≤ m.lines.length) :
    m.appendOrDeleteLine id (.val v) .add =
      { m with lines := m.lines.take (v.num - 1) ++
          (id, Line.val v) :: (m.lines.drop (v.num - 1)).map bumpE } := by
  unfold IniMap.appendOrDeleteLine
  simp only []
  have hnum : (Line.val v).num = v.num := rfl
  rw [hnum]
  set e := v.num - 1 with he
  have hins : insertAt e (id, Line.val v) m.lines =
      m.lines.take e ++ (id, Line.val v) :: m.lines.drop e := rfl
  rw [hins]
  have hlen : (m.lines.take e ++ (id, Line.val v) :: m.lines.drop e).length ≤
      v.num + (m.lines.take e ++ (id, Line.val v) :: m.lines.drop e).length := by
    omega
  rw [shiftLoop_false _ _ _ _ hlen]
  have htk : (m.lines.take e).length = e := by
    rw [List.length_take]; omega
  have hvnum : v.num = e + 1 := by omega
  have h1' : (m.lines.take e ++ (id, Line.val v) :: m.lines.drop e).take v.num =
      m.lines.take e ++ [(id, Line.val v)] := by
    rw [hvnum, List.take_append_eq_append_take, List.take_of_length_le (by omega),
      htk]
    congr 1
    rw [show e + 1 - e = 1 by omega]
    rfl
  have h2' : (m.lines.take e ++ (id, Line.val v) :: m.lines.drop e).drop v.num =
      m.lines.drop e := by
    rw [hvnum, List.drop_append_eq_append_drop, List.drop_eq_nil_of_le (by omega),
      htk, List.nil_append]
    rw [show e + 1 - e = 1 by omega]
    rfl
  rw [h1', h2', List.append_assoc, List.singleton_append]

/-! ## Characterization of the append and set paths -/

theorem firstSecIdxAux_bound (L : List (ℕ × Line)) :
    ∀ i j, firstSecIdxAux i L = some j → i ≤ j ∧ j < i + L.length := by
  induction L with
  | nil => intro i j h; cases h
  | cons p rest ih =>
    intro i j h
    rw [firstSecIdxAux] at h
    by_cases hp : p.2.isSec
    · rw [if_pos hp] at h
      cases h
      simp
    · rw [if_neg hp] at h
      have := ih (i + 1) j h
      constructor
      · omega
      · simp only [List.length_cons]
        omega

theorem gIdx_le (m : IniMap) : gIdx m ≤ m.lines.length := by
  unfold gIdx
  cases h : firstSecIdxAux 0 m.lines with
  | none => simp only [h]; exact le_refl _
  | some i =>
    have hb := firstSecIdxAux_bound m.lines 0 i h
    simp only [h]
    omega

theorem appendValue_global (m : IniMap) (id : ℕ) (v : LValue)
    (hs : v.sec = none) :
    m.appendValue id v =
      { m with lines := m.lines.take (gIdx m) ++
          (id, Line.val { v with num := gIdx m + 1 }) ::
          (m.lines.drop (gIdx m)).map bumpE } := by
  obtain ⟨vnum, vsec, vkey, vval⟩ := v
  simp only [] at hs
  subst hs
  unfold IniMap.appendValue
  by_cases h0 : m.lines.length = 0
  · have hnil : m.lines = [] := List.length_eq_zero.mp h0
    rw [if_pos h0]
    have hg : gIdx m = 0 := by
      unfold gIdx
      rw [hnil]
      rfl
    rw [hg, hnil]
    rfl
  · rw [if_neg h0]
    simp only [Option.isSome_none, Bool.false_eq_true, if_false]
    have hnum : (match firstSecIdxAux 0 m.lines with
        | some i => i + 1
        | none => m.lines.length + 1) = gIdx m + 1 := by
      unfold gIdx
      cases h : firstSecIdxAux 0 m.lines <;> simp only [h]
    rw [hnum]
    have hres := appendOrDeleteLine_add_val m id
      { num := gIdx m + 1, sec := none, key := vkey, val := vval }
      (by show 1 ≤ gIdx m + 1; omega)
      (by show gIdx m + 1 - 1 ≤ m.lines.length
          have := gIdx_le m
          omega)
    simpa using hres

theorem appendValue_sec (m : IniMap) (id : ℕ) (v : LValue) (s : String)
    (hs : v.sec = some s) (h0 : m.lines.length ≠ 0)
    (h1 : 1 ≤ v.num) (h2 : v.num - 1 ≤ m.lines.length) :
    m.appendValue id v =
      { m with lines := m.lines.take (v.num - 1) ++
          (id, Line.val v) :: (m.lines.drop (v.num - 1)).map bumpE } := by
  unfold IniMap.appendValue
  rw [if_neg h0, hs]
  simp only [Option.isSome_some, if_true]
  exact appendOrDeleteLine_add_val m id v h1 h2

theorem setGlobal_eq (m : IniMap) (k : String) (w : IniValue) :
    IniMap.set.setGlobal m k w =
      { m with
          nextId := m.nextId + 1,
          lines := m.lines.take (gIdx m) ++
            (m.nextId,
              Line.val { num := gIdx m + 1, sec := none, key := k, val := w }) ::
            (m.lines.drop (gIdx m)).map bumpE,
          global := assocSet m.global k m.nextId } := by
  unfold IniMap.set.setGlobal
  simp only []
  rw [appendValue_global _ _ _ rfl]
  rfl

theorem updateLine_updateLine (L : List (ℕ × Line)) (id : ℕ)
    (f g : Line → Line) :
    updateLine (updateLine L id g) id f = updateLine L id (fun l => f (g l)) := by
  induction L with
  | nil => rfl
  | cons p rest ih =>
    by_cases h : p.1 = id
    · simp [updateLine_cons, h, ih]
    · simp [updateLine_cons, h, ih]

theorem updateLine_take (L : List (ℕ × Line)) (id : ℕ) (f : Line → Line)
    (n : ℕ) : (updateLine L id f).take n = updateLine (L.take n) id f := by
  simp [updateLine, List.map_take]

theorem updateLine_drop (L : List (ℕ × Line)) (id : ℕ) (f : Line → Line)
    (n : ℕ) : (updateLine L id f).drop n = updateLine (L.drop n) id f := by
  simp [updateLine, List.map_drop]

theorem set_not_str (m : IniMap) (k : String) (w x : IniValue)
    (hw : ∀ s, w ≠ .str s) :
    m.set k w x = IniMap.set.setGlobal m k w := by
  cases w with
  | str s => exact absurd rfl (hw s)
  | num n => rfl
  | bool b => rfl
  | null => rfl
  | undef => rfl

theorem set_str_undef (m : IniMap) (k s : String) :
    m.set k (.str s) .undef = IniMap.set.setGlobal m k (.str s) := rfl

theorem getOrCreateSection_existing (m : IniMap) (name : String) (sid : ℕ)
    (srec : LSection) (h1 : assocGet m.sections name = some sid)
    (h2 : m.lineById sid = some (.sec srec)) :
    m.getOrCreateSection name = (m, sid, srec) := by
  unfold IniMap.getOrCreateSection
  rw [h1]
  simp only []
  rw [h2]

theorem getOrCreateSection_new (m : IniMap) (name : String)
    (h : assocGet m.sections name = none) :
    m.getOrCreateSection name =
      ({ m with
          nextId := m.nextId + 1,
          lines := m.lines ++ [(m.nextId, Line.sec
            { num := m.lines.length + 1, sec := name, map := [],
              endL := m.lines.length + 1 })],
          sections := assocSet m.sections name m.nextId },
        m.nextId,
        { num := m.lines.length + 1, sec := name, map := [],
          endL := m.lines.length + 1 }) := by
  unfold IniMap.getOrCreateSection
  rw [h]

theorem set_sec_existing_key (m : IniMap) (sname vk : String) (w : IniValue)
    (sid vid : ℕ) (srec : LSection) (hw : w ≠ .undef)
    (h1 : assocGet m.sections sname = some sid)
    (h2 : m.lineById sid = some (.sec srec))
    (h3 : assocGet srec.map vk = some vid) :
    m.set sname (.str vk) w =
      { m with lines := updateLine m.lines vid (Line.setVal w) } := by
  unfold IniMap.set
  simp only []
  rw [if_pos hw, getOrCreateSection_existing m sname sid srec h1 h2]
  simp only []
  rw [h3]

theorem set_sec_new_key_raw (m : IniMap) (sname vk : String) (w : IniValue)
    (sid : ℕ) (srec : LSection) (hw : w ≠ .undef)
    (h1 : assocGet m.sections sname = some sid)
    (h2 : m.lineById sid = some (.sec srec))
    (h3 : assocGet srec.map vk = none)
    (hlen0 : m.lines.length ≠ 0)
    (hee : srec.endL ≤ m.lines.length) :
    m.set sname (.str vk) w =
      { m with
          nextId := m.nextId + 1,
          lines := updateLine
            ((updateLine m.lines sid (Line.addEnd .add)).take srec.endL ++
              (m.nextId, Line.val
                { num := srec.endL + 1, sec := some srec.sec, key := vk,
                  val := w }) ::
              ((updateLine m.lines sid (Line.addEnd .add)).drop srec.endL).map
                bumpE)
            sid (Line.mapSet vk m.nextId) } := by
  unfold IniMap.set
  simp only []
  rw [if_pos hw, getOrCreateSection_existing m sname sid srec h1 h2]
  simp only []
  rw [h3]
  simp only []
  rw [appendValue_sec _ _ _ srec.sec rfl
    (by rw [length_updateLine]; exact hlen0)
    (by show 1 ≤ srec.endL + 1; omega)
    (by show srec.endL + 1 - 1 ≤ (updateLine m.lines sid (Line.addEnd .add)).length
        rw [length_updateLine]
        omega)]
  simp only []
  rw [show srec.endL + 1 - 1 = srec.endL by omega]

theorem set_sec_new_key (m : IniMap) (sname vk : String) (w : IniValue)
    (sid : ℕ) (srec : LSection) (hw : w ≠ .undef)
    (h1 : assocGet m.sections sname = some sid)
    (h2 : m.lineById sid = some (.sec srec))
    (h3 : assocGet srec.map vk = none)
    (hlen0 : m.lines.length ≠ 0)
    (hee : srec.endL ≤ m.lines.length)
    (hfresh : m.nextId ∉ m.lines.map Prod.fst)
    (hsid_drop : sid ∉ (m.lines.drop srec.endL).map Prod.fst) :
    m.set sname (.str vk) w =
      { m with
          nextId := m.nextId + 1,
          lines :=
            (updateLine m.lines sid
              (fun l => Line.mapSet vk m.nextId (Line.addEnd .add l))).take
              srec.endL ++
            (m.nextId, Line.val
              { num := srec.endL + 1, sec := some srec.sec, key := vk,
                val := w }) ::
            (m.lines.drop srec.endL).map bumpE } := by
  rw [set_sec_new_key_raw m sname vk w sid srec hw h1 h2 h3 hlen0 hee]
  have hsid_mem : sid ∈ m.lines.map Prod.fst :=
    List.mem_map_of_mem Prod.fst (mem_of_lineByIdL_eq_some m.lines sid _ h2)
  have hne : ¬((m.nextId, Line.val
      { num := srec.endL + 1, sec := some srec.sec, key := vk,
        val := w }).1 = sid) := by
    intro h
    have h' : m.nextId = sid := h
    exact hfresh (h' ▸ hsid_mem)
  have hB : (updateLine m.lines sid (Line.addEnd .add)).drop srec.endL =
      m.lines.drop srec.endL := by
    rw [updateLine_drop, updateLine_of_not_mem _ _ _ hsid_drop]
  have hlines : updateLine
      ((updateLine m.lines sid (Line.addEnd .add)).take srec.endL ++
        (m.nextId, Line.val
          { num := srec.endL + 1, sec := some srec.sec, key := vk,
            val := w }) ::
        ((updateLine m.lines sid (Line.addEnd .add)).drop srec.endL).map bumpE)
      sid (Line.mapSet vk m.nextId) =
      (updateLine m.lines sid
        (fun l => Line.mapSet vk m.nextId (Line.addEnd .add l))).take
        srec.endL ++
      (m.nextId, Line.val
        { num := srec.endL + 1, sec := some srec.sec, key := vk,
          val := w }) ::
      (m.lines.drop srec.endL).map bumpE := by
    rw [hB, updateLine_append, updateLine_cons, if_neg hne]
    rw [updateLine_take, updateLine_updateLine]
    rw [updateLine_of_not_mem ((m.lines.drop srec.endL).map bumpE) sid
      (Line.mapSet vk m.nextId)
      (by rw [map_fst_map_bumpE]; exact hsid_drop)]
    rw [← updateLine_take]
  rw [hlines]

/-! ## Preservation of the invariants by a value insertion -/

theorem numsFrom_bounds_of_mem (k : ℕ) (L : List (ℕ × Line)) (p : ℕ × Line)
    (h : numsFrom k L) (hp : p ∈ L) : k ≤ p.2.num ∧ p.2.num < k + L.length := by
  induction L generalizing k with
  | nil => cases hp
  | cons q rest ih =>
    rcases List.mem_cons.mp hp with rfl | hmem
    · refine ⟨h.1.ge, ?_⟩
      rw [h.1]
      simp only [List.length_cons]
      omega
    · have := ih _ h.2 hmem
      simp only [List.length_cons]
      omega

theorem mem_updateLine (L : List (ℕ × Line)) (id : ℕ) (f : Line → Line)
    (p : ℕ × Line) (hp : p ∈ updateLine L id f) :
    ∃ q ∈ L, p = if q.1 = id then (q.1, f q.2) else q := by
  rcases List.mem_map.mp hp with ⟨q, hq, he⟩
  exact ⟨q, hq, he.symm⟩

theorem eq_of_mem_nodup_ids (L : List (ℕ × Line)) (p q : ℕ × Line)
    (hnodup : (L.map Prod.fst).Nodup) (hp : p ∈ L) (hq : q ∈ L)
    (hfst : p.1 = q.1) : p = q := by
  induction L with
  | nil => cases hp
  | cons r rest ih =>
    rw [List.map_cons, List.nodup_cons] at hnodup
    rcases List.mem_cons.mp hp with rfl | hp' <;>
      rcases List.mem_cons.mp hq with rfl | hq'
    · rfl
    · exact absurd (hfst ▸ List.mem_map_of_mem Prod.fst hq') hnodup.1
    · exact absurd (hfst ▸ List.mem_map_of_mem Prod.fst hp') hnodup.1
    · exact ih hnodup.2 hp' hq'

theorem not_mem_ids_of_bound (L : List (ℕ × Line)) (n : ℕ)
    (h : ∀ p ∈ L, p.1 < n) : n ∉ L.map Prod.fst := by
  intro hmem
  rcases List.mem_map.mp hmem with ⟨p, hp, he⟩
  exact absurd (he ▸ h p hp) (lt_irrefl n)

theorem numsFrom_insert (U : List (ℕ × Line)) (e : ℕ) (x : ℕ × Line)
    (hU : numsFrom 1 U) (he : e ≤ U.length) (hx : x.2.num = e + 1) :
    numsFrom 1 (U.take e ++ x :: (U.drop e).map bumpE) := by
  rw [numsFrom_append]
  refine ⟨numsFrom_take _ _ _ hU, ?_⟩
  have hlt : (U.take e).length = e := by rw [List.length_take]; omega
  rw [hlt]
  refine ⟨by omega, ?_⟩
  have hd := numsFrom_drop 1 e U hU
  have hm := numsFrom_map_bumpE _ _ hd
  exact hm

theorem nodup_insert (U : List (ℕ × Line)) (e : ℕ) (x : ℕ × Line)
    (hU : (U.map Prod.fst).Nodup) (hx : x.1 ∉ U.map Prod.fst) :
    ((U.take e ++ x :: (U.drop e).map bumpE).map Prod.fst).Nodup := by
  rw [List.map_append, List.map_cons, map_fst_map_bumpE, List.nodup_middle,
    ← List.map_append, List.take_append_drop, List.nodup_cons]
  exact ⟨hx, hU⟩

theorem mem_insert_parts (U : List (ℕ × Line)) (e : ℕ) (x : ℕ × Line)
    (p : ℕ × Line) (hp : p ∈ U.take e ++ x :: (U.drop e).map bumpE) :
    (p ∈ U.take e) ∨ p = x ∨ (∃ q ∈ U.drop e, p = bumpE q) := by
  rcases List.mem_append.mp hp with h | h
  · exact Or.inl h
  · rcases List.mem_cons.mp h with rfl | h2
    · exact Or.inr (Or.inl rfl)
    · rcases List.mem_map.mp h2 with ⟨q, hq, he⟩
      exact Or.inr (Or.inr ⟨q, hq, he.symm⟩)

theorem pairDisjLe_of_pairDisj (a b : Line) (h : pairDisj a b) :
    pairDisjLe a b := by
  cases a <;> cases b <;> first | trivial | exact le_of_lt h

theorem pairDisj_of_pairDisjLe_bump (a b : Line) (h : pairDisjLe a b) :
    pairDisj a (b.bump .add) := by
  cases a with
  | sec sa =>
    cases b with
    | sec sb => exact Nat.lt_succ_of_le h
    | com c => trivial
    | val v => trivial
  | com c => exact pairDisj_com_left _ _
  | val v => exact pairDisj_val_left _ _

theorem disj_insert (U : List (ℕ × Line)) (e : ℕ) (vid : ℕ) (lv : LValue)
    (hA : linesDisj (U.take e)) (hB : linesDisj (U.drop e))
    (hcross : ∀ a ∈ U.take e, ∀ b ∈ U.drop e, pairDisjLe a.2 b.2) :
    linesDisj (U.take e ++ (vid, Line.val lv) :: (U.drop e).map bumpE) := by
  rw [linesDisj, List.pairwise_append]
  refine ⟨hA, ?_, ?_⟩
  · rw [List.pairwise_cons]
    constructor
    · intro b _
      exact pairDisj_val_left _ _
    · rw [List.pairwise_map]
      exact List.Pairwise.imp (fun h => pairDisj_bump_bump _ _ h) hB
  · intro a ha b hb
    rcases List.mem_cons.mp hb with rfl | hb2
    · exact pairDisj_val_right _ _
    · rcases List.mem_map.mp hb2 with ⟨q, hq, he⟩
      rw [← he]
      exact pairDisj_of_pairDisjLe_bump _ _ (hcross a ha q hq)

theorem linesDisj_split (U : List (ℕ × Line)) (e : ℕ) (h : linesDisj U) :
    linesDisj (U.take e) ∧ linesDisj (U.drop e) ∧
      ∀ a ∈ U.take e, ∀ b ∈ U.drop e, pairDisj a.2 b.2 := by
  have := h
  rw [linesDisj, ← List.take_append_drop e U, List.pairwise_append] at this
  exact this

theorem idsBound_insert (U : List (ℕ × Line)) (e : ℕ) (x : ℕ × Line) (n : ℕ)
    (hU : ∀ p ∈ U, p.1 < n) (hx : x.1 < n + 1) :
    ∀ p ∈ U.take e ++ x :: (U.drop e).map bumpE, p.1 < n + 1 := by
  intro p hp
  rcases mem_insert_parts U e x p hp with h | h | ⟨q, hq, rfl⟩
  · exact lt_trans (hU p (List.take_subset e U h)) (Nat.lt_succ_self n)
  · exact h ▸ hx
  · exact lt_trans (hU q (List.drop_subset e U hq)) (Nat.lt_succ_self n)

theorem mapRefs_insert (U : List (ℕ × Line)) (e : ℕ) (vid : ℕ) (lv : LValue)
    (n : ℕ) (hU : ∀ p ∈ U, lineMapBound n p.2) :
    ∀ p ∈ U.take e ++ (vid, Line.val lv) :: (U.drop e).map bumpE,
      lineMapBound n p.2 := by
  intro p hp
  rcases mem_insert_parts U e _ p hp with h | h | ⟨q, hq, rfl⟩
  · exact hU p (List.take_subset e U h)
  · rw [h]
    trivial
  · exact lineMapBound_bump _ _ (hU q (List.drop_subset e U hq))

theorem secBounds_insert (U : List (ℕ × Line)) (e : ℕ) (vid : ℕ) (lv : LValue)
    (len : ℕ)
    (hA : ∀ p ∈ U.take e, lineSecBound (len + 1) p.2)
    (hB : ∀ p ∈ U.drop e, lineSecBound len p.2) :
    ∀ p ∈ U.take e ++ (vid, Line.val lv) :: (U.drop e).map bumpE,
      lineSecBound (len + 1) p.2 := by
  intro p hp
  rcases mem_insert_parts U e _ p hp with h | h | ⟨q, hq, rfl⟩
  · exact hA p h
  · rw [h]
    trivial
  · exact lineSecBound_bump _ _ (hB q hq)

theorem lineByIdL_insert_shape (U : List (ℕ × Line)) (e : ℕ) (vid : ℕ)
    (lv : LValue) (id' : ℕ) (hid : id' ≠ vid) :
    lineByIdL (U.take e ++ (vid, Line.val lv) :: (U.drop e).map bumpE) id' =
      match lineByIdL (U.take e) id' with
      | some l => some l
      | none => (lineByIdL (U.drop e) id').map (Line.bump .add) := by
  rw [lineByIdL_append, lineByIdL_cons]
  simp only [if_neg (show ¬((vid : ℕ) = id') from fun h => hid h.symm)]
  cases lineByIdL (U.take e) id' with
  | some l => rfl
  | none =>
    simp only []
    exact lineByIdL_map_bumpE _ _

theorem resolvesSection_bump (o : Option Line) (name : String)
    (h : resolvesSection o name) :
    resolvesSection (o.map (Line.bump .add)) name := by
  cases o with
  | none => cases h
  | some l =>
    cases l with
    | sec s => exact h
    | com c => cases h
    | val v => cases h

theorem resolvesSection_insert (U : List (ℕ × Line)) (e : ℕ) (vid : ℕ)
    (lv : LValue) (id' : ℕ) (name : String) (hid : id' ≠ vid)
    (h : resolvesSection (lineByIdL U id') name) :
    resolvesSection
      (lineByIdL (U.take e ++ (vid, Line.val lv) :: (U.drop e).map bumpE) id')
      name := by
  rw [lineByIdL_insert_shape U e vid lv id' hid]
  rw [← List.take_append_drop e U, lineByIdL_append] at h
  cases htake : lineByIdL (U.take e) id' with
  | some l =>
    rw [htake] at h
    exact h
  | none =>
    rw [htake] at h
    exact resolvesSection_bump _ _ h

theorem resolves_mem (L : List (ℕ × Line)) (id : ℕ) (name : String)
    (h : resolvesSection (lineByIdL L id) name) :
    ∃ r, lineByIdL L id = some (Line.sec r) ∧ r.sec = name := by
  cases ho : lineByIdL L id with
  | none => rw [ho] at h; cases h
  | some l =>
    cases l with
    | sec s => rw [ho] at h; exact ⟨s, rfl, h⟩
    | com c => rw [ho] at h; cases h
    | val v => rw [ho] at h; cases h

theorem length_insert_shape (U : List (ℕ × Line)) (e : ℕ) (x : ℕ × Line)
    (he : e ≤ U.length) :
    (U.take e ++ x :: (U.drop e).map bumpE).length = U.length + 1 := by
  rw [List.length_append, List.length_cons, List.length_map, List.length_take,
    List.length_drop]
  omega

theorem WF_setGlobal (m : IniMap) (k : String) (w : IniValue) (hWF : WF m) :
    WF (IniMap.set.setGlobal m k w) := by
  obtain ⟨hnodup, hids, hglob, hsecs, hmaps, hnums, hbounds, hdisj⟩ := hWF
  rw [setGlobal_eq]
  have hfresh : m.nextId ∉ m.lines.map Prod.fst :=
    not_mem_ids_of_bound m.lines m.nextId hids
  obtain ⟨hdA, hdB, hdC⟩ := linesDisj_split m.lines (gIdx m) hdisj
  refine ⟨?_, ?_, ?_, ?_, ?_, ?_, ?_, ?_⟩
  · exact nodup_insert m.lines (gIdx m) _ hnodup hfresh
  · exact idsBound_insert m.lines (gIdx m) _ m.nextId hids
      (Nat.lt_succ_self _)
  · intro p hp
    rcases mem_assocSet m.global k m.nextId p hp with h | rfl
    · exact lt_trans (hglob p h) (Nat.lt_succ_self _)
    · exact Nat.lt_succ_self _
  · intro p hp
    have hres := hsecs p hp
    have hid : p.2 ≠ m.nextId := by
      intro hcontra
      obtain ⟨r, hr, _⟩ := resolves_mem m.lines p.2 p.1 hres
      have hmem := mem_of_lineByIdL_eq_some m.lines p.2 _ hr
      exact absurd (hids _ hmem) (by rw [hcontra]; exact lt_irrefl _)
    exact resolvesSection_insert m.lines (gIdx m) m.nextId _ p.2 p.1 hid hres
  · exact mapRefs_insert m.lines (gIdx m) m.nextId _ (m.nextId + 1)
      (fun p hp => lineMapBound_mono _ _ _ (hmaps p hp) (Nat.le_succ _))
  · exact numsFrom_insert m.lines (gIdx m) _ hnums (gIdx_le m) rfl
  · have hlen := length_insert_shape m.lines (gIdx m)
      (m.nextId, Line.val { num := gIdx m + 1, sec := none, key := k, val := w })
      (gIdx_le m)
    show secBoundsOkL _ _
    unfold secBoundsOkL
    rw [show ({ m with
        nextId := m.nextId + 1,
        lines := m.lines.take (gIdx m) ++
          (m.nextId,
            Line.val { num := gIdx m + 1, sec := none, key := k, val := w }) ::
          (m.lines.drop (gIdx m)).map bumpE,
        global := assocSet m.global k m.nextId } : IniMap).lines.length =
      m.lines.length + 1 from hlen]
    exact secBounds_insert m.lines (gIdx m) m.nextId _ m.lines.length
      (fun p hp => lineSecBound_mono _ _ _
        (hbounds p (List.take_subset _ _ hp)) (Nat.le_succ _))
      (fun p hp => hbounds p (List.drop_subset _ _ hp))
  · exact disj_insert m.lines (gIdx m) m.nextId _ hdA hdB
      (fun a ha b hb => pairDisjLe_of_pairDisj _ _ (hdC a ha b hb))

theorem numsFrom_updateLine (L : List (ℕ × Line)) (id : ℕ) (f : Line → Line)
    (hf : ∀ l, (f l).num = l.num) :
    ∀ k, numsFrom k L → numsFrom k (updateLine L id f) := by
  induction L with
  | nil => intro k h; exact h
  | cons p rest ih =>
    intro k h
    rw [updateLine_cons]
    by_cases hp : p.1 = id
    · exact ⟨by rw [if_pos hp]; exact (hf p.2).trans h.1, ih _ h.2⟩
    · exact ⟨by rw [if_neg hp]; exact h.1, ih _ h.2⟩

theorem num_setVal (w : IniValue) (l : Line) : (Line.setVal w l).num = l.num := by
  cases l <;> rfl

theorem num_addEnd (op : LineOp) (l : Line) : (Line.addEnd op l).num = l.num := by
  cases l <;> rfl

theorem num_mapSet (k : String) (vid : ℕ) (l : Line) :
    (Line.mapSet k vid l).num = l.num := by
  cases l <;> rfl

theorem num_setEnd (n : ℕ) (l : Line) : (Line.setEnd n l).num = l.num := by
  cases l <;> rfl

theorem pairDisj_setVal_left (w : IniValue) (a b : Line) (h : pairDisj a b) :
    pairDisj (Line.setVal w a) b := by
  cases a <;> cases b <;> exact h

theorem pairDisj_setVal_right (w : IniValue) (a b : Line) (h : pairDisj a b) :
    pairDisj a (Line.setVal w b) := by
  cases a <;> cases b <;> exact h

theorem linesDisj_updateLine_setVal (L : List (ℕ × Line)) (id : ℕ)
    (w : IniValue) (h : linesDisj L) :
    linesDisj (updateLine L id (Line.setVal w)) := by
  unfold linesDisj updateLine
  rw [List.pairwise_map]
  refine List.Pairwise.imp ?_ h
  intro p q hpq
  by_cases hp : p.1 = id <;> by_cases hq : q.1 = id
  · rw [if_pos hp, if_pos hq]
    exact pairDisj_setVal_left _ _ _ (pairDisj_setVal_right _ _ _ hpq)
  · rw [if_pos hp, if_neg hq]
    exact pairDisj_setVal_left _ _ _ hpq
  · rw [if_neg hp, if_pos hq]
    exact pairDisj_setVal_right _ _ _ hpq
  · rw [if_neg hp, if_neg hq]
    exact hpq

theorem resolvesSection_updateLine (L : List (ℕ × Line)) (id : ℕ)
    (f : Line → Line) (name : String) (id' : ℕ)
    (hf : ∀ s : LSection, ∃ s', f (Line.sec s) = Line.sec s' ∧ s'.sec = s.sec)
    (h : resolvesSection (lineByIdL L id') name) :
    resolvesSection (lineByIdL (updateLine L id f) id') name := by
  by_cases hid : id' = id
  · subst hid
    rw [lineByIdL_updateLine_self]
    obtain ⟨r, hr, hname⟩ := resolves_mem _ _ _ h
    rw [hr]
    obtain ⟨s', hs', hsec⟩ := hf r
    show resolvesSection (some (f (Line.sec r))) name
    rw [hs']
    show s'.sec = name
    rw [hsec]
    exact hname
  · rw [lineByIdL_updateLine_ne _ _ _ _ hid]
    exact h

theorem setVal_sec (w : IniValue) (s : LSection) :
    Line.setVal w (Line.sec s) = Line.sec s := rfl

theorem lineSecBound_setVal (n : ℕ) (w : IniValue) (l : Line)
    (h : lineSecBound n l) : lineSecBound n (Line.setVal w l) := by
  cases l <;> exact h

theorem lineMapBound_setVal (n : ℕ) (w : IniValue) (l : Line)
    (h : lineMapBound n l) : lineMapBound n (Line.setVal w l) := by
  cases l <;> exact h

theorem WF_updateLine_setVal (m : IniMap) (vid : ℕ) (w : IniValue)
    (hWF : WF m) : WF { m with lines := updateLine m.lines vid (Line.setVal w) } := by
  obtain ⟨hnodup, hids, hglob, hsecs, hmaps, hnums, hbounds, hdisj⟩ := hWF
  refine ⟨?_, ?_, ?_, ?_, ?_, ?_, ?_, ?_⟩
  · show ((updateLine m.lines vid (Line.setVal w)).map Prod.fst).Nodup
    rw [map_fst_updateLine]
    exact hnodup
  · intro p hp
    rcases mem_updateLine _ _ _ p hp with ⟨q, hq, he⟩
    have : p.1 = q.1 := by
      rw [he]
      by_cases h : q.1 = vid <;> simp [h]
    rw [this]
    exact hids q hq
  · exact hglob
  · intro p hp
    exact resolvesSection_updateLine m.lines vid _ p.1 p.2
      (fun s => ⟨s, rfl, rfl⟩) (hsecs p hp)
  · intro p hp
    rcases mem_updateLine _ _ _ p hp with ⟨q, hq, he⟩
    by_cases h : q.1 = vid
    · rw [he, if_pos h]
      exact lineMapBound_setVal _ _ _ (hmaps q hq)
    · rw [he, if_neg h]
      exact hmaps q hq
  · exact numsFrom_updateLine m.lines vid _ (num_setVal w) 1 hnums
  · intro p hp
    rcases mem_updateLine _ _ _ p hp with ⟨q, hq, he⟩
    show lineSecBound (updateLine m.lines vid (Line.setVal w)).length p.2
    rw [length_updateLine]
    by_cases h : q.1 = vid
    · rw [he, if_pos h]
      exact lineSecBound_setVal _ _ _ (hbounds q hq)
    · rw [he, if_neg h]
      exact hbounds q hq
  · exact linesDisj_updateLine_setVal m.lines vid w hdisj

theorem sec_lookup_facts (m : IniMap) (sid : ℕ) (srec : LSection)
    (hWF : WF m) (h2 : m.lineById sid = some (.sec srec)) :
    (sid, Line.sec srec) ∈ m.lines ∧
    m.lines.length ≠ 0 ∧
    srec.num ≤ srec.endL ∧ srec.endL ≤ m.lines.length ∧
    m.nextId ∉ m.lines.map Prod.fst ∧
    sid ∉ (m.lines.drop srec.endL).map Prod.fst := by
  obtain ⟨hnodup, hids, hglob, hsecs, hmaps, hnums, hbounds, hdisj⟩ := hWF
  have hmem : (sid, Line.sec srec) ∈ m.lines :=
    mem_of_lineByIdL_eq_some m.lines sid _ h2
  have hlen0 : m.lines.length ≠ 0 := by
    intro h
    rw [List.length_eq_zero.mp h] at hmem
    cases hmem
  have hbd := hbounds _ hmem
  have hfresh : m.nextId ∉ m.lines.map Prod.fst :=
    not_mem_ids_of_bound m.lines m.nextId hids
  refine ⟨hmem, hlen0, hbd.1, hbd.2, hfresh, ?_⟩
  intro hin
  rcases List.mem_map.mp hin with ⟨q, hq, hfst⟩
  have hq' : q ∈ m.lines := List.drop_subset _ _ hq
  have heq : q = (sid, Line.sec srec) :=
    eq_of_mem_nodup_ids m.lines q (sid, Line.sec srec) hnodup hq' hmem hfst
  rw [heq] at hq
  have hge := numsFrom_num_of_mem _ _ _ (numsFrom_drop 1 srec.endL m.lines hnums) hq
  have hge' : 1 + srec.endL ≤ srec.num := hge
  have hle : srec.num ≤ srec.endL := hbd.1
  omega

theorem split_at_sid (m : IniMap) (sid : ℕ) (srec : LSection)
    (hnodup : (m.lines.map Prod.fst).Nodup)
    (hmem : (sid, Line.sec srec) ∈ m.lines) :
    ∃ P Q, m.lines = P ++ (sid, Line.sec srec) :: Q ∧
      sid ∉ P.map Prod.fst ∧ sid ∉ Q.map Prod.fst := by
  obtain ⟨P, Q, hPQ⟩ := List.append_of_mem hmem
  refine ⟨P, Q, hPQ, ?_, ?_⟩
  · intro hin
    rw [hPQ, List.map_append, List.map_cons] at hnodup
    rw [List.nodup_middle, List.nodup_cons] at hnodup
    exact hnodup.1 (List.mem_append.mpr (Or.inl hin))
  · intro hin
    rw [hPQ, List.map_append, List.map_cons] at hnodup
    rw [List.nodup_middle, List.nodup_cons] at hnodup
    exact hnodup.1 (List.mem_append.mpr (Or.inr hin))

theorem g_sec_eq (vk : String) (vid : ℕ) (srec : LSection) :
    Line.mapSet vk vid (Line.addEnd .add (Line.sec srec)) =
      Line.sec { num := srec.num, sec := srec.sec,
                 map := assocSet srec.map vk vid, endL := srec.endL + 1 } := rfl

theorem pairDisj_sec_congr_num (a : Line) (s s' : LSection)
    (hnum : s'.num = s.num) (h : pairDisj a (Line.sec s)) :
    pairDisj a (Line.sec s') := by
  cases a with
  | sec sa => show sa.endL < s'.num; rw [hnum]; exact h
  | com c => trivial
  | val v => trivial

theorem disj_sec_new (m : IniMap) (sid : ℕ) (srec : LSection) (vk : String)
    (w : IniValue) (hWF : WF m)
    (h2 : m.lineById sid = some (.sec srec)) :
    linesDisj
      ((updateLine m.lines sid
          (fun l => Line.mapSet vk m.nextId (Line.addEnd .add l))).take
          srec.endL ++
        (m.nextId, Line.val
          { num := srec.endL + 1, sec := some srec.sec, key := vk,
            val := w }) ::
        (m.lines.drop srec.endL).map bumpE) := by
  obtain ⟨hmem, hlen0, hnumle, hee, hfresh, hdropfree⟩ :=
    sec_lookup_facts m sid srec hWF h2
  obtain ⟨hnodup, hids, hglob, hsecs, hmaps, hnums, hbounds, hdisj⟩ := hWF
  obtain ⟨P, Q, hPQ, hsidP, hsidQ⟩ := split_at_sid m sid srec hnodup hmem
  have hnumsplit : numsFrom 1 P ∧
      numsFrom (1 + P.length) ((sid, Line.sec srec) :: Q) := by
    have h : numsFrom 1 m.lines := hnums
    rw [hPQ, numsFrom_append] at h
    exact h
  have hsrecnum : srec.num = P.length + 1 := by
    have h1 : srec.num = 1 + P.length := hnumsplit.2.1
    omega
  have hQnums : numsFrom (P.length + 2) Q := by
    have h2' := hnumsplit.2.2
    rwa [show 1 + P.length + 1 = P.length + 2 by omega] at h2'
  have hje : P.length + 1 ≤ srec.endL := by omega
  have hU : updateLine m.lines sid
      (fun l => Line.mapSet vk m.nextId (Line.addEnd .add l)) =
      P ++ (sid, Line.sec
        { num := srec.num, sec := srec.sec,
          map := assocSet srec.map vk m.nextId, endL := srec.endL + 1 }) ::
        Q := by
    rw [hPQ, updateLine_append, updateLine_cons,
      updateLine_of_not_mem _ _ _ hsidP, updateLine_of_not_mem _ _ _ hsidQ,
      if_pos (show (sid, Line.sec srec).1 = sid from rfl)]
    rfl
  have hlenP : P.length ≤ m.lines.length := by
    rw [hPQ, List.length_append]
    omega
  have hQd : m.lines.drop srec.endL = Q.drop (srec.endL - P.length - 1) := by
    rw [hPQ, List.drop_append_eq_append_drop, List.drop_eq_nil_of_le (by omega),
      List.nil_append,
      show srec.endL - P.length = (srec.endL - P.length - 1) + 1 by omega]
    rfl
  have hQt : ∀ s' : LSection,
      (P ++ (sid, Line.sec s') :: Q).take srec.endL =
        P ++ (sid, Line.sec s') :: Q.take (srec.endL - P.length - 1) := by
    intro s'
    rw [List.take_append_eq_append_take, List.take_of_length_le (by omega),
      show srec.endL - P.length = (srec.endL - P.length - 1) + 1 by omega]
    rfl
  have hQd' : ∀ s' : LSection,
      (P ++ (sid, Line.sec s') :: Q).drop srec.endL =
        Q.drop (srec.endL - P.length - 1) := by
    intro s'
    rw [List.drop_append_eq_append_drop, List.drop_eq_nil_of_le (by omega),
      List.nil_append,
      show srec.endL - P.length = (srec.endL - P.length - 1) + 1 by omega]
    rfl
  have hdisj' : List.Pairwise (fun p q : ℕ × Line => pairDisj p.2 q.2)
      m.lines := hdisj
  rw [hPQ, List.pairwise_append] at hdisj'
  obtain ⟨hP, hcQ, hPcQ⟩ := hdisj'
  rw [List.pairwise_cons] at hcQ
  obtain ⟨hcb, hQ⟩ := hcQ
  rw [hU, hQd, ← hQd']
  refine disj_insert _ srec.endL m.nextId _ ?_ ?_ ?_
  · rw [hQt]
    unfold linesDisj
    rw [List.pairwise_append]
    refine ⟨hP, ?_, ?_⟩
    · rw [List.pairwise_cons]
      constructor
      · intro b hb
        have hbQ : b ∈ Q := List.take_subset _ _ hb
        cases hb2 : b.2 with
        | sec sb =>
          exfalso
          have hlt := hcb b hbQ
          rw [hb2] at hlt
          have hub := numsFrom_bounds_of_mem _ _ _
            (numsFrom_take (P.length + 2) (srec.endL - P.length - 1) Q hQnums) hb
          have hlen2 : (Q.take (srec.endL - P.length - 1)).length ≤
              srec.endL - P.length - 1 := by
            rw [List.length_take]
            omega
          have hnum2 : b.2.num = sb.num := by rw [hb2]; rfl
          have hlt2 : srec.endL < sb.num := hlt
          omega
        | com c => trivial
        | val v => trivial
      · exact hQ.sublist (List.take_sublist _ _)
    · intro a ha b hb
      rcases List.mem_cons.mp hb with rfl | hb2
      · exact pairDisj_sec_congr_num a.2 srec _ rfl
          (hPcQ a ha _ (List.mem_cons_self _ _))
      · exact hPcQ a ha b
          (List.mem_cons_of_mem _ (List.take_subset _ _ hb2))
  · rw [hQd']
    exact hQ.sublist (List.drop_sublist _ _)
  · intro a ha b hb
    rw [hQt] at ha
    rw [hQd'] at hb
    have hbQ : b ∈ Q := List.drop_subset _ _ hb
    rcases List.mem_append.mp ha with haP | haC
    · exact pairDisjLe_of_pairDisj _ _
        (hPcQ a haP b (List.mem_cons_of_mem _ hbQ))
    · rcases List.mem_cons.mp haC with rfl | haQt
      · show pairDisjLe (Line.sec _) b.2
        cases hb2 : b.2 with
        | sec sb =>
          show srec.endL + 1 ≤ sb.num
          have hd := numsFrom_drop (P.length + 2) (srec.endL - P.length - 1) Q
            hQnums
          have hge := numsFrom_num_of_mem _ _ _ hd hb
          have hge2 : P.length + 2 + (srec.endL - P.length - 1) ≤ b.2.num := hge
          have hnum2 : b.2.num = sb.num := by rw [hb2]; rfl
          omega
        | com c => trivial
        | val v => trivial
      · have := linesDisj_split Q (srec.endL - P.length - 1) hQ
        exact pairDisjLe_of_pairDisj _ _ (this.2.2 a haQt b hb)

theorem WF_set_sec_new_state (m : IniMap) (sid : ℕ) (srec : LSection)
    (vk : String) (w : IniValue) (hWF : WF m)
    (h2 : m.lineById sid = some (.sec srec)) :
    WF { m with
          nextId := m.nextId + 1,
          lines :=
            (updateLine m.lines sid
              (fun l => Line.mapSet vk m.nextId (Line.addEnd .add l))).take
              srec.endL ++
            (m.nextId, Line.val
              { num := srec.endL + 1, sec := some srec.sec, key := vk,
                val := w }) ::
            (m.lines.drop srec.endL).map bumpE } := by
  have hdisjnew := disj_sec_new m sid srec vk w hWF h2
  obtain ⟨hmem, hlen0, hnumle, hee, hfresh, hdropfree⟩ :=
    sec_lookup_facts m sid srec hWF h2
  obtain ⟨hnodup, hids, hglob, hsecs, hmaps, hnums, hbounds, hdisj⟩ := hWF
  set U := updateLine m.lines sid
    (fun l => Line.mapSet vk m.nextId (Line.addEnd .add l)) with hUdef
  have hUids : U.map Prod.fst = m.lines.map Prod.fst := map_fst_updateLine _ _ _
  have hUlen : U.length = m.lines.length := length_updateLine _ _ _
  have hUdrop : U.drop srec.endL = m.lines.drop srec.endL := by
    rw [hUdef, updateLine_drop, updateLine_of_not_mem _ _ _ hdropfree]
  have hUmem : ∀ p ∈ U, p ∈ m.lines ∨ p = (sid,
      Line.sec { num := srec.num, sec := srec.sec,
                 map := assocSet srec.map vk m.nextId,
                 endL := srec.endL + 1 }) := by
    intro p hp
    rcases mem_updateLine _ _ _ p hp with ⟨q, hq, he⟩
    by_cases h : q.1 = sid
    · right
      have hq2 : q = (sid, Line.sec srec) :=
        eq_of_mem_nodup_ids m.lines q (sid, Line.sec srec) hnodup hq hmem h
      rw [he, if_pos h, hq2]
      rfl
    · left
      rw [he, if_neg h]
      exact hq
  refine ⟨?_, ?_, ?_, ?_, ?_, ?_, ?_, ?_⟩
  · show ((U.take srec.endL ++ _ :: (m.lines.drop srec.endL).map bumpE).map
      Prod.fst).Nodup
    rw [← hUdrop]
    exact nodup_insert U srec.endL _ (by rw [hUids]; exact hnodup)
      (by rw [hUids]; exact hfresh)
  · show ∀ p ∈ (U.take srec.endL ++ _ ::
        (m.lines.drop srec.endL).map bumpE), p.1 < m.nextId + 1
    rw [← hUdrop]
    refine idsBound_insert U srec.endL _ m.nextId ?_ (Nat.lt_succ_self _)
    intro p hp
    rcases hUmem p hp with h | rfl
    · exact hids p h
    · exact hids (sid, Line.sec srec) hmem
  · intro p hp
    exact lt_trans (hglob p hp) (Nat.lt_succ_self _)
  · intro p hp
    have hres := hsecs p hp
    have hmemres : ∃ r, lineByIdL m.lines p.2 = some (Line.sec r) ∧
        r.sec = p.1 := resolves_mem _ _ _ hres
    have hid : p.2 ≠ m.nextId := by
      intro hcontra
      obtain ⟨r, hr, _⟩ := hmemres
      have hm := mem_of_lineByIdL_eq_some m.lines p.2 _ hr
      exact absurd (hids _ hm) (by rw [hcontra]; exact lt_irrefl _)
    have hstep1 : resolvesSection (lineByIdL U p.2) p.1 :=
      resolvesSection_updateLine m.lines sid _ p.1 p.2
        (fun s => ⟨_, rfl, rfl⟩) hres
    show resolvesSection (lineByIdL (U.take srec.endL ++ _ ::
      (m.lines.drop srec.endL).map bumpE) p.2) p.1
    rw [← hUdrop]
    exact resolvesSection_insert U srec.endL m.nextId _ p.2 p.1 hid hstep1
  · show ∀ p ∈ (U.take srec.endL ++ _ ::
        (m.lines.drop srec.endL).map bumpE), lineMapBound (m.nextId + 1) p.2
    rw [← hUdrop]
    refine mapRefs_insert U srec.endL m.nextId _ (m.nextId + 1) ?_
    intro p hp
    rcases hUmem p hp with h | rfl
    · exact lineMapBound_mono _ _ _ (hmaps p h) (Nat.le_succ _)
    · intro q hq
      rcases mem_assocSet srec.map vk m.nextId q hq with h | rfl
      · exact lt_trans (hmaps _ hmem q h) (Nat.lt_succ_self _)
      · exact Nat.lt_succ_self _
  · show numsFrom 1 (U.take srec.endL ++ _ ::
      (m.lines.drop srec.endL).map bumpE)
    rw [← hUdrop]
    refine numsFrom_insert U srec.endL _ ?_ (by omega) rfl
    exact numsFrom_updateLine m.lines sid _
      (fun l => by rw [num_mapSet, num_addEnd]) 1 hnums
  · show ∀ p ∈ (U.take srec.endL ++ _ ::
        (m.lines.drop srec.endL).map bumpE),
      lineSecBound (U.take srec.endL ++ _ ::
        (m.lines.drop srec.endL).map bumpE).length p.2
    rw [← hUdrop]
    rw [length_insert_shape U srec.endL _ (by omega), hUlen]
    refine secBounds_insert U srec.endL m.nextId _ m.lines.length ?_ ?_
    · intro p hp
      rcases hUmem p (List.take_subset _ _ hp) with h | rfl
      · exact lineSecBound_mono _ _ _ (hbounds p h) (Nat.le_succ _)
      · exact ⟨by show srec.num ≤ srec.endL + 1; omega,
          by show srec.endL + 1 ≤ m.lines.length + 1; omega⟩
    · intro p hp
      rw [hUdrop] at hp
      exact hbounds p (List.drop_subset _ _ hp)
  · exact hdisjnew

theorem WF_appendSection (m : IniMap) (name : String) (hWF : WF m) :
    WF { m with
        nextId := m.nextId + 1,
        lines := m.lines ++ [(m.nextId, Line.sec
          { num := m.lines.length + 1, sec := name, map := [],
            endL := m.lines.length + 1 })],
        sections := assocSet m.sections name m.nextId } := by
  obtain ⟨hnodup, hids, hglob, hsecs, hmaps, hnums, hbounds, hdisj⟩ := hWF
  have hfresh : m.nextId ∉ m.lines.map Prod.fst :=
    not_mem_ids_of_bound m.lines m.nextId hids
  refine ⟨?_, ?_, ?_, ?_, ?_, ?_, ?_, ?_⟩
  · show ((m.lines ++ [_]).map Prod.fst).Nodup
    rw [List.map_append]
    refine List.Nodup.append hnodup (List.nodup_singleton _) ?_
    intro a ha hb
    rw [List.map_singleton, List.mem_singleton] at hb
    have hb' : a = m.nextId := hb
    exact hfresh (hb' ▸ ha)
  · intro p hp
    rcases List.mem_append.mp hp with h | h
    · exact lt_trans (hids p h) (Nat.lt_succ_self _)
    · rw [List.mem_singleton] at h
      rw [h]
      exact Nat.lt_succ_self _
  · intro p hp
    exact lt_trans (hglob p hp) (Nat.lt_succ_self _)
  · intro p hp
    rcases mem_assocSet m.sections name m.nextId p hp with h | rfl
    · have hres := hsecs p h
      obtain ⟨r, hr, hname⟩ := resolves_mem _ _ _ hres
      show resolvesSection (lineByIdL (m.lines ++ [_]) p.2) p.1
      rw [lineByIdL_append, hr]
      show resolvesSection (some (Line.sec r)) p.1
      exact hname
    · show resolvesSection (lineByIdL (m.lines ++ [_]) m.nextId) name
      rw [lineByIdL_append]
      have hnone : lineByIdL m.lines m.nextId = none := by
        cases hfind : lineByIdL m.lines m.nextId with
        | none => rfl
        | some l =>
          exact absurd (List.mem_map_of_mem Prod.fst
            (mem_of_lineByIdL_eq_some m.lines m.nextId l hfind)) hfresh
      rw [hnone]
      show resolvesSection (lineByIdL [(m.nextId, Line.sec
        { num := m.lines.length + 1, sec := name, map := [],
          endL := m.lines.length + 1 })] m.nextId) name
      rw [lineByIdL_cons, if_pos rfl]
      rfl
  · intro p hp
    rcases List.mem_append.mp hp with h | h
    · exact lineMapBound_mono _ _ _ (hmaps p h) (Nat.le_succ _)
    · rw [List.mem_singleton] at h
      rw [h]
      intro q hq
      cases hq
  · show numsFrom 1 (m.lines ++ [_])
    rw [numsFrom_append]
    exact ⟨hnums, by show m.lines.length + 1 = 1 + m.lines.length; omega,
      trivial⟩
  · intro p hp
    show lineSecBound (m.lines ++ [_]).length p.2
    rw [List.length_append, List.length_singleton]
    rcases List.mem_append.mp hp with h | h
    · exact lineSecBound_mono _ _ _ (hbounds p h) (Nat.le_succ _)
    · rw [List.mem_singleton] at h
      rw [h]
      exact ⟨le_refl _, le_refl _⟩
  · show linesDisj (m.lines ++ [_])
    unfold linesDisj
    rw [List.pairwise_append]
    refine ⟨hdisj, List.pairwise_singleton _ _, ?_⟩
    intro a ha b hb
    rw [List.mem_singleton] at hb
    rw [hb]
    cases ha2 : a.2 with
    | sec sa =>
      show sa.endL < m.lines.length + 1
      have hbd := hbounds a ha
      rw [ha2] at hbd
      have h2 : sa.endL ≤ m.lines.length := hbd.2
      omega
    | com c => trivial
    | val v => trivial

theorem assocGet_mem {β : Type} (l : List (String × β)) (k : String) (v : β)
    (h : assocGet l k = some v) : (k, v) ∈ l := by
  induction l with
  | nil => cases h
  | cons p rest ih =>
    rw [assocGet_cons] at h
    by_cases hp : p.1 = k
    · rw [if_pos hp] at h
      obtain ⟨a, b⟩ := p
      simp only [Option.some.injEq] at h
      subst h
      simp only [] at hp
      subst hp
      exact List.mem_cons_self _ _
    · rw [if_neg hp] at h
      exact List.mem_cons_of_mem _ (ih h)

theorem set_create_section (m : IniMap) (a vk : String) (c : IniValue)
    (hc : c ≠ .undef) (hnone : assocGet m.sections a = none)
    (hfresh : m.nextId ∉ m.lines.map Prod.fst) :
    m.set a (.str vk) c = (m.getOrCreateSection a).1.set a (.str vk) c := by
  have h1 := getOrCreateSection_new m a hnone
  have hfind : lineByIdL (m.lines ++ [(m.nextId, Line.sec
      { num := m.lines.length + 1, sec := a, map := [],
        endL := m.lines.length + 1 })]) m.nextId =
      some (Line.sec
        { num := m.lines.length + 1, sec := a, map := [],
          endL := m.lines.length + 1 }) := by
    rw [lineByIdL_append]
    have hnone2 : lineByIdL m.lines m.nextId = none := by
      cases hfind2 : lineByIdL m.lines m.nextId with
      | none => rfl
      | some l =>
        exact absurd (List.mem_map_of_mem Prod.fst
          (mem_of_lineByIdL_eq_some m.lines m.nextId l hfind2)) hfresh
    rw [hnone2]
    show lineByIdL [_] m.nextId = _
    rw [lineByIdL_cons, if_pos rfl]
  unfold IniMap.set
  simp only []
  rw [if_pos hc, if_pos hc, h1,
    getOrCreateSection_existing
      { m with
          nextId := m.nextId + 1,
          lines := m.lines ++ [(m.nextId, Line.sec
            { num := m.lines.length + 1, sec := a, map := [],
              endL := m.lines.length + 1 })],
          sections := assocSet m.sections a m.nextId }
      a m.nextId
      { num := m.lines.length + 1, sec := a, map := [],
        endL := m.lines.length + 1 }
      (assocGet_assocSet_self m.sections a m.nextId) hfind]

theorem WF_set_sec_of_lookup (m : IniMap) (a vk : String) (c : IniValue)
    (hc : c ≠ .undef) (sid : ℕ)
    (hs : assocGet m.sections a = some sid) (hWF : WF m) :
    WF (m.set a (.str vk) c) := by
  have hWF' := hWF
  obtain ⟨hnodup, hids, hglob, hsecs, hmaps, hnums, hbounds, hdisj⟩ := hWF'
  have hmemS : (a, sid) ∈ m.sections := assocGet_mem m.sections a sid hs
  obtain ⟨r, hr, hname⟩ := resolves_mem _ _ _ (hsecs _ hmemS)
  have hr' : m.lineById sid = some (Line.sec r) := hr
  cases hkey : assocGet r.map vk with
  | some vid =>
    rw [set_sec_existing_key m a vk c sid vid r hc hs hr' hkey]
    exact WF_updateLine_setVal m vid c hWF
  | none =>
    obtain ⟨hmem, hlen0, hnumle, hee, hfresh, hdropfree⟩ :=
      sec_lookup_facts m sid r hWF hr'
    rw [set_sec_new_key m a vk c sid r hc hs hr' hkey hlen0 hee hfresh
      hdropfree]
    exact WF_set_sec_new_state m sid r vk c hWF hr'

theorem WF_set (m : IniMap) (a : String) (b c : IniValue) (hWF : WF m) :
    WF (m.set a b c) := by
  have hfresh : m.nextId ∉ m.lines.map Prod.fst :=
    not_mem_ids_of_bound m.lines m.nextId hWF.2.1
  cases b with
  | str vk =>
    by_cases hc : c = .undef
    · rw [hc, set_str_undef]
      exact WF_setGlobal m a _ hWF
    · cases hs : assocGet m.sections a with
      | some sid => exact WF_set_sec_of_lookup m a vk c hc sid hs hWF
      | none =>
        rw [set_create_section m a vk c hc hs hfresh]
        have hWF1 : WF (m.getOrCreateSection a).1 := by
          rw [getOrCreateSection_new m a hs]
          exact WF_appendSection m a hWF
        have hs1 : assocGet (m.getOrCreateSection a).1.sections a =
            some m.nextId := by
          rw [getOrCreateSection_new m a hs]
          exact assocGet_assocSet_self _ _ _
        exact WF_set_sec_of_lookup _ a vk c hc m.nextId hs1 hWF1
  | num n =>
    rw [set_not_str m a _ c (fun s h => IniValue.noConfusion h)]
    exact WF_setGlobal m a _ hWF
  | bool bb =>
    rw [set_not_str m a _ c (fun s h => IniValue.noConfusion h)]
    exact WF_setGlobal m a _ hWF
  | null =>
    rw [set_not_str m a _ c (fun s h => IniValue.noConfusion h)]
    exact WF_setGlobal m a _ hWF
  | undef =>
    rw [set_not_str m a _ c (fun s h => IniValue.noConfusion h)]
    exact WF_setGlobal m a _ hWF

theorem lineSecBound_of_not_sec (n : ℕ) (l : Line) (hl : l.isSec = false) :
    lineSecBound n l := by
  cases l with
  | sec s => cases hl
  | com c => trivial
  | val v => trivial

theorem pairDisj_right_of_not_sec (a l : Line) (hl : l.isSec = false) :
    pairDisj a l := by
  cases a <;> cases l <;> first | trivial | cases hl

theorem WF_push_nonsec (m : IniMap) (l : Line) (g' : List (String × ℕ))
    (hWF : WF m) (hl : l.isSec = false)
    (hnum : l.num = m.lines.length + 1)
    (hg : ∀ p ∈ g', p.2 < m.nextId + 1)
    (hmb : lineMapBound (m.nextId + 1) l) :
    WF { m with
          nextId := m.nextId + 1,
          lines := m.lines ++ [(m.nextId, l)],
          global := g' } := by
  obtain ⟨hnodup, hids, hglob, hsecs, hmaps, hnums, hbounds, hdisj⟩ := hWF
  have hfresh : m.nextId ∉ m.lines.map Prod.fst :=
    not_mem_ids_of_bound m.lines m.nextId hids
  refine ⟨?_, ?_, ?_, ?_, ?_, ?_, ?_, ?_⟩
  · show ((m.lines ++ [_]).map Prod.fst).Nodup
    rw [List.map_append]
    refine List.Nodup.append hnodup (List.nodup_singleton _) ?_
    intro a ha hb
    rw [List.map_singleton, List.mem_singleton] at hb
    have hb' : a = m.nextId := hb
    exact hfresh (hb' ▸ ha)
  · intro p hp
    rcases List.mem_append.mp hp with h | h
    · exact lt_trans (hids p h) (Nat.lt_succ_self _)
    · rw [List.mem_singleton] at h
      rw [h]
      exact Nat.lt_succ_self _
  · exact hg
  · intro p hp
    have hres := hsecs p hp
    obtain ⟨r, hr, hname⟩ := resolves_mem _ _ _ hres
    show resolvesSection (lineByIdL (m.lines ++ [_]) p.2) p.1
    rw [lineByIdL_append, hr]
    show resolvesSection (some (Line.sec r)) p.1
    exact hname
  · intro p hp
    rcases List.mem_append.mp hp with h | h
    · exact lineMapBound_mono _ _ _ (hmaps p h) (Nat.le_succ _)
    · rw [List.mem_singleton] at h
      rw [h]
      exact hmb
  · show numsFrom 1 (m.lines ++ [_])
    rw [numsFrom_append]
    refine ⟨hnums, ?_, trivial⟩
    show l.num = 1 + m.lines.length
    omega
  · intro p hp
    show lineSecBound (m.lines ++ [_]).length p.2
    rw [List.length_append, List.length_singleton]
    rcases List.mem_append.mp hp with h | h
    · exact lineSecBound_mono _ _ _ (hbounds p h) (Nat.le_succ _)
    · rw [List.mem_singleton] at h
      rw [h]
      exact lineSecBound_of_not_sec _ _ hl
  · show linesDisj (m.lines ++ [_])
    unfold linesDisj
    rw [List.pairwise_append]
    refine ⟨hdisj, List.pairwise_singleton _ _, ?_⟩
    intro a ha b hb
    rw [List.mem_singleton] at hb
    rw [hb]
    exact pairDisj_right_of_not_sec _ _ hl

theorem updateLine_sandwich (A B : List (ℕ × Line)) (sid vid : ℕ)
    (r : LSection) (x : Line) (key : String) (ln : ℕ)
    (hsidA : sid ∉ A.map Prod.fst) (hsidB : sid ∉ B.map Prod.fst)
    (hvid : vid ≠ sid) :
    updateLine (updateLine (A ++ (sid, Line.sec r) :: B) sid
        (Line.mapSet key vid) ++ [(vid, x)]) sid (Line.setEnd ln) =
      A ++ (sid, Line.sec
        { num := r.num, sec := r.sec, map := assocSet r.map key vid,
          endL := ln }) :: (B ++ [(vid, x)]) := by
  have hsidBx : sid ∉ (B ++ [(vid, x)]).map Prod.fst := by
    rw [List.map_append, List.map_singleton]
    intro h
    rcases List.mem_append.mp h with h2 | h2
    · exact hsidB h2
    · rw [List.mem_singleton] at h2
      exact hvid h2.symm
  have hinner : updateLine (A ++ (sid, Line.sec r) :: B) sid
      (Line.mapSet key vid) =
      A ++ (sid, Line.sec { r with map := assocSet r.map key vid }) :: B := by
    rw [updateLine_append, updateLine_cons,
      updateLine_of_not_mem _ _ _ hsidA, updateLine_of_not_mem _ _ _ hsidB,
      if_pos (show (sid, Line.sec r).1 = sid from rfl)]
    rfl
  rw [hinner, List.append_assoc, List.cons_append]
  rw [updateLine_append, updateLine_cons,
    updateLine_of_not_mem _ _ _ hsidA,
    if_pos (show ((sid : ℕ), Line.sec
      { r with map := assocSet r.map key vid }).1 = sid from rfl),
    updateLine_of_not_mem _ _ _ hsidBx]
  rfl

theorem WF_parse_value_sec (m : IniMap) (sid : ℕ) (secName key : String)
    (w : IniValue) (A B : List (ℕ × Line)) (r : LSection)
    (hWF : WF m)
    (hsplit : m.lines = A ++ (sid, Line.sec r) :: B)
    (hnosec : ∀ p ∈ B, p.2.isSec = false)
    (hsidA : sid ∉ A.map Prod.fst) (hsidB : sid ∉ B.map Prod.fst) :
    WF { m with
          nextId := m.nextId + 1,
          lines := A ++ (sid, Line.sec
            { num := r.num, sec := r.sec,
              map := assocSet r.map key m.nextId,
              endL := m.lines.length + 1 }) ::
            (B ++ [(m.nextId, Line.val
              { num := m.lines.length + 1, sec := some secName, key := key,
                val := w })]) } := by
  obtain ⟨hnodup, hids, hglob, hsecs, hmaps, hnums, hbounds, hdisj⟩ := hWF
  have hfresh : m.nextId ∉ m.lines.map Prod.fst :=
    not_mem_ids_of_bound m.lines m.nextId hids
  have hsidmem : (sid, Line.sec r) ∈ m.lines := by
    rw [hsplit]
    exact List.mem_append.mpr (Or.inr (List.mem_cons_self _ _))
  have hvidne : m.nextId ≠ sid := by
    intro h
    exact hfresh (h ▸ List.mem_map_of_mem Prod.fst hsidmem)
  have hlenAB : m.lines.length = A.length + 1 + B.length := by
    rw [hsplit, List.length_append, List.length_cons]
    omega
  have hback : A ++ ((sid : ℕ), Line.sec
      { num := r.num, sec := r.sec, map := assocSet r.map key m.nextId,
        endL := m.lines.length + 1 }) ::
      (B ++ [(m.nextId, Line.val
        { num := m.lines.length + 1, sec := some secName, key := key,
          val := w })]) =
      updateLine (updateLine m.lines sid (Line.mapSet key m.nextId) ++
        [(m.nextId, Line.val
          { num := m.lines.length + 1, sec := some secName, key := key,
            val := w })]) sid (Line.setEnd (m.lines.length + 1)) := by
    rw [hsplit]
    exact (updateLine_sandwich A B sid m.nextId r _ key _
      hsidA hsidB hvidne).symm
  have hnumsplit : numsFrom 1 A ∧ (Line.sec r).num = 1 + A.length ∧
      numsFrom (1 + A.length + 1) B := by
    have h : numsFrom 1 m.lines := hnums
    rw [hsplit, numsFrom_append] at h
    exact ⟨h.1, h.2.1, h.2.2⟩
  have hdisj' : List.Pairwise (fun p q : ℕ × Line => pairDisj p.2 q.2)
      m.lines := hdisj
  rw [hsplit, List.pairwise_append, List.pairwise_cons] at hdisj'
  obtain ⟨hPA, ⟨hcb, hPB⟩, hAcB⟩ := hdisj'
  refine ⟨?_, ?_, ?_, ?_, ?_, ?_, ?_, ?_⟩
  · show ((A ++ _ :: (B ++ [_])).map Prod.fst).Nodup
    rw [List.map_append, List.map_cons, List.map_append, List.map_singleton]
    rw [List.nodup_middle]
    rw [show (sid : ℕ) :: (A.map Prod.fst ++ (B.map Prod.fst ++ [m.nextId])) =
      ((sid :: (A.map Prod.fst ++ B.map Prod.fst)) ++ [m.nextId]) by
        simp [List.append_assoc]]
    refine List.Nodup.append ?_ (List.nodup_singleton _) ?_
    · have h : (m.lines.map Prod.fst).Nodup := hnodup
      rw [hsplit, List.map_append, List.map_cons, List.nodup_middle] at h
      exact h
    · intro a ha hb
      rw [List.mem_singleton] at hb
      subst hb
      rcases List.mem_cons.mp ha with h | h
      · exact hvidne h
      · have h2 := hfresh
        rw [hsplit, List.map_append, List.map_cons] at h2
        rcases List.mem_append.mp h with h3 | h3
        · exact h2 (List.mem_append.mpr (Or.inl h3))
        · exact h2 (List.mem_append.mpr (Or.inr (List.mem_cons_of_mem _ h3)))
  · intro p hp
    rcases List.mem_append.mp hp with h | h
    · have hm : p ∈ m.lines := by
        rw [hsplit]
        exact List.mem_append.mpr (Or.inl h)
      exact lt_trans (hids p hm) (Nat.lt_succ_self _)
    · rcases List.mem_cons.mp h with rfl | h2
      · exact lt_trans (hids (sid, Line.sec r) hsidmem) (Nat.lt_succ_self _)
      · rcases List.mem_append.mp h2 with h3 | h3
        · have hm : p ∈ m.lines := by
            rw [hsplit]
            exact List.mem_append.mpr (Or.inr (List.mem_cons_of_mem _ h3))
          exact lt_trans (hids p hm) (Nat.lt_succ_self _)
        · rw [List.mem_singleton] at h3
          rw [h3]
          exact Nat.lt_succ_self _
  · intro p hp
    exact lt_trans (hglob p hp) (Nat.lt_succ_self _)
  · intro p hp
    have hres := hsecs p hp
    show resolvesSection (lineByIdL (A ++ _ :: (B ++ [_])) p.2) p.1
    rw [hback]
    have hstep1 : resolvesSection
        (lineByIdL (updateLine m.lines sid (Line.mapSet key m.nextId)) p.2)
        p.1 :=
      resolvesSection_updateLine m.lines sid _ p.1 p.2
        (fun s => ⟨_, rfl, rfl⟩) hres
    have hstep2 : resolvesSection
        (lineByIdL (updateLine m.lines sid (Line.mapSet key m.nextId) ++
          [(m.nextId, Line.val
            { num := m.lines.length + 1, sec := some secName, key := key,
              val := w })]) p.2) p.1 := by
      obtain ⟨rr, hr, hname⟩ := resolves_mem _ _ _ hstep1
      rw [lineByIdL_append, hr]
      show resolvesSection (some (Line.sec rr)) p.1
      exact hname
    exact resolvesSection_updateLine _ sid _ p.1 p.2
      (fun s => ⟨_, rfl, rfl⟩) hstep2
  · intro p hp
    rcases List.mem_append.mp hp with h | h
    · have hm : p ∈ m.lines := by
        rw [hsplit]
        exact List.mem_append.mpr (Or.inl h)
      exact lineMapBound_mono _ _ _ (hmaps p hm) (Nat.le_succ _)
    · rcases List.mem_cons.mp h with rfl | h2
      · intro q hq
        rcases mem_assocSet r.map key m.nextId q hq with h3 | rfl
        · exact lt_trans (hmaps _ hsidmem q h3) (Nat.lt_succ_self _)
        · exact Nat.lt_succ_self _
      · rcases List.mem_append.mp h2 with h3 | h3
        · have hm : p ∈ m.lines := by
            rw [hsplit]
            exact List.mem_append.mpr (Or.inr (List.mem_cons_of_mem _ h3))
          exact lineMapBound_mono _ _ _ (hmaps p hm) (Nat.le_succ _)
        · rw [List.mem_singleton] at h3
          rw [h3]
          trivial
  · show numsFrom 1 (A ++ _ :: (B ++ [_]))
    rw [numsFrom_append]
    refine ⟨hnumsplit.1, ?_, ?_⟩
    · show r.num = 1 + A.length
      exact hnumsplit.2.1
    · rw [numsFrom_append]
      refine ⟨hnumsplit.2.2, ?_, trivial⟩
      show m.lines.length + 1 = 1 + A.length + 1 + B.length
      omega
  · intro p hp
    show lineSecBound (A ++ _ :: (B ++ [_])).length p.2
    have hlen2 : (A ++ ((sid : ℕ), Line.sec
        { num := r.num, sec := r.sec, map := assocSet r.map key m.nextId,
          endL := m.lines.length + 1 }) ::
        (B ++ [(m.nextId, Line.val
          { num := m.lines.length + 1, sec := some secName, key := key,
            val := w })])).length = m.lines.length + 1 := by
      rw [List.length_append, List.length_cons, List.length_append,
        List.length_singleton]
      omega
    rw [hlen2]
    rcases List.mem_append.mp hp with h | h
    · have hm : p ∈ m.lines := by
        rw [hsplit]
        exact List.mem_append.mpr (Or.inl h)
      exact lineSecBound_mono _ _ _ (hbounds p hm) (Nat.le_succ _)
    · rcases List.mem_cons.mp h with rfl | h2
      · have hb := hbounds _ hsidmem
        have hb1 : r.num ≤ r.endL := hb.1
        have hb2 : r.endL ≤ m.lines.length := hb.2
        exact ⟨by show r.num ≤ m.lines.length + 1; omega,
          by show m.lines.length + 1 ≤ m.lines.length + 1; omega⟩
      · rcases List.mem_append.mp h2 with h3 | h3
        · have hm : p ∈ m.lines := by
            rw [hsplit]
            exact List.mem_append.mpr (Or.inr (List.mem_cons_of_mem _ h3))
          exact lineSecBound_mono _ _ _ (hbounds p hm) (Nat.le_succ _)
        · rw [List.mem_singleton] at h3
          rw [h3]
          trivial
  · show linesDisj (A ++ _ :: (B ++ [_]))
    unfold linesDisj
    rw [List.pairwise_append, List.pairwise_cons]
    refine ⟨hPA, ⟨?_, ?_⟩, ?_⟩
    · intro b hb
      rcases List.mem_append.mp hb with h | h
      · exact pairDisj_right_of_not_sec _ _ (hnosec b h)
      · rw [List.mem_singleton] at h
        rw [h]
        exact pairDisj_val_right _ _
    · rw [List.pairwise_append]
      refine ⟨hPB, List.pairwise_singleton _ _, ?_⟩
      intro a _ b hb
      rw [List.mem_singleton] at hb
      rw [hb]
      exact pairDisj_val_right _ _
    · intro a ha b hb
      rcases List.mem_cons.mp hb with rfl | h2
      · exact pairDisj_sec_congr_num a.2 r _ rfl
          (hAcB a ha _ (List.mem_cons_self _ _))
      · rcases List.mem_append.mp h2 with h3 | h3
        · exact hAcB a ha b (List.mem_cons_of_mem _ h3)
        · rw [List.mem_singleton] at h3
          rw [h3]
          exact pairDisj_val_right _ _

/-! ## Branch equations for the parse loop -/

theorem isSectionCheck_no_bracket (input : String) (ln : ℕ)
    (hbrack : jsStartsWith input "[" = false) :
    isSectionCheck input ln = .ok false := by
  unfold isSectionCheck
  rw [if_neg]
  rw [hbrack]
  exact Bool.false_ne_true

theorem isSectionCheck_closed (input : String) (ln : ℕ)
    (hbrack : jsStartsWith input "[" = true)
    (hend : jsEndsWith input "]" = true) :
    isSectionCheck input ln = .ok true := by
  unfold isSectionCheck
  rw [if_pos hbrack, if_pos hend]

theorem isSectionCheck_unclosed (input : String) (ln : ℕ)
    (hbrack : jsStartsWith input "[" = true)
    (hend : jsEndsWith input "]" = false) :
    isSectionCheck input ln = .error (.unexpectedEndOfSection ln) := by
  unfold isSectionCheck
  rw [if_pos hbrack, if_neg]
  rw [hend]
  exact Bool.false_ne_true

theorem parseLine_comment (m : IniMap) (cur : Option (ℕ × String))
    (rev : Reviver) (raw : String) (ln : ℕ)
    (hcom : isComment (jsTrim raw) = true) :
    m.parseLine cur rev raw ln = .ok
      ({ m with
          nextId := m.nextId + 1,
          lines := m.lines ++
            [(m.nextId, Line.com { num := ln, val := jsTrim raw })] },
        cur) := by
  unfold IniMap.parseLine
  rw [if_pos hcom]

theorem parseLine_section (m : IniMap) (cur : Option (ℕ × String))
    (rev : Reviver) (raw : String) (ln : ℕ)
    (hcom : isComment (jsTrim raw) = false)
    (hbrack : jsStartsWith (jsTrim raw) "[" = true)
    (hend : jsEndsWith (jsTrim raw) "]" = true)
    (hname : ((secNameOf (jsTrim raw)).data.any (fun c => !jsIsWs c)) = true) :
    m.parseLine cur rev raw ln = .ok
      ({ m with
          nextId := m.nextId + 1,
          lines := m.lines ++ [(m.nextId, Line.sec
            { num := ln, sec := secNameOf (jsTrim raw), map := [],
              endL := ln })],
          sections := assocSet m.sections (secNameOf (jsTrim raw)) m.nextId },
        some (m.nextId, secNameOf (jsTrim raw))) := by
  unfold IniMap.parseLine
  rw [if_neg (by rw [hcom]; exact Bool.false_ne_true),
    isSectionCheck_closed _ _ hbrack hend]
  show (if (!((secNameOf (jsTrim raw)).data.any (fun c => !jsIsWs c))) = true
    then _ else _) = _
  rw [if_neg]
  rw [hname]
  exact Bool.false_ne_true

theorem parseLine_err_unclosed (m : IniMap) (cur : Option (ℕ × String))
    (rev : Reviver) (raw : String) (ln : ℕ)
    (hcom : isComment (jsTrim raw) = false)
    (hbrack : jsStartsWith (jsTrim raw) "[" = true)
    (hend : jsEndsWith (jsTrim raw) "]" = false) :
    m.parseLine cur rev raw ln = .error (.unexpectedEndOfSection ln) := by
  unfold IniMap.parseLine
  rw [if_neg (by rw [hcom]; exact Bool.false_ne_true),
    isSectionCheck_unclosed _ _ hbrack hend]

theorem parseLine_err_empty_name (m : IniMap) (cur : Option (ℕ × String))
    (rev : Reviver) (raw : String) (ln : ℕ)
    (hcom : isComment (jsTrim raw) = false)
    (hbrack : jsStartsWith (jsTrim raw) "[" = true)
    (hend : jsEndsWith (jsTrim raw) "]" = true)
    (hname : ((secNameOf (jsTrim raw)).data.any (fun c => !jsIsWs c)) = false) :
    m.parseLine cur rev raw ln = .error (.emptySectionName ln) := by
  unfold IniMap.parseLine
  rw [if_neg (by rw [hcom]; exact Bool.false_ne_true),
    isSectionCheck_closed _ _ hbrack hend]
  show (if (!((secNameOf (jsTrim raw)).data.any (fun c => !jsIsWs c))) = true
    then _ else _) = _
  rw [if_pos]
  rw [hname]
  rfl

theorem parseLine_err_no_assign (m : IniMap) (cur : Option (ℕ × String))
    (rev : Reviver) (raw : String) (ln : ℕ)
    (hcom : isComment (jsTrim raw) = false)
    (hbrack : jsStartsWith (jsTrim raw) "[" = false)
    (hidx : (jsTrim raw).data.findIdx? (fun c => c = '=') = none) :
    m.parseLine cur rev raw ln =
      .error (.unexpectedToken (jsTrim raw).data.head? ln) := by
  unfold IniMap.parseLine
  rw [if_neg (by rw [hcom]; exact Bool.false_ne_true),
    isSectionCheck_no_bracket _ _ hbrack, hidx]

theorem parseLine_err_empty_key (m : IniMap) (cur : Option (ℕ × String))
    (rev : Reviver) (raw : String) (ln : ℕ)
    (hcom : isComment (jsTrim raw) = false)
    (hbrack : jsStartsWith (jsTrim raw) "[" = false)
    (hidx : (jsTrim raw).data.findIdx? (fun c => c = '=') = some 0) :
    m.parseLine cur rev raw ln = .error (.emptyKeyName ln) := by
  unfold IniMap.parseLine
  rw [if_neg (by rw [hcom]; exact Bool.false_ne_true),
    isSectionCheck_no_bracket _ _ hbrack, hidx]

theorem parseLine_kv_sec (m : IniMap) (sid : ℕ) (secName : String)
    (rev : Reviver) (raw : String) (ln : ℕ) (p : ℕ)
    (hcom : isComment (jsTrim raw) = false)
    (hbrack : jsStartsWith (jsTrim raw) "[" = false)
    (hidx : (jsTrim raw).data.findIdx? (fun c => c = '=') = some (p + 1)) :
    m.parseLine (some (sid, secName)) rev raw ln = .ok
      (let m1 := applyPretty m (prettyOf (jsTrim raw) (p + 1))
       let key := jsTrim (kvLeft (jsTrim raw) (p + 1))
       let value := jsTrim (kvRight (jsTrim raw) (p + 1))
       { m1 with
          nextId := m1.nextId + 1,
          lines := updateLine
            (updateLine m1.lines sid (Line.mapSet key m1.nextId) ++
              [(m1.nextId, Line.val
                { num := ln, sec := some secName, key := key,
                  val := rev key value (some secName) })])
            sid (Line.setEnd ln) },
        some (sid, secName)) := by
  unfold IniMap.parseLine
  rw [if_neg (by rw [hcom]; exact Bool.false_ne_true),
    isSectionCheck_no_bracket _ _ hbrack, hidx]
  rfl

theorem parseLine_kv_global (m : IniMap) (rev : Reviver) (raw : String)
    (ln : ℕ) (p : ℕ)
    (hcom : isComment (jsTrim raw) = false)
    (hbrack : jsStartsWith (jsTrim raw) "[" = false)
    (hidx : (jsTrim raw).data.findIdx? (fun c => c = '=') = some (p + 1)) :
    m.parseLine none rev raw ln = .ok
      (let m1 := applyPretty m (prettyOf (jsTrim raw) (p + 1))
       let key := jsTrim (kvLeft (jsTrim raw) (p + 1))
       let value := jsTrim (kvRight (jsTrim raw) (p + 1))
       { m1 with
          nextId := m1.nextId + 1,
          global := assocSet m1.global key m1.nextId,
          lines := m1.lines ++ [(m1.nextId, Line.val
            { num := ln, sec := none, key := key,
              val := rev key value none })] },
        none) := by
  unfold IniMap.parseLine
  rw [if_neg (by rw [hcom]; exact Bool.false_ne_true),
    isSectionCheck_no_bracket _ _ hbrack, hidx]
  rfl

theorem applyPretty_lines (m : IniMap) (b : Bool) :
    (applyPretty m b).lines = m.lines := by
  unfold applyPretty
  by_cases h : m.pretty = none
  · rw [if_pos h]
  · rw [if_neg h]

theorem applyPretty_nextId (m : IniMap) (b : Bool) :
    (applyPretty m b).nextId = m.nextId := by
  unfold applyPretty
  by_cases h : m.pretty = none
  · rw [if_pos h]
  · rw [if_neg h]

theorem applyPretty_global (m : IniMap) (b : Bool) :
    (applyPretty m b).global = m.global := by
  unfold applyPretty
  by_cases h : m.pretty = none
  · rw [if_pos h]
  · rw [if_neg h]

theorem applyPretty_sections (m : IniMap) (b : Bool) :
    (applyPretty m b).sections = m.sections := by
  unfold applyPretty
  by_cases h : m.pretty = none
  · rw [if_pos h]
  · rw [if_neg h]

theorem WF_applyPretty (m : IniMap) (b : Bool) (hWF : WF m) :
    WF (applyPretty m b) := by
  unfold applyPretty
  by_cases h : m.pretty = none
  · rw [if_pos h]
    exact hWF
  · rw [if_neg h]
    exact hWF

theorem parseLine_inv (m : IniMap) (cur : Option (ℕ × String)) (rev : Reviver)
    (raw : String) (ln : ℕ) (m' : IniMap) (cur' : Option (ℕ × String))
    (hInv : ParseInv m cur ln)
    (h : m.parseLine cur rev raw ln = .ok (m', cur')) :
    ParseInv m' cur' (ln + 1) := by
  obtain ⟨hWF, hln, hcur⟩ := hInv
  subst hln
  have hfresh : m.nextId ∉ m.lines.map Prod.fst :=
    not_mem_ids_of_bound m.lines m.nextId hWF.2.1
  by_cases hcom : isComment (jsTrim raw) = true
  · rw [parseLine_comment m cur rev raw _ hcom] at h
    obtain ⟨hm, hc⟩ := Prod.mk.inj (Except.ok.inj h)
    subst hm
    subst hc
    refine ⟨?_, ?_, ?_⟩
    · exact WF_push_nonsec m _ m.global hWF rfl rfl
        (fun p hp => lt_trans (hWF.2.2.1 p hp) (Nat.lt_succ_self _)) trivial
    · show m.lines.length + 1 + 1 = (m.lines ++ [_]).length + 1
      rw [List.length_append, List.length_singleton]
    · cases cur with
      | none => trivial
      | some sc =>
        obtain ⟨sid, name⟩ := sc
        obtain ⟨A, r, B, hsplit, hname, hnosec, hA, hB⟩ := hcur
        have hsidlt : sid < m.nextId := by
          refine hWF.2.1 (sid, Line.sec r) ?_
          rw [hsplit]
          exact List.mem_append.mpr (Or.inr (List.mem_cons_self _ _))
        refine ⟨A, r, B ++ [(m.nextId,
          Line.com { num := m.lines.length + 1, val := jsTrim raw })],
          ?_, hname, ?_, hA, ?_⟩
        · rw [hsplit, List.append_assoc, List.cons_append]
        · intro p hp
          rcases List.mem_append.mp hp with h2 | h2
          · exact hnosec p h2
          · rw [List.mem_singleton] at h2
            rw [h2]
            rfl
        · rw [List.map_append, List.map_singleton]
          intro h2
          rcases List.mem_append.mp h2 with h3 | h3
          · exact hB h3
          · rw [List.mem_singleton] at h3
            exact absurd (h3 ▸ hsidlt) (lt_irrefl _)
  · have hcom' : isComment (jsTrim raw) = false := by
      cases hcb : isComment (jsTrim raw)
      · rfl
      · exact absurd hcb hcom
    by_cases hbrack : jsStartsWith (jsTrim raw) "[" = true
    · by_cases hend : jsEndsWith (jsTrim raw) "]" = true
      · by_cases hname : ((secNameOf (jsTrim raw)).data.any
            (fun c => !jsIsWs c)) = true
        · rw [parseLine_section m cur rev raw _ hcom' hbrack hend hname] at h
          obtain ⟨hm, hc⟩ := Prod.mk.inj (Except.ok.inj h)
          subst hm
          subst hc
          refine ⟨?_, ?_, ?_⟩
          · exact WF_appendSection m (secNameOf (jsTrim raw)) hWF
          · show m.lines.length + 1 + 1 = (m.lines ++ [_]).length + 1
            rw [List.length_append, List.length_singleton]
          · refine ⟨m.lines,
              { num := m.lines.length + 1, sec := secNameOf (jsTrim raw),
                map := [], endL := m.lines.length + 1 }, [],
              rfl, rfl, ?_, hfresh, ?_⟩
            · intro p hp
              cases hp
            · intro h2
              cases h2
        · have hname' : ((secNameOf (jsTrim raw)).data.any
              (fun c => !jsIsWs c)) = false := by
            cases hnb : ((secNameOf (jsTrim raw)).data.any (fun c => !jsIsWs c))
            · rfl
            · exact absurd hnb hname
          rw [parseLine_err_empty_name m cur rev raw _ hcom' hbrack hend
            hname'] at h
          exact Except.noConfusion h
      · have hend' : jsEndsWith (jsTrim raw) "]" = false := by
          cases heb : jsEndsWith (jsTrim raw) "]"
          · rfl
          · exact absurd heb hend
        rw [parseLine_err_unclosed m cur rev raw _ hcom' hbrack hend'] at h
        exact Except.noConfusion h
    · have hbrack' : jsStartsWith (jsTrim raw) "[" = false := by
        cases hbb : jsStartsWith (jsTrim raw) "["
        · rfl
        · exact absurd hbb hbrack
      cases hidx : (jsTrim raw).data.findIdx? (fun c => c = '=') with
      | none =>
        rw [parseLine_err_no_assign m cur rev raw _ hcom' hbrack' hidx] at h
        exact Except.noConfusion h
      | some p =>
        cases p with
        | zero =>
          rw [parseLine_err_empty_key m cur rev raw _ hcom' hbrack' hidx] at h
          exact Except.noConfusion h
        | succ q =>
          cases cur with
          | none =>
            rw [parseLine_kv_global m rev raw _ q hcom' hbrack' hidx] at h
            obtain ⟨hm, hc⟩ := Prod.mk.inj (Except.ok.inj h)
            subst hm
            subst hc
            have hWF1 := WF_applyPretty m
              (prettyOf (jsTrim raw) (q + 1)) hWF
            refine ⟨?_, ?_, trivial⟩
            · refine WF_push_nonsec _ _ _ hWF1 rfl ?_ ?_ trivial
              · show m.lines.length + 1 =
                  (applyPretty m (prettyOf (jsTrim raw) (q + 1))).lines.length
                    + 1
                rw [applyPretty_lines]
              · intro pp hp
                rw [applyPretty_global] at hp
                rcases mem_assocSet _ _ _ pp hp with h2 | rfl
                · rw [applyPretty_nextId]
                  exact lt_trans (hWF.2.2.1 pp h2) (Nat.lt_succ_self _)
                · rw [applyPretty_nextId]
                  exact Nat.lt_succ_self _
            · show m.lines.length + 1 + 1 = (_ ++ [_]).length + 1
              rw [List.length_append, List.length_singleton,
                applyPretty_lines]
          | some sc =>
            obtain ⟨sid, secName⟩ := sc
            obtain ⟨A, r, B, hsplit, hname, hnosec, hA, hB⟩ := hcur
            rw [parseLine_kv_sec m sid secName rev raw _ q hcom' hbrack'
              hidx] at h
            obtain ⟨hm, hc⟩ := Prod.mk.inj (Except.ok.inj h)
            subst hm
            subst hc
            have hWF1 := WF_applyPretty m
              (prettyOf (jsTrim raw) (q + 1)) hWF
            have hl1 : (applyPretty m
                (prettyOf (jsTrim raw) (q + 1))).lines = m.lines :=
              applyPretty_lines _ _
            have hn1 : (applyPretty m
                (prettyOf (jsTrim raw) (q + 1))).nextId = m.nextId :=
              applyPretty_nextId _ _
            have hsidlt : sid < m.nextId := by
              refine hWF.2.1 (sid, Line.sec r) ?_
              rw [hsplit]
              exact List.mem_append.mpr (Or.inr (List.mem_cons_self _ _))
            have hvidne : m.nextId ≠ sid := by
              intro h2
              exact absurd (h2 ▸ hsidlt) (lt_irrefl _)
            have hsand := updateLine_sandwich A B sid m.nextId r
              (Line.val
                { num := (A ++ (sid, Line.sec r) :: B).length + 1,
                  sec := some secName,
                  key := jsTrim (kvLeft (jsTrim raw) (q + 1)),
                  val := rev (jsTrim (kvLeft (jsTrim raw) (q + 1)))
                    (jsTrim (kvRight (jsTrim raw) (q + 1))) (some secName) })
              (jsTrim (kvLeft (jsTrim raw) (q + 1)))
              ((A ++ (sid, Line.sec r) :: B).length + 1) hA hB hvidne
            have hlines2 : updateLine
                (updateLine (applyPretty m
                    (prettyOf (jsTrim raw) (q + 1))).lines sid
                  (Line.mapSet (jsTrim (kvLeft (jsTrim raw) (q + 1)))
                    (applyPretty m
                      (prettyOf (jsTrim raw) (q + 1))).nextId) ++
                  [((applyPretty m (prettyOf (jsTrim raw) (q + 1))).nextId,
                    Line.val
                      { num := m.lines.length + 1, sec := some secName,
                        key := jsTrim (kvLeft (jsTrim raw) (q + 1)),
                        val := rev (jsTrim (kvLeft (jsTrim raw) (q + 1)))
                          (jsTrim (kvRight (jsTrim raw) (q + 1)))
                          (some secName) })])
                sid (Line.setEnd (m.lines.length + 1)) =
                A ++ (sid, Line.sec
                  { num := r.num, sec := r.sec,
                    map := assocSet r.map
                      (jsTrim (kvLeft (jsTrim raw) (q + 1))) m.nextId,
                    endL := m.lines.length + 1 }) ::
                  (B ++ [(m.nextId, Line.val
                    { num := m.lines.length + 1, sec := some secName,
                      key := jsTrim (kvLeft (jsTrim raw) (q + 1)),
                      val := rev (jsTrim (kvLeft (jsTrim raw) (q + 1)))
                        (jsTrim (kvRight (jsTrim raw) (q + 1)))
                        (some secName) })]) := by
              rw [hl1, hn1, hsplit]
              exact hsand
            simp only []
            rw [hlines2]
            refine ⟨?_, ?_, ?_⟩
            · rw [← hl1, ← hn1]
              exact WF_parse_value_sec
                (applyPretty m (prettyOf (jsTrim raw) (q + 1))) sid secName
                (jsTrim (kvLeft (jsTrim raw) (q + 1)))
                (rev (jsTrim (kvLeft (jsTrim raw) (q + 1)))
                  (jsTrim (kvRight (jsTrim raw) (q + 1))) (some secName))
                A B r hWF1 (by rw [hl1]; exact hsplit) hnosec hA hB
            · show m.lines.length + 1 + 1 = (A ++ _ :: (B ++ [_])).length + 1
              rw [List.length_append, List.length_cons, List.length_append,
                List.length_singleton]
              have hlenAB : m.lines.length = A.length + 1 + B.length := by
                rw [hsplit, List.length_append, List.length_cons]
                omega
              omega
            · refine ⟨A, _, B ++ [(m.nextId, Line.val
                { num := m.lines.length + 1, sec := some secName,
                  key := jsTrim (kvLeft (jsTrim raw) (q + 1)),
                  val := rev (jsTrim (kvLeft (jsTrim raw) (q + 1)))
                    (jsTrim (kvRight (jsTrim raw) (q + 1)))
                    (some secName) })], rfl, hname, ?_, hA, ?_⟩
              · intro p hp
                rcases List.mem_append.mp hp with h2 | h2
                · exact hnosec p h2
                · rw [List.mem_singleton] at h2
                  rw [h2]
                  rfl
              · rw [List.map_append, List.map_singleton]
                intro h2
                rcases List.mem_append.mp h2 with h3 | h3
                · exact hB h3
                · rw [List.mem_singleton] at h3
                  exact hvidne h3.symm

/-- The parse loop preserves the parse invariant: a successful run from an
invariant state ends well-formed. -/
theorem parseGo_inv (rev : Reviver) (ls : List String) :
    ∀ (m : IniMap) (cur : Option (ℕ × String)) (ln : ℕ) (m' : IniMap),
      ParseInv m cur ln → IniMap.parseGo rev m cur ln ls = .ok m' →
      WF m' := by
  induction ls with
  | nil =>
    intro m cur ln m' hInv h
    have h2 : m = m' := Except.ok.inj h
    exact h2 ▸ hInv.1
  | cons l rest ih =>
    intro m cur ln m' hInv h
    have h2 : (match m.parseLine cur rev l ln with
        | .error e => (Except.error e : Except ParseErr IniMap)
        | .ok (m2, cur2) => IniMap.parseGo rev m2 cur2 (ln + 1) rest) =
        .ok m' := h
    cases hstep : m.parseLine cur rev l ln with
    | error e =>
      rw [hstep] at h2
      exact Except.noConfusion h2
    | ok p =>
      obtain ⟨m2, cur2⟩ := p
      rw [hstep] at h2
      exact ih m2 cur2 (ln + 1) m'
        (parseLine_inv m cur rev l ln m2 cur2 hInv hstep) h2

/-- A successful `parseStr` starting from a well-formed model with no line
records yields a well-formed model. -/
theorem WF_parseStr (m : IniMap) (text : String) (reviver : Option Reviver)
    (m' : IniMap) (hWF : WF m) (hlines : m.lines = [])
    (h : m.parseStr text reviver = .ok m') : WF m' := by
  refine parseGo_inv _ (splitLines text)
    { m with lineBreak := detectLB text.data m.lineBreak } none 1 m'
    ⟨hWF, ?_, trivial⟩ h
  show 1 = m.lines.length + 1
  rw [hlines]
  rfl

/-- One tokenized line per terminator, plus the final line after the last
terminator. -/
theorem splitLinesAux_length (cs acc : List Char) :
    (splitLinesAux cs acc).length = countTerms cs + 1 := by
  induction cs, acc using splitLinesAux.induct with
  | case1 acc => rfl
  | case2 rest acc ih =>
    simp only [splitLinesAux, countTerms, List.length_cons, ih]
  | case3 rest acc ih =>
    simp only [splitLinesAux, countTerms, List.length_cons, ih]
  | case4 rest acc h ih =>
    simp only [splitLinesAux, countTerms, List.length_cons, ih]
  | case5 c rest acc h1 h2 h3 ih =>
    simp only [splitLinesAux, countTerms, ih]

/-- C1: the two-argument global path of `set` never checks whether the key
already exists (the section path does), so a repeated global `set` of the
same key and value appends a second line record instead of updating the
existing one in place: starting from an empty model, two identical global
sets leave two line records, and the global index points at the second
record while the first stays in the document. -/
theorem C1_global_set_duplicates :
    ((IniMap.empty.set "a" (.str "1") .undef).set "a" (.str "1")
        .undef).lines.length = 2 ∧
    ((IniMap.empty.set "a" (.str "1") .undef).set "a" (.str "1")
        .undef).global = [("a", 1)] :=
  ⟨rfl, rfl⟩

/-- C5 counterexample: a non-string argument to `parse` is rejected by the
`typeof text !== "string"` guard with a `SyntaxError` (message `Unexpected
token ... in INI at line 0`), not a `TypeError`, refuting the claim that
the call fails with a type error. -/
theorem C5_counterexample :
    IniMap.empty.parseAny (JsInput.nonString "42") none =
      .error (ParseErr.nonStringInput "42") ∧
    (ParseErr.nonStringInput "42").kind ≠ JsErrorKind.typeError :=
  ⟨rfl, by decide⟩

/-- C5 amended: every non-string input to `parse` fails synchronously, but
with a `SyntaxError` carrying line number 0, not a type error. -/
theorem C5_amended (m : IniMap) (shown : String) (r : Option Reviver) :
    m.parseAny (JsInput.nonString shown) r =
      .error (ParseErr.nonStringInput shown) ∧
    (ParseErr.nonStringInput shown).kind = JsErrorKind.syntaxError ∧
    (ParseErr.nonStringInput shown).lineNo = 0 :=
  ⟨rfl, rfl, rfl⟩

/-- C10: the tokenizer yields exactly one line per terminator plus one
final line after the last terminator, so parsing text that ends with a
newline appends a trailing empty comment record: `"a=1\n"` produces two
line records, the second an empty comment at line 2. -/
theorem C10_tokenizer_trailing_line :
    (∀ text : String, (splitLines text).length = countTerms text.data + 1) ∧
    (IniMap.empty.parseStr "a=1\n" none).map IniMap.lines =
      .ok [(0, Line.val { num := 1, sec := none, key := "a",
                          val := .num (JNum.fin 1) }),
           (1, Line.com { num := 2, val := "" })] := by
  refine ⟨fun text => splitLinesAux_length text.data [], ?_⟩
  rfl

/-- C6: with no custom reviver, `parse` coerces each raw trimmed value as
the specification describes — a number exactly when the string parses
fully as a numeric literal and contains no double quote, else the
`null`/`true`/`false` literals, else the string with one pair of
surrounding double quotes stripped — and the documented example parses to
the expected object. -/
theorem C6_default_coercion :
    (∀ k v s, defaultReviver k v s = specCoercion v) ∧
    (IniMap.empty.parseStr "a=1\nb=true\nc=null\nd=\"x\"\ne=plain"
        none).map IniMap.toObject =
      .ok [("a", ObjValue.prim (.num (JNum.fin 1))),
           ("b", ObjValue.prim (.bool true)),
           ("c", ObjValue.prim .null),
           ("d", ObjValue.prim (.str "x")),
           ("e", ObjValue.prim (.str "plain"))] := by
  refine ⟨?_, rfl⟩
  intro k v s
  show (match jsStringToNumber v, v.data.contains '"' with
    | some n, false => IniValue.num n
    | _, _ => specCoercionNonNum v) = specCoercion v
  rw [specCoercion]
  cases jsStringToNumber v with
  | none => rfl
  | some n =>
    cases v.data.contains '"' with
    | false => rfl
    | true => rfl

/-- One parse step throws exactly the error that the line-classification
rules assign to the raw line, independently of the accumulated state. -/
theorem parseLine_error_iff (m : IniMap) (cur : Option (ℕ × String))
    (rev : Reviver) (raw : String) (ln : ℕ) (e : ParseErr) :
    m.parseLine cur rev raw ln = .error e ↔ lineIssue raw ln = some e := by
  by_cases hcom : isComment (jsTrim raw) = true
  · have h2 : lineIssue raw ln = none := by
      unfold lineIssue
      simp only []
      rw [if_pos hcom]
    rw [parseLine_comment m cur rev raw ln hcom, h2]
    simp
  · have hcom' : isComment (jsTrim raw) = false :=
      Bool.not_eq_true _ ▸ eq_false_of_ne_true hcom
    by_cases hbrack : jsStartsWith (jsTrim raw) "[" = true
    · by_cases hend : jsEndsWith (jsTrim raw) "]" = true
      · by_cases hname :
            ((secNameOf (jsTrim raw)).data.any (fun c => !jsIsWs c)) = true
        · have hnameL : (((jsTrim raw).data.drop 1).dropLast).any
              (fun c => !jsIsWs c) = true := hname
          have h2 : lineIssue raw ln = none := by
            unfold lineIssue
            simp only []
            rw [if_neg (by rw [hcom']; exact Bool.false_ne_true),
              if_pos hbrack,
              if_neg (by rw [hend]; decide),
              if_neg (by rw [hnameL]; decide)]
          rw [parseLine_section m cur rev raw ln hcom' hbrack hend hname, h2]
          simp
        · have hname' : ((secNameOf (jsTrim raw)).data.any
              (fun c => !jsIsWs c)) = false :=
            Bool.not_eq_true _ ▸ eq_false_of_ne_true hname
          have hnameL : (((jsTrim raw).data.drop 1).dropLast).any
              (fun c => !jsIsWs c) = false := hname'
          have h2 : lineIssue raw ln = some (.emptySectionName ln) := by
            unfold lineIssue
            simp only []
            rw [if_neg (by rw [hcom']; exact Bool.false_ne_true),
              if_pos hbrack,
              if_neg (by rw [hend]; decide),
              if_pos (by rw [hnameL]; rfl)]
          rw [parseLine_err_empty_name m cur rev raw ln hcom' hbrack hend
            hname', h2]
          simp
      · have hend' : jsEndsWith (jsTrim raw) "]" = false :=
          Bool.not_eq_true _ ▸ eq_false_of_ne_true hend
        have h2 : lineIssue raw ln = some (.unexpectedEndOfSection ln) := by
          unfold lineIssue
          simp only []
          rw [if_neg (by rw [hcom']; exact Bool.false_ne_true),
            if_pos hbrack, if_pos (by rw [hend']; rfl)]
        rw [parseLine_err_unclosed m cur rev raw ln hcom' hbrack hend', h2]
        simp
    · have hbrack' : jsStartsWith (jsTrim raw) "[" = false :=
        Bool.not_eq_true _ ▸ eq_false_of_ne_true hbrack
      have hLI : lineIssue raw ln =
          (match (jsTrim raw).data.findIdx? (fun c => c = '=') with
           | none => some (.unexpectedToken (jsTrim raw).data.head? ln)
           | some 0 => some (.emptyKeyName ln)
           | some _ => none) := by
        unfold lineIssue
        simp only []
        rw [if_neg (by rw [hcom']; exact Bool.false_ne_true),
          if_neg (by rw [hbrack']; exact Bool.false_ne_true)]
      cases hidx : (jsTrim raw).data.findIdx? (fun c => c = '=') with
      | none =>
        rw [parseLine_err_no_assign m cur rev raw ln hcom' hbrack' hidx,
          hLI, hidx]
        simp
      | some p =>
        cases p with
        | zero =>
          rw [parseLine_err_empty_key m cur rev raw ln hcom' hbrack' hidx,
            hLI, hidx]
          simp
        | succ q =>
          rw [hLI, hidx]
          cases cur with
          | none =>
            rw [parseLine_kv_global m rev raw ln q hcom' hbrack' hidx]
            simp
          | some sc =>
            obtain ⟨sid, secName⟩ := sc
            rw [parseLine_kv_sec m sid secName rev raw ln q hcom' hbrack'
              hidx]
            simp

/-- The parse loop fails exactly on the first malformed line, with that
line's error, from any state. -/
theorem parseGo_error_iff (rev : Reviver) (ls : List String) :
    ∀ (m : IniMap) (cur : Option (ℕ × String)) (ln : ℕ) (e : ParseErr),
      IniMap.parseGo rev m cur ln ls = .error e ↔
        firstIssue ls ln = some e := by
  induction ls with
  | nil =>
    intro m cur ln e
    constructor
    · intro h
      exact Except.noConfusion h
    · intro h
      exact Option.noConfusion h
  | cons l rest ih =>
    intro m cur ln e
    have hpg : IniMap.parseGo rev m cur ln (l :: rest) =
        (match m.parseLine cur rev l ln with
         | .error e' => .error e'
         | .ok (m2, cur2) => IniMap.parseGo rev m2 cur2 (ln + 1) rest) := rfl
    have hfi : firstIssue (l :: rest) ln =
        (match lineIssue l ln with
         | some e' => some e'
         | none => firstIssue rest (ln + 1)) := rfl
    rw [hpg, hfi]
    cases hstep : m.parseLine cur rev l ln with
    | error e' =>
      have h2 : lineIssue l ln = some e' :=
        (parseLine_error_iff m cur rev l ln e').mp hstep
      rw [h2]
      simp
    | ok p =>
      obtain ⟨m2, cur2⟩ := p
      have hnone : lineIssue l ln = none := by
        cases hLI : lineIssue l ln with
        | none => rfl
        | some e' =>
          have h3 := (parseLine_error_iff m cur rev l ln e').mpr hLI
          rw [h3] at hstep
          exact Except.noConfusion hstep
      rw [hnone]
      exact ih m2 cur2 (ln + 1) e

/-- C4: for every input string, `parse` fails with a `SyntaxError` carrying
the 1-based line number exactly when some trimmed non-comment line is
malformed — a `[` header missing its closing `]`, an empty or
all-whitespace section name, a non-section line with no `=` (the error
naming the line's first character), or a leading `=` — as captured by the
classification `firstIssue`; otherwise `parse` succeeds. -/
theorem C4_parse_error_locality (m : IniMap) (text : String)
    (r : Option Reviver) :
    (∀ e, m.parseStr text r = .error e ↔
      firstIssue (splitLines text) 1 = some e) ∧
    (firstIssue (splitLines text) 1 = none →
      (m.parseStr text r).isOk = true) := by
  have key : ∀ e, m.parseStr text r = .error e ↔
      firstIssue (splitLines text) 1 = some e := by
    intro e
    show IniMap.parseGo _ _ none 1 (splitLines text) = .error e ↔ _
    exact parseGo_error_iff _ _ _ none 1 e
  refine ⟨key, ?_⟩
  intro hnone
  cases hres : m.parseStr text r with
  | ok m' => rfl
  | error e =>
    rw [(key e).mp hres] at hnone
    exact Option.noConfusion hnone

/-- C4 witness: parsing `"[section\nkey=1"` fails with the unterminated
section header error referencing line 1, and a well-formed one-line
document parses successfully. -/
theorem C4_parse_error_locality_witness :
    IniMap.empty.parseStr "[section\nkey=1" none =
      .error (ParseErr.unexpectedEndOfSection 1) ∧
    (IniMap.empty.parseStr "a=1" none).isOk = true :=
  ⟨((C4_parse_error_locality IniMap.empty "[section\nkey=1" none).1
      (ParseErr.unexpectedEndOfSection 1)).mpr rfl,
   (C4_parse_error_locality IniMap.empty "a=1" none).2 rfl⟩

/-- Reading the configured pretty flag after a conditional inference. -/
theorem applyPretty_pretty (m : IniMap) (b : Bool) :
    (applyPretty m b).pretty =
      (match m.pretty with
       | some c => some c
       | none => some b) := by
  unfold applyPretty
  cases h : m.pretty with
  | none =>
    rw [if_pos rfl]
  | some c =>
    rw [if_neg (fun hx => Option.noConfusion hx)]
    exact h

/-- Pretty-flag effect of one parse step: a key/value line sets the flag
to its inferred spacing only when the flag is still unset; other lines
leave it alone. -/
theorem parseLine_pretty (m : IniMap) (cur : Option (ℕ × String))
    (rev : Reviver) (raw : String) (ln : ℕ) (m' : IniMap)
    (cur' : Option (ℕ × String))
    (h : m.parseLine cur rev raw ln = .ok (m', cur')) :
    m'.pretty =
      (match m.pretty, kvPrettyOf (jsTrim raw) with
       | some c, _ => some c
       | none, some b => some b
       | none, none => none) := by
  by_cases hcom : isComment (jsTrim raw) = true
  · have hKV : kvPrettyOf (jsTrim raw) = none := by
      unfold kvPrettyOf
      rw [if_pos hcom]
    rw [parseLine_comment m cur rev raw ln hcom] at h
    obtain ⟨hm, -⟩ := Prod.mk.inj (Except.ok.inj h)
    subst hm
    rw [hKV]
    show m.pretty = _
    cases m.pretty with
    | some c => rfl
    | none => rfl
  · have hcom' : isComment (jsTrim raw) = false :=
      Bool.not_eq_true _ ▸ eq_false_of_ne_true hcom
    have hKVhead : ∀ x, kvPrettyOf (jsTrim raw) = x ↔
        (if jsStartsWith (jsTrim raw) "[" then none
         else match (jsTrim raw).data.findIdx? (fun c => c = '=') with
           | none => none
           | some 0 => none
           | some p => some (prettyOf (jsTrim raw) p)) = x := by
      intro x
      unfold kvPrettyOf
      rw [if_neg (by rw [hcom']; exact Bool.false_ne_true)]
    by_cases hbrack : jsStartsWith (jsTrim raw) "[" = true
    · have hKV : kvPrettyOf (jsTrim raw) = none := by
        rw [hKVhead, if_pos hbrack]
      rw [hKV]
      by_cases hend : jsEndsWith (jsTrim raw) "]" = true
      · by_cases hname :
            ((secNameOf (jsTrim raw)).data.any (fun c => !jsIsWs c)) = true
        · rw [parseLine_section m cur rev raw ln hcom' hbrack hend hname]
            at h
          obtain ⟨hm, -⟩ := Prod.mk.inj (Except.ok.inj h)
          subst hm
          show m.pretty = _
          cases m.pretty with
          | some c => rfl
          | none => rfl
        · have hname' : ((secNameOf (jsTrim raw)).data.any
              (fun c => !jsIsWs c)) = false :=
            Bool.not_eq_true _ ▸ eq_false_of_ne_true hname
          rw [parseLine_err_empty_name m cur rev raw ln hcom' hbrack hend
            hname'] at h
          exact Except.noConfusion h
      · have hend' : jsEndsWith (jsTrim raw) "]" = false :=
          Bool.not_eq_true _ ▸ eq_false_of_ne_true hend
        rw [parseLine_err_unclosed m cur rev raw ln hcom' hbrack hend'] at h
        exact Except.noConfusion h
    · have hbrack' : jsStartsWith (jsTrim raw) "[" = false :=
        Bool.not_eq_true _ ▸ eq_false_of_ne_true hbrack
      cases hidx : (jsTrim raw).data.findIdx? (fun c => c = '=') with
      | none =>
        rw [parseLine_err_no_assign m cur rev raw ln hcom' hbrack' hidx] at h
        exact Except.noConfusion h
      | some p =>
        cases p with
        | zero =>
          rw [parseLine_err_empty_key m cur rev raw ln hcom' hbrack' hidx]
            at h
          exact Except.noConfusion h
        | succ q =>
          have hKV : kvPrettyOf (jsTrim raw) =
              some (prettyOf (jsTrim raw) (q + 1)) := by
            rw [hKVhead,
              if_neg (by rw [hbrack']; exact Bool.false_ne_true), hidx]
            rfl
          rw [hKV]
          cases cur with
          | none =>
            rw [parseLine_kv_global m rev raw ln q hcom' hbrack' hidx] at h
            obtain ⟨hm, -⟩ := Prod.mk.inj (Except.ok.inj h)
            subst hm
            show (applyPretty m (prettyOf (jsTrim raw) (q + 1))).pretty = _
            rw [applyPretty_pretty]
            cases m.pretty with
            | some c => rfl
            | none => rfl
          | some sc =>
            obtain ⟨sid, secName⟩ := sc
            rw [parseLine_kv_sec m sid secName rev raw ln q hcom' hbrack'
              hidx] at h
            obtain ⟨hm, -⟩ := Prod.mk.inj (Except.ok.inj h)
            subst hm
            show (applyPretty m (prettyOf (jsTrim raw) (q + 1))).pretty = _
            rw [applyPretty_pretty]
            cases m.pretty with
            | some c => rfl
            | none => rfl

/-- Pretty-flag effect of the whole parse loop: the first key/value line
determines the flag when it is still unset; an already configured flag is
never changed. -/
theorem parseGo_pretty (rev : Reviver) (ls : List String) :
    ∀ (m : IniMap) (cur : Option (ℕ × String)) (ln : ℕ) (m' : IniMap),
      IniMap.parseGo rev m cur ln ls = .ok m' →
      m'.pretty =
        (match m.pretty with
         | some c => some c
         | none => firstKvPretty ls) := by
  induction ls with
  | nil =>
    intro m cur ln m' h
    have h2 : m = m' := Except.ok.inj h
    subst h2
    cases m.pretty with
    | some c => rfl
    | none => rfl
  | cons l rest ih =>
    intro m cur ln m' h
    have h2 : (match m.parseLine cur rev l ln with
        | .error e => (Except.error e : Except ParseErr IniMap)
        | .ok (m2, cur2) => IniMap.parseGo rev m2 cur2 (ln + 1) rest) =
        .ok m' := h
    cases hstep : m.parseLine cur rev l ln with
    | error e =>
      rw [hstep] at h2
      exact Except.noConfusion h2
    | ok p =>
      obtain ⟨m2, cur2⟩ := p
      rw [hstep] at h2
      have hp1 := parseLine_pretty m cur rev l ln m2 cur2 hstep
      have hp2 := ih m2 cur2 (ln + 1) m' h2
      have hfk : firstKvPretty (l :: rest) =
          (match kvPrettyOf (jsTrim l) with
           | some b => some b
           | none => firstKvPretty rest) := rfl
      rw [hp2, hp1, hfk]
      cases m.pretty with
      | some c =>
        cases kvPrettyOf (jsTrim l) with
        | some b => rfl
        | none => rfl
      | none =>
        cases kvPrettyOf (jsTrim l) with
        | some b => rfl
        | none => rfl

/-- C7: during a successful parse, an explicitly configured pretty flag is
never touched, and an unset flag is determined by the first key/value line
of the document (true iff the untrimmed left-hand side of its `=` ends
with a space and the untrimmed right-hand side begins with one), with
later key/value lines never changing it; in particular, parsing
`"key = value"` into a fresh model sets the flag to true, and parsing
`"key=value"` sets it to false. -/
theorem C7_pretty_inference :
    (∀ (m : IniMap) (text : String) (r : Option Reviver) (m' : IniMap),
      m.parseStr text r = .ok m' →
      m'.pretty =
        (match m.pretty with
         | some c => some c
         | none => firstKvPretty (splitLines text))) ∧
    (IniMap.empty.parseStr "key = value" none).map IniMap.pretty =
      .ok (some true) ∧
    (IniMap.empty.parseStr "key=value" none).map IniMap.pretty =
      .ok (some false) := by
  refine ⟨?_, rfl, rfl⟩
  intro m text r m' h
  cases r with
  | none =>
    exact parseGo_pretty defaultReviver (splitLines text)
      { m with lineBreak := detectLB text.data m.lineBreak } none 1 m' h
  | some rv =>
    exact parseGo_pretty rv (splitLines text)
      { m with lineBreak := detectLB text.data m.lineBreak } none 1 m' h

/-- C7 witness: applying the inference law to the fresh model and the
document `"key = value"` yields the pretty flag true. -/
theorem C7_pretty_inference_witness :
    (some true : Option Bool) =
      (match IniMap.empty.pretty with
       | some c => some c
       | none => firstKvPretty (splitLines "key = value")) :=
  C7_pretty_inference.1 IniMap.empty "key = value" none
    { nextId := 1,
      lines := [(0, Line.val { num := 1, sec := none, key := "key",
                               val := .str "value" })],
      global := [("key", 0)], sections := [], lineBreak := none,
      pretty := some true } rfl

/-- A run of `set` operations preserves well-formedness. -/
theorem WF_runOps_sets (ops : List IniOp) :
    ∀ (m m' : IniMap), ops.all IniOp.isSetB = true → WF m →
      runOps m ops = some m' → WF m' := by
  induction ops with
  | nil =>
    intro m m' _ hWF h
    have h2 : m = m' := Option.some.inj h
    exact h2 ▸ hWF
  | cons op rest ih =>
    intro m m' hall hWF h
    rw [List.all_cons, Bool.and_eq_true] at hall
    obtain ⟨hop, hrest⟩ := hall
    cases op with
    | doSet a b c =>
      have h2 : runOps (m.set a b c) rest = some m' := h
      exact ih (m.set a b c) m' hrest (WF_set m a b c hWF) h2
    | doParse t r => exact Bool.noConfusion hop

/-- C3 counterexample: `parse` restarts its running line counter at 1 even
when line records already exist, so a `set` followed by a `parse` yields
two records both numbered 1, refuting contiguity for general operation
sequences. -/
theorem C3_counterexample :
    ¬ (∀ (ops : List IniOp) (m' : IniMap),
        runOps IniMap.empty ops = some m' → numsContiguous m') := by
  intro hclaim
  have h2 := hclaim
    [IniOp.doSet "a" (.str "1") .undef, IniOp.doParse "b=1" none]
    { nextId := 2,
      lines := [(0, Line.val { num := 1, sec := none, key := "a",
                               val := .str "1" }),
                (1, Line.val { num := 1, sec := none, key := "b",
                               val := .num (JNum.fin 1) })],
      global := [("a", 0), ("b", 1)], sections := [], lineBreak := none,
      pretty := some false } rfl
  exact absurd h2 (by decide)

/-- C3 amended: for sequences of successful operations from the empty
model in which a `parse` occurs only as the first operation, the stored
line numbers are exactly `1..length`, contiguous and matching array
position, after every operation. -/
theorem C3_amended_contiguity (ops : List IniOp) (m' : IniMap)
    (hops : setsOnlyTail ops = true)
    (h : runOps IniMap.empty ops = some m') : numsContiguous m' := by
  cases ops with
  | nil =>
    have h2 : IniMap.empty = m' := Option.some.inj h
    exact h2 ▸ (by decide : numsContiguous IniMap.empty)
  | cons op rest =>
    have hall : rest.all IniOp.isSetB = true := hops
    cases op with
    | doSet a b c =>
      have h2 : runOps (IniMap.empty.set a b c) rest = some m' := h
      exact (WF_runOps_sets rest (IniMap.empty.set a b c) m' hall
        (WF_set IniMap.empty a b c (by decide)) h2).2.2.2.2.2.1
    | doParse t r =>
      have hrw : runOps IniMap.empty (IniOp.doParse t r :: rest) =
          (match (match IniMap.empty.parseStr t r with
                  | .ok m2 => some m2
                  | .error _ => none) with
           | some m2 => runOps m2 rest
           | none => none) := rfl
      cases hp : IniMap.empty.parseStr t r with
      | error e =>
        rw [hrw, hp] at h
        exact Option.noConfusion h
      | ok m2 =>
        rw [hrw, hp] at h
        have hWF2 : WF m2 :=
          WF_parseStr IniMap.empty t r m2 (by decide) rfl hp
        exact (WF_runOps_sets rest m2 m' hall hWF2 h).2.2.2.2.2.1

/-- C3 witness: a parse-first sequence applied to the empty model, with
its contiguous result. -/
theorem C3_amended_contiguity_witness :
    setsOnlyTail [IniOp.doParse "a=1" none] = true ∧
    numsContiguous
      { nextId := 1,
        lines := [(0, Line.val { num := 1, sec := none, key := "a",
                                 val := .num (JNum.fin 1) })],
        global := [("a", 0)], sections := [], lineBreak := none,
        pretty := some false } :=
  ⟨rfl, C3_amended_contiguity [IniOp.doParse "a=1" none]
    { nextId := 1,
      lines := [(0, Line.val { num := 1, sec := none, key := "a",
                               val := .num (JNum.fin 1) })],
      global := [("a", 0)], sections := [], lineBreak := none,
      pretty := some false } rfl rfl⟩

/-- An identifier absent from a list dereferences to nothing. -/
theorem lineByIdL_none_of_not_mem (L : List (ℕ × Line)) (id : ℕ)
    (h : id ∉ L.map Prod.fst) : lineByIdL L id = none := by
  cases h2 : lineByIdL L id with
  | none => rfl
  | some l =>
    exact absurd (List.mem_map_of_mem Prod.fst
      (mem_of_lineByIdL_eq_some L id l h2)) h

/-- Dereference through the take/drop split of a list. -/
theorem lineByIdL_take_drop (L : List (ℕ × Line)) (e : ℕ) (id : ℕ) :
    lineByIdL L id =
      match lineByIdL (L.take e) id with
      | some l => some l
      | none => lineByIdL (L.drop e) id := by
  conv_lhs => rw [← List.take_append_drop e L]
  exact lineByIdL_append _ _ _

/-- After a value insertion, any other identifier dereferences to its old
record, possibly bumped (when the record sat at or after the insertion
point). -/
theorem lineByIdL_insert_cases (U : List (ℕ × Line)) (e vid : ℕ)
    (lv : LValue) (id' : ℕ) (hid : id' ≠ vid) :
    lineByIdL (U.take e ++ (vid, Line.val lv) :: (U.drop e).map bumpE) id' =
      lineByIdL U id' ∨
    lineByIdL (U.take e ++ (vid, Line.val lv) :: (U.drop e).map bumpE) id' =
      (lineByIdL U id').map (Line.bump .add) := by
  rw [lineByIdL_insert_shape U e vid lv id' hid, lineByIdL_take_drop U e id']
  cases lineByIdL (U.take e) id' with
  | some l => exact Or.inl rfl
  | none => exact Or.inr rfl

/-- The stored value seen through an identifier is unchanged by a value
insertion elsewhere (a bump only renumbers the record). -/
theorem lookupVal_insert (U : List (ℕ × Line)) (e vid : ℕ) (lv : LValue)
    (id' : ℕ) (hid : id' ≠ vid) :
    (match lineByIdL
        (U.take e ++ (vid, Line.val lv) :: (U.drop e).map bumpE) id' with
     | some (.val v) => some v.val
     | _ => none) =
    (match lineByIdL U id' with
     | some (.val v) => some v.val
     | _ => none) := by
  rcases lineByIdL_insert_cases U e vid lv id' hid with h | h <;> rw [h]
  cases lineByIdL U id' with
  | none => rfl
  | some l =>
    cases l with
    | com c => rfl
    | sec s => rfl
    | val v => rfl

/-- Unfolding of `lookupGlobalVal` through the arena. -/
theorem lookupGlobalVal_unfold (m : IniMap) (k : String) :
    m.lookupGlobalVal k =
      (match assocGet m.global k with
       | some vid =>
         (match lineByIdL m.lines vid with
          | some (.val v) => some v.val
          | _ => none)
       | none => none) := rfl

/-- Unfolding of `lookupSectionVal` through the arena. -/
theorem lookupSectionVal_unfold (m : IniMap) (s k : String) :
    m.lookupSectionVal s k =
      (match assocGet m.sections s with
       | some sid =>
         (match lineByIdL m.lines sid with
          | some (.sec r) =>
            (match assocGet r.map k with
             | some vid =>
               (match lineByIdL m.lines vid with
                | some (.val v) => some v.val
                | _ => none)
             | none => none)
          | _ => none)
       | none => none) := rfl

/-- Setting a global key leaves every section lookup unchanged: the
section index is untouched and the shifted records keep their key maps
and values. -/
theorem lookupSectionVal_setGlobal (m : IniMap) (key : String)
    (w : IniValue) (s k : String) (hWF : WF m) :
    (IniMap.set.setGlobal m key w).lookupSectionVal s k =
      m.lookupSectionVal s k := by
  rw [lookupSectionVal_unfold, lookupSectionVal_unfold, setGlobal_eq]
  show (match assocGet m.sections s with
    | some sid =>
      (match lineByIdL (m.lines.take (gIdx m) ++ (m.nextId, Line.val
          { num := gIdx m + 1, sec := none, key := key, val := w }) ::
          (m.lines.drop (gIdx m)).map bumpE) sid with
       | some (.sec r) =>
         (match assocGet r.map k with
          | some vid =>
            (match lineByIdL (m.lines.take (gIdx m) ++ (m.nextId, Line.val
                { num := gIdx m + 1, sec := none, key := key, val := w }) ::
                (m.lines.drop (gIdx m)).map bumpE) vid with
             | some (.val v) => some v.val
             | _ => none)
          | none => none)
       | _ => none)
    | none => none) = _
  cases hs : assocGet m.sections s with
  | none => rfl
  | some sid =>
    dsimp only []
    obtain ⟨r, hr, -⟩ := resolves_mem m.lines sid s
      (hWF.2.2.2.1 (s, sid) (assocGet_mem m.sections s sid hs))
    have hsidlt : sid < m.nextId :=
      hWF.2.1 (sid, Line.sec r) (mem_of_lineByIdL_eq_some _ _ _ hr)
    have hmb : ∀ q ∈ r.map, q.2 < m.nextId :=
      hWF.2.2.2.2.1 (sid, Line.sec r) (mem_of_lineByIdL_eq_some _ _ _ hr)
    have hinner : ∀ vid, vid < m.nextId →
        (match lineByIdL (m.lines.take (gIdx m) ++ (m.nextId, Line.val
            { num := gIdx m + 1, sec := none, key := key, val := w }) ::
            (m.lines.drop (gIdx m)).map bumpE) vid with
         | some (.val v) => some v.val
         | _ => none) =
        (match lineByIdL m.lines vid with
         | some (.val v) => some v.val
         | _ => none) := fun vid hv =>
      lookupVal_insert m.lines (gIdx m) m.nextId _ vid (Nat.ne_of_lt hv)
    rcases lineByIdL_insert_cases m.lines (gIdx m) m.nextId
        { num := gIdx m + 1, sec := none, key := key, val := w } sid
        (Nat.ne_of_lt hsidlt) with h1 | h1 <;> rw [h1, hr]
    · dsimp only []
      cases hk : assocGet r.map k with
      | none => rfl
      | some vid =>
        exact hinner vid (hmb (k, vid) (assocGet_mem r.map k vid hk))
    · rw [Option.map_some', bump_add_sec]
      dsimp only []
      cases hk : assocGet r.map k with
      | none => rfl
      | some vid =>
        exact hinner vid (hmb (k, vid) (assocGet_mem r.map k vid hk))

/-- Setting a global key makes the global index resolve that key to the
freshly inserted record, which stores the given value. -/
theorem lookupGlobalVal_setGlobal_self (m : IniMap) (key : String)
    (w : IniValue) (hWF : WF m) :
    (IniMap.set.setGlobal m key w).lookupGlobalVal key = some w := by
  rw [lookupGlobalVal_unfold, setGlobal_eq]
  show (match assocGet (assocSet m.global key m.nextId) key with
    | some vid =>
      (match lineByIdL (m.lines.take (gIdx m) ++ (m.nextId, Line.val
          { num := gIdx m + 1, sec := none, key := key, val := w }) ::
          (m.lines.drop (gIdx m)).map bumpE) vid with
       | some (.val v) => some v.val
       | _ => none)
    | none => none) = some w
  rw [assocGet_assocSet_self]
  have htake : lineByIdL (m.lines.take (gIdx m)) m.nextId = none := by
    refine lineByIdL_none_of_not_mem _ _ ?_
    intro hin
    rcases List.mem_map.mp hin with ⟨q, hq, hfst⟩
    have hq2 : q ∈ m.lines := List.take_subset _ _ hq
    have := hWF.2.1 q hq2
    omega
  show (match lineByIdL (m.lines.take (gIdx m) ++ (m.nextId, Line.val
      { num := gIdx m + 1, sec := none, key := key, val := w }) ::
      (m.lines.drop (gIdx m)).map bumpE) m.nextId with
    | some (.val v) => some v.val
    | _ => none) = some w
  rw [lineByIdL_append, htake]
  show (match lineByIdL ((m.nextId, Line.val
      { num := gIdx m + 1, sec := none, key := key, val := w }) ::
      (m.lines.drop (gIdx m)).map bumpE) m.nextId with
    | some (.val v) => some v.val
    | _ => none) = some w
  rw [lineByIdL_cons, if_pos rfl]

/-- C8: with an undefined third argument the overload dispatch of `set`
takes the two-argument global path: `set(s, k, undefined)` never creates
or updates key `k` inside section `s` — every section lookup is left
unchanged — and instead sets the global key `s` to the string value
`k`. -/
theorem C8_set_undefined_dispatch (m : IniMap) (s k : String)
    (hWF : WF m) :
    m.set s (.str k) .undef = IniMap.set.setGlobal m s (.str k) ∧
    (m.set s (.str k) .undef).lookupGlobalVal s = some (.str k) ∧
    ∀ s' k', (m.set s (.str k) .undef).lookupSectionVal s' k' =
      m.lookupSectionVal s' k' := by
  refine ⟨set_str_undef m s k, ?_, ?_⟩
  · rw [set_str_undef]
    exact lookupGlobalVal_setGlobal_self m s (.str k) hWF
  · intro s' k'
    rw [set_str_undef]
    exact lookupSectionVal_setGlobal m s (.str k) s' k' hWF

/-- C8 witness: on a model holding section `s` with key `k`, the call
`set("s", "k", undefined)` leaves the section's `k` untouched and sets
the global key `s` to the string `"k"`. -/
theorem C8_set_undefined_dispatch_witness :
    WF (IniMap.empty.set "s" (.str "k") (.str "v")) ∧
    ((IniMap.empty.set "s" (.str "k") (.str "v")).set "s" (.str "k")
        .undef).lookupGlobalVal "s" = some (.str "k") ∧
    ((IniMap.empty.set "s" (.str "k") (.str "v")).set "s" (.str "k")
        .undef).lookupSectionVal "s" "k" =
      (IniMap.empty.set "s" (.str "k") (.str "v")).lookupSectionVal "s"
        "k" :=
  ⟨by decide,
   (C8_set_undefined_dispatch (IniMap.empty.set "s" (.str "k") (.str "v"))
     "s" "k" (by decide)).2.1,
   (C8_set_undefined_dispatch (IniMap.empty.set "s" (.str "k") (.str "v"))
     "s" "k" (by decide)).2.2 "s" "k"⟩

/-- Order of the disjointness relation across a split of the document. -/
theorem linesDisj_rel (P Q : List (ℕ × Line)) (p : ℕ × Line)
    (hd : linesDisj (P ++ p :: Q)) :
    (∀ q ∈ P, pairDisj q.2 p.2) ∧ (∀ q ∈ Q, pairDisj p.2 q.2) := by
  have hd' : List.Pairwise (fun (a b : ℕ × Line) => pairDisj a.2 b.2)
      (P ++ p :: Q) := hd
  rw [List.pairwise_append] at hd'
  obtain ⟨hP, hpq, hcross⟩ := hd'
  constructor
  · intro q hq
    exact hcross q hq p (List.mem_cons_self _ _)
  · intro q hq
    exact (List.pairwise_cons.mp hpq).1 q hq

/-- C2: a `set` creating a key that its existing scope does not yet hold
adds exactly one line record.  On the global path the document grows by
one; when the key is new to an existing section, the new value line is
placed immediately after the section's current last line with number
`end + 1`, the owning section's key map gains the key and its `end` grows
by one, every line at or after the insertion point is shifted down by one
(its number, and for section records also their `end`, incremented via
the bump), and in particular every other section record whose `end` lay
beyond the owner's old `end` is renumbered with `end` incremented by
exactly one. -/
theorem C2_set_new_key (m : IniMap) (hWF : WF m) :
    (∀ k (w : IniValue), assocGet m.global k = none →
      (IniMap.set.setGlobal m k w).lines.length = m.lines.length + 1) ∧
    (∀ sname vk (w : IniValue) sid srec, w ≠ .undef →
      assocGet m.sections sname = some sid →
      m.lineById sid = some (.sec srec) →
      assocGet srec.map vk = none →
      (m.set sname (.str vk) w).lines.length = m.lines.length + 1 ∧
      (m.set sname (.str vk) w).lines[srec.endL]? =
        some (m.nextId, Line.val
          { num := srec.endL + 1, sec := some srec.sec, key := vk,
            val := w }) ∧
      lineByIdL (m.set sname (.str vk) w).lines sid =
        some (Line.sec
          { num := srec.num, sec := srec.sec,
            map := assocSet srec.map vk m.nextId,
            endL := srec.endL + 1 }) ∧
      (∀ i, srec.endL ≤ i → i < m.lines.length →
        (m.set sname (.str vk) w).lines[i + 1]? =
          (m.lines[i]?).map bumpE) ∧
      (∀ j srec2, lineByIdL m.lines j = some (.sec srec2) →
        srec.endL < srec2.endL →
        lineByIdL (m.set sname (.str vk) w).lines j =
          some (Line.sec
            { num := srec2.num + 1, sec := srec2.sec, map := srec2.map,
              endL := srec2.endL + 1 }))) := by
  constructor
  · intro k w _
    rw [setGlobal_eq]
    show (m.lines.take (gIdx m) ++ (m.nextId, Line.val
        { num := gIdx m + 1, sec := none, key := k, val := w }) ::
        (m.lines.drop (gIdx m)).map bumpE).length = m.lines.length + 1
    rw [List.length_append, List.length_cons, List.length_take,
      List.length_map, List.length_drop]
    have hg := gIdx_le m
    omega
  · intro sname vk w sid srec hw h1 h2 h3
    obtain ⟨hmem, hlen0, hnumle, hee, hfresh, hdrop⟩ :=
      sec_lookup_facts m sid srec hWF h2
    have hset := set_sec_new_key m sname vk w sid srec hw h1 h2 h3 hlen0
      hee hfresh hdrop
    have h2' : lineByIdL m.lines sid = some (Line.sec srec) := h2
    have hTlen : ((updateLine m.lines sid
        (fun l => Line.mapSet vk m.nextId (Line.addEnd .add l))).take
          srec.endL).length = srec.endL := by
      rw [List.length_take, length_updateLine]
      omega
    have hU'drop : (updateLine m.lines sid
        (fun l => Line.mapSet vk m.nextId (Line.addEnd .add l))).drop
          srec.endL = m.lines.drop srec.endL := by
      rw [updateLine_drop, updateLine_of_not_mem _ _ _ hdrop]
    refine ⟨?_, ?_, ?_, ?_, ?_⟩
    · rw [hset]
      show ((updateLine m.lines sid
          (fun l => Line.mapSet vk m.nextId (Line.addEnd .add l))).take
            srec.endL ++ (m.nextId, Line.val
          { num := srec.endL + 1, sec := some srec.sec, key := vk,
            val := w }) ::
          (m.lines.drop srec.endL).map bumpE).length = m.lines.length + 1
      rw [List.length_append, List.length_cons, hTlen, List.length_map,
        List.length_drop]
      omega
    · rw [hset]
      show ((updateLine m.lines sid
          (fun l => Line.mapSet vk m.nextId (Line.addEnd .add l))).take
            srec.endL ++ (m.nextId, Line.val
          { num := srec.endL + 1, sec := some srec.sec, key := vk,
            val := w }) ::
          (m.lines.drop srec.endL).map bumpE)[srec.endL]? = _
      rw [List.getElem?_append_right (le_of_eq hTlen), hTlen,
        Nat.sub_self]
      exact List.getElem?_cons_zero
    · have hU'sid : lineByIdL (updateLine m.lines sid
          (fun l => Line.mapSet vk m.nextId (Line.addEnd .add l))) sid =
          some (Line.sec
            { num := srec.num, sec := srec.sec,
              map := assocSet srec.map vk m.nextId,
              endL := srec.endL + 1 }) := by
        rw [lineByIdL_updateLine_self, h2', Option.map_some']
        exact congrArg some (g_sec_eq vk m.nextId srec)
      have hTsid : lineByIdL ((updateLine m.lines sid
          (fun l => Line.mapSet vk m.nextId (Line.addEnd .add l))).take
            srec.endL) sid =
          some (Line.sec
            { num := srec.num, sec := srec.sec,
              map := assocSet srec.map vk m.nextId,
              endL := srec.endL + 1 }) := by
        have h5 := lineByIdL_take_drop (updateLine m.lines sid
          (fun l => Line.mapSet vk m.nextId (Line.addEnd .add l)))
          srec.endL sid
        rw [hU'sid] at h5
        cases htake : lineByIdL ((updateLine m.lines sid
            (fun l => Line.mapSet vk m.nextId (Line.addEnd .add l))).take
              srec.endL) sid with
        | some l =>
          rw [htake] at h5
          exact h5.symm
        | none =>
          rw [htake, hU'drop, lineByIdL_none_of_not_mem _ _ hdrop] at h5
          exact Option.noConfusion h5
      rw [hset]
      show lineByIdL ((updateLine m.lines sid
          (fun l => Line.mapSet vk m.nextId (Line.addEnd .add l))).take
            srec.endL ++ (m.nextId, Line.val
          { num := srec.endL + 1, sec := some srec.sec, key := vk,
            val := w }) ::
          (m.lines.drop srec.endL).map bumpE) sid = _
      rw [lineByIdL_append, hTsid]
    · intro i hi hilen
      rw [hset]
      show ((updateLine m.lines sid
          (fun l => Line.mapSet vk m.nextId (Line.addEnd .add l))).take
            srec.endL ++ (m.nextId, Line.val
          { num := srec.endL + 1, sec := some srec.sec, key := vk,
            val := w }) ::
          (m.lines.drop srec.endL).map bumpE)[i + 1]? = _
      rw [List.getElem?_append_right (by rw [hTlen]; omega), hTlen,
        show i + 1 - srec.endL = (i - srec.endL) + 1 from by omega,
        List.getElem?_cons_succ,
        List.getElem?_map bumpE (m.lines.drop srec.endL) (i - srec.endL),
        List.getElem?_drop m.lines srec.endL (i - srec.endL),
        show srec.endL + (i - srec.endL) = i from by omega]
    · intro j srec2 hj hgt
      have hqmem : (j, Line.sec srec2) ∈ m.lines :=
        mem_of_lineByIdL_eq_some _ _ _ hj
      have hjlt : j < m.nextId := hWF.2.1 _ hqmem
      have hjne : j ≠ sid := by
        intro hEq
        rw [hEq, h2'] at hj
        have h6 : srec2 = srec := by
          have h7 := Option.some.inj hj
          cases h7
          rfl
        rw [h6] at hgt
        exact absurd hgt (lt_irrefl _)
      obtain ⟨P, Q, hPQ, hsidP, hsidQ⟩ :=
        split_at_sid m sid srec hWF.1 hmem
      have hrel : srec.endL < srec2.num := by
        have hd : linesDisj (P ++ (sid, Line.sec srec) :: Q) :=
          hPQ ▸ hWF.2.2.2.2.2.2.2
        have hrels := linesDisj_rel P Q (sid, Line.sec srec) hd
        have hqPQ : (j, Line.sec srec2) ∈ P ++ (sid, Line.sec srec) :: Q :=
          hPQ ▸ hqmem
        rcases List.mem_append.mp hqPQ with hqP | hqQ
        · have h8 : srec2.endL < srec.num := hrels.1 _ hqP
          omega
        · rcases List.mem_cons.mp hqQ with hqe | hqQ'
          · exact absurd (congrArg Prod.fst hqe) hjne
          · exact hrels.2 _ hqQ'
      have hnums : numsFrom 1 m.lines := hWF.2.2.2.2.2.1
      have hnotintake : j ∉ (m.lines.take srec.endL).map Prod.fst := by
        intro hin
        rcases List.mem_map.mp hin with ⟨q', hq', hfst⟩
        have hq'mem : q' ∈ m.lines := List.take_subset _ _ hq'
        have hq'eq : q' = (j, Line.sec srec2) :=
          eq_of_mem_nodup_ids m.lines q' (j, Line.sec srec2) hWF.1
            hq'mem hqmem hfst
        rw [hq'eq] at hq'
        have hb := numsFrom_bounds_of_mem 1 (m.lines.take srec.endL)
          (j, Line.sec srec2) (numsFrom_take 1 srec.endL m.lines hnums)
          hq'
        have hlen_take : (m.lines.take srec.endL).length ≤ srec.endL := by
          rw [List.length_take]
          omega
        have hb2 : srec2.num < 1 + (m.lines.take srec.endL).length := hb.2
        omega
      have hdropj : lineByIdL (m.lines.drop srec.endL) j =
          some (Line.sec srec2) := by
        have h5 := lineByIdL_take_drop m.lines srec.endL j
        rw [lineByIdL_none_of_not_mem _ _ hnotintake, hj] at h5
        exact h5.symm
      have hTnone : lineByIdL ((updateLine m.lines sid
          (fun l => Line.mapSet vk m.nextId (Line.addEnd .add l))).take
            srec.endL) j = none := by
        refine lineByIdL_none_of_not_mem _ _ ?_
        rw [List.map_take, map_fst_updateLine, ← List.map_take]
        exact hnotintake
      rw [hset]
      show lineByIdL ((updateLine m.lines sid
          (fun l => Line.mapSet vk m.nextId (Line.addEnd .add l))).take
            srec.endL ++ (m.nextId, Line.val
          { num := srec.endL + 1, sec := some srec.sec, key := vk,
            val := w }) ::
          (m.lines.drop srec.endL).map bumpE) j = _
      rw [lineByIdL_append, hTnone]
      show lineByIdL ((m.nextId, Line.val
          { num := srec.endL + 1, sec := some srec.sec, key := vk,
            val := w }) ::
          (m.lines.drop srec.endL).map bumpE) j = _
      rw [lineByIdL_cons,
        if_neg (show ¬(m.nextId = j) from fun h => absurd (h ▸ hjlt)
          (lt_irrefl _)),
        lineByIdL_map_bumpE, hdropj, Option.map_some', bump_add_sec]

/-- C2 witness: on a document with two sections, creating a new key in the
first section grows the line count by exactly one. -/
theorem C2_set_new_key_witness :
    WF ((IniMap.empty.set "s" (.str "a") (.str "1")).set "t" (.str "b")
      (.str "2")) ∧
    (((IniMap.empty.set "s" (.str "a") (.str "1")).set "t" (.str "b")
        (.str "2")).set "s" (.str "c") (.str "3")).lines.length =
      ((IniMap.empty.set "s" (.str "a") (.str "1")).set "t" (.str "b")
        (.str "2")).lines.length + 1 :=
  ⟨by decide,
   ((C2_set_new_key ((IniMap.empty.set "s" (.str "a") (.str "1")).set "t"
       (.str "b") (.str "2")) (by decide)).2 "s" "c" (.str "3") 0
     { num := 1, sec := "s", map := [("a", 1)], endL := 2 }
     (by decide) rfl rfl rfl).1⟩

/-- `startsWithL` with an empty prefix always holds. -/
theorem startsWithL_nil (l : List Char) : startsWithL [] l = true := by
  cases l with
  | nil => rfl
  | cons c rest => rfl

/-- Dropping leading whitespace is idempotent. -/
theorem dropWhile_jsIsWs_idem (l : List Char) :
    (l.dropWhile jsIsWs).dropWhile jsIsWs = l.dropWhile jsIsWs := by
  induction l with
  | nil => rfl
  | cons a l ih =>
    rw [List.dropWhile_cons]
    by_cases h : jsIsWs a = true
    · rw [if_pos h]
      exact ih
    · rw [if_neg h, List.dropWhile_cons, if_neg h]

/-- The head surviving a whitespace drop is not whitespace. -/
theorem dropWhile_head_not_ws (l : List Char) (c : Char) (t : List Char)
    (h : l.dropWhile jsIsWs = c :: t) : jsIsWs c = false := by
  induction l with
  | nil => exact List.noConfusion h
  | cons a l ih =>
    rw [List.dropWhile_cons] at h
    by_cases ha : jsIsWs a = true
    · rw [if_pos ha] at h
      exact ih h
    · rw [if_neg ha] at h
      obtain ⟨h1, -⟩ := List.cons.inj h
      rw [← h1]
      exact Bool.not_eq_true _ ▸ eq_false_of_ne_true ha

/-- Right trim passes over a non-whitespace head character. -/
theorem rtrim_cons (a : Char) (l : List Char) (ha : jsIsWs a = false) :
    ((a :: l).reverse.dropWhile jsIsWs).reverse =
      a :: (l.reverse.dropWhile jsIsWs).reverse := by
  rw [List.reverse_cons, List.dropWhile_append]
  cases h : (l.reverse.dropWhile jsIsWs).isEmpty with
  | true =>
    rw [if_pos rfl, List.dropWhile_cons,
      if_neg (by rw [ha]; exact Bool.false_ne_true),
      List.isEmpty_iff.mp h]
    rfl
  | false =>
    rw [if_neg Bool.false_ne_true, List.reverse_append]
    rfl

/-- Trimming text that ends in `=`: the `=` blocks the right trim, and
the left trim passes through. -/
theorem jsTrimList_append_eq (cs : List Char) :
    jsTrimList (cs ++ ['=']) = cs.dropWhile jsIsWs ++ ['='] := by
  unfold jsTrimList
  rw [List.dropWhile_append]
  cases h : (cs.dropWhile jsIsWs).isEmpty with
  | true =>
    rw [if_pos rfl, List.isEmpty_iff.mp h]
    rfl
  | false =>
    rw [if_neg Bool.false_ne_true, List.reverse_append,
      show (['='] : List Char).reverse = ['='] from rfl,
      show ∀ (X : List Char), ['='] ++ X = '=' :: X from fun X => rfl,
      List.dropWhile_cons, if_neg (by decide), List.reverse_cons,
      List.reverse_reverse]

/-- Position of the first `=` of a line formed by a key with no `=` and a
trailing `=`. -/
theorem findIdx_eq_append (L : List Char) (h : ∀ c ∈ L, c ≠ '=') :
    ∀ i, List.findIdx? (fun c => c = '=') (L ++ ['=']) i =
      some (i + L.length) := by
  induction L with
  | nil =>
    intro i
    rfl
  | cons a L' ih =>
    intro i
    have hstep : List.findIdx? (fun c => c = '=') ((a :: L') ++ ['=']) i =
        if decide (a = '=') then some i
        else List.findIdx? (fun c => c = '=') (L' ++ ['=']) (i + 1) := rfl
    rw [hstep,
      if_neg (by rw [decide_eq_false (h a (List.mem_cons_self _ _))]; exact Bool.false_ne_true),
      ih (fun c hc => h c (List.mem_cons_of_mem a hc)) (i + 1)]
    exact congrArg some (by rw [List.length_cons]; omega)

/-- Splitting text with no terminator yields the single accumulated
line. -/
theorem splitLinesAux_noterm (cs acc : List Char) :
    (∀ c ∈ cs, c ≠ '\n' ∧ c ≠ '\r') →
    splitLinesAux cs acc = [String.mk (acc.reverse ++ cs)] := by
  induction cs, acc using splitLinesAux.induct with
  | case1 acc =>
    intro h
    rw [List.append_nil]
    rfl
  | case2 rest acc ih =>
    intro h
    exact absurd rfl (h '\n' (List.mem_cons_self _ _)).1
  | case3 rest acc ih =>
    intro h
    exact absurd rfl (h '\r' (List.mem_cons_self _ _)).2
  | case4 rest acc h2 ih =>
    intro h
    exact absurd rfl (h '\r' (List.mem_cons_self _ _)).2
  | case5 c rest acc h1 h2 h3 ih =>
    intro h
    simp only [splitLinesAux]
    rw [ih (fun c' hc' => h c' (List.mem_cons_of_mem c hc')),
      List.reverse_cons, List.append_assoc]
    rfl

/-- Line-break detection over text with no terminator records nothing. -/
theorem detectLB_noterm (cs : List Char) (lb : Option String) :
    (∀ c ∈ cs, c ≠ '\n' ∧ c ≠ '\r') → detectLB cs lb = lb := by
  induction cs, lb using detectLB.induct with
  | case1 lb =>
    intro h
    rfl
  | case2 rest lb ih =>
    intro h
    exact absurd rfl (h '\n' (List.mem_cons_self _ _)).1
  | case3 rest lb ih =>
    intro h
    exact absurd rfl (h '\r' (List.mem_cons_self _ _)).2
  | case4 rest lb h2 ih =>
    intro h
    exact absurd rfl (h '\r' (List.mem_cons_self _ _)).2
  | case5 c rest lb h1 h2 h3 ih =>
    intro h
    simp only [detectLB]
    exact ih (fun c' hc' => h c' (List.mem_cons_of_mem c hc'))

/-- C9: for a key whose text contains no terminator and no `=`, trims to
something nonempty, and does not look like a comment or section header,
parsing the line `k=` with the default reviver stores the number 0 for
the trimmed key — the numeric check coerces the empty raw value to 0 —
not the empty string. -/
theorem C9_empty_value_parses_zero (k : String)
    (hchars : ∀ c ∈ k.data, c ≠ '\n' ∧ c ≠ '\r' ∧ c ≠ '=')
    (hne : jsTrim k ≠ "")
    (hcom : isComment (jsTrim k) = false)
    (hbrack : jsStartsWith (jsTrim k) "[" = false) :
    IniMap.empty.parseStr (k ++ "=") none =
      .ok { nextId := 1,
            lines := [(0, Line.val { num := 1, sec := none,
                                     key := jsTrim k,
                                     val := .num (JNum.fin 0) })],
            global := [(jsTrim k, 0)], sections := [],
            lineBreak := none, pretty := some false } := by
  have hterm : ∀ c ∈ k.data ++ ['='], c ≠ '\n' ∧ c ≠ '\r' := by
    intro c hc
    rcases List.mem_append.mp hc with h | h
    · exact ⟨(hchars c h).1, (hchars c h).2.1⟩
    · rw [List.mem_singleton] at h
      subst h
      exact ⟨by decide, by decide⟩
  have hsplit : splitLines (k ++ "=") = [k ++ "="] := by
    show splitLinesAux (k.data ++ ['=']) [] = [k ++ "="]
    rw [splitLinesAux_noterm (k.data ++ ['=']) [] hterm]
    rfl
  have hlb : detectLB (k ++ "=").data none = none :=
    detectLB_noterm (k.data ++ ['=']) none hterm
  cases hLdef : k.data.dropWhile jsIsWs with
  | nil =>
    exfalso
    apply hne
    show String.mk (jsTrimList k.data) = ""
    unfold jsTrimList
    rw [hLdef]
    rfl
  | cons c L2 =>
    have hcws : jsIsWs c = false := dropWhile_head_not_ws k.data c L2 hLdef
    have hktrim : (jsTrim k).data =
        c :: (L2.reverse.dropWhile jsIsWs).reverse := by
      show jsTrimList k.data = _
      unfold jsTrimList
      rw [hLdef]
      exact rtrim_cons c L2 hcws
    have hTdata : (jsTrim (k ++ "=")).data = c :: (L2 ++ ['=']) := by
      show jsTrimList (k.data ++ ['=']) = _
      rw [jsTrimList_append_eq, hLdef]
      rfl
    have hcomps := hcom
    unfold isComment at hcomps
    rw [Bool.or_eq_false_iff] at hcomps
    obtain ⟨h3, hslash⟩ := hcomps
    rw [Bool.or_eq_false_iff] at h3
    obtain ⟨h2, hsemi⟩ := h3
    rw [Bool.or_eq_false_iff] at h2
    obtain ⟨hemp, hhash⟩ := h2
    have hhash2 : decide ('#' = c) = false := by
      have h5 := hhash
      rw [show jsStartsWith (jsTrim k) "#" =
          startsWithL ['#'] (jsTrim k).data from rfl, hktrim,
        show startsWithL ['#']
            (c :: (L2.reverse.dropWhile jsIsWs).reverse) =
          (decide ('#' = c) &&
            startsWithL [] ((L2.reverse.dropWhile jsIsWs).reverse))
          from rfl, startsWithL_nil, Bool.and_true] at h5
      exact h5
    have hsemi2 : decide (';' = c) = false := by
      have h5 := hsemi
      rw [show jsStartsWith (jsTrim k) ";" =
          startsWithL [';'] (jsTrim k).data from rfl, hktrim,
        show startsWithL [';']
            (c :: (L2.reverse.dropWhile jsIsWs).reverse) =
          (decide (';' = c) &&
            startsWithL [] ((L2.reverse.dropWhile jsIsWs).reverse))
          from rfl, startsWithL_nil, Bool.and_true] at h5
      exact h5
    have hbrack2 : decide ('[' = c) = false := by
      have h5 := hbrack
      rw [show jsStartsWith (jsTrim k) "[" =
          startsWithL ['['] (jsTrim k).data from rfl, hktrim,
        show startsWithL ['[']
            (c :: (L2.reverse.dropWhile jsIsWs).reverse) =
          (decide ('[' = c) &&
            startsWithL [] ((L2.reverse.dropWhile jsIsWs).reverse))
          from rfl, startsWithL_nil, Bool.and_true] at h5
      exact h5
    have hslashT : startsWithL ['/', '/'] (c :: (L2 ++ ['='])) = false := by
      show (decide ('/' = c) && startsWithL ['/'] (L2 ++ ['='])) = false
      by_cases hc : decide ('/' = c) = true
      · rw [hc, Bool.true_and]
        cases L2 with
        | nil => rfl
        | cons d rest =>
          show (decide ('/' = d) && startsWithL [] (rest ++ ['='])) = false
          rw [startsWithL_nil, Bool.and_true]
          by_cases hd : jsIsWs d = true
          · refine decide_eq_false ?_
            intro hdd
            rw [← hdd] at hd
            exact absurd hd (by decide)
          · have hdws : jsIsWs d = false :=
              Bool.not_eq_true _ ▸ eq_false_of_ne_true hd
            have hk2 : (jsTrim k).data =
                c :: d :: (rest.reverse.dropWhile jsIsWs).reverse := by
              rw [hktrim, rtrim_cons d rest hdws]
            have h5 := hslash
            rw [show jsStartsWith (jsTrim k) "//" =
                startsWithL ['/', '/'] (jsTrim k).data from rfl, hk2,
              show startsWithL ['/', '/']
                  (c :: d :: (rest.reverse.dropWhile jsIsWs).reverse) =
                (decide ('/' = c) && (decide ('/' = d) &&
                  startsWithL []
                    ((rest.reverse.dropWhile jsIsWs).reverse)))
                from rfl, startsWithL_nil, Bool.and_true, hc,
              Bool.true_and] at h5
            exact h5
      · have hc' : decide ('/' = c) = false :=
          Bool.not_eq_true _ ▸ eq_false_of_ne_true hc
        rw [hc', Bool.false_and]
    have hTne : ¬(jsTrim (k ++ "=") = "") := by
      intro hh
      have h5 := congrArg String.data hh
      rw [hTdata] at h5
      exact List.noConfusion h5
    have hcomT : isComment (jsTrim (k ++ "=")) = false := by
      unfold isComment
      rw [decide_eq_false hTne, Bool.false_or,
        show jsStartsWith (jsTrim (k ++ "=")) "#" =
          startsWithL ['#'] (jsTrim (k ++ "=")).data from rfl, hTdata,
        show startsWithL ['#'] (c :: (L2 ++ ['='])) =
          (decide ('#' = c) && startsWithL [] (L2 ++ ['='])) from rfl,
        startsWithL_nil, Bool.and_true, hhash2, Bool.false_or,
        show jsStartsWith (jsTrim (k ++ "=")) ";" =
          startsWithL [';'] (jsTrim (k ++ "=")).data from rfl, hTdata,
        show startsWithL [';'] (c :: (L2 ++ ['='])) =
          (decide (';' = c) && startsWithL [] (L2 ++ ['='])) from rfl,
        startsWithL_nil, Bool.and_true, hsemi2, Bool.false_or,
        show jsStartsWith (jsTrim (k ++ "=")) "//" =
          startsWithL ['/', '/'] (jsTrim (k ++ "=")).data from rfl,
        hTdata, hslashT]
    have hbrackT : jsStartsWith (jsTrim (k ++ "=")) "[" = false := by
      rw [show jsStartsWith (jsTrim (k ++ "=")) "[" =
          startsWithL ['['] (jsTrim (k ++ "=")).data from rfl, hTdata,
        show startsWithL ['['] (c :: (L2 ++ ['='])) =
          (decide ('[' = c) && startsWithL [] (L2 ++ ['='])) from rfl,
        startsWithL_nil, Bool.and_true, hbrack2]
    have hnoeq : ∀ ch ∈ c :: L2, ch ≠ '=' := by
      intro ch hch
      have hsub2 : ch ∈ k.data.dropWhile jsIsWs := by
        rw [hLdef]
        exact hch
      have hsub : ch ∈ k.data :=
        (List.dropWhile_sublist jsIsWs).subset hsub2
      exact (hchars ch hsub).2.2
    have hidxT : (jsTrim (k ++ "=")).data.findIdx? (fun c => c = '=') =
        some (L2.length + 1) := by
      rw [hTdata]
      have h5 := findIdx_eq_append (c :: L2) hnoeq 0
      rw [show (c :: L2) ++ ['='] = c :: (L2 ++ ['=']) from rfl] at h5
      have h6 : (0 : ℕ) + (c :: L2).length = L2.length + 1 := by
        rw [List.length_cons]
        omega
      rw [← h6]
      exact h5
    have hkvL : kvLeft (jsTrim (k ++ "=")) (L2.length + 1) =
        String.mk (c :: L2) := by
      show String.mk ((jsTrim (k ++ "=")).data.take (L2.length + 1)) = _
      rw [hTdata, show c :: (L2 ++ ['=']) = (c :: L2) ++ ['='] from rfl,
        show (L2.length + 1 : ℕ) = (c :: L2).length from
          (List.length_cons c L2).symm,
        List.take_left (c :: L2) ['=']]
    have hkey : jsTrim (kvLeft (jsTrim (k ++ "=")) (L2.length + 1)) =
        jsTrim k := by
      rw [hkvL]
      refine congrArg String.mk ?_
      show jsTrimList (c :: L2) = jsTrimList k.data
      unfold jsTrimList
      rw [show (c :: L2) = k.data.dropWhile jsIsWs from hLdef.symm,
        dropWhile_jsIsWs_idem]
    have hkvR : kvRight (jsTrim (k ++ "=")) (L2.length + 1) = "" := by
      show String.mk ((jsTrim (k ++ "=")).data.drop (L2.length + 1 + 1)) = ""
      rw [hTdata]
      have h5 : (c :: (L2 ++ ['='])).drop (L2.length + 1 + 1) = [] := by
        refine List.drop_eq_nil_of_le ?_
        rw [List.length_cons, List.length_append, List.length_singleton]
      rw [h5]
    have hval : jsTrim (kvRight (jsTrim (k ++ "=")) (L2.length + 1)) = "" := by
      rw [hkvR]
      rfl
    have hpretty : prettyOf (jsTrim (k ++ "=")) (L2.length + 1) = false := by
      show (jsEndsWith (kvLeft (jsTrim (k ++ "=")) (L2.length + 1)) " " &&
        jsStartsWith (kvRight (jsTrim (k ++ "=")) (L2.length + 1)) " ") =
        false
      rw [hkvR, show jsStartsWith "" " " = false from rfl, Bool.and_false]
    have hrev : defaultReviver (jsTrim k) "" none = .num (JNum.fin 0) := rfl
    have h0 : IniMap.empty.parseStr (k ++ "=") none =
        IniMap.parseGo defaultReviver
          { IniMap.empty with lineBreak := detectLB (k ++ "=").data none }
          none 1 (splitLines (k ++ "=")) := rfl
    rw [h0, hlb, hsplit]
    have hgo : IniMap.parseGo defaultReviver
        { IniMap.empty with lineBreak := (none : Option String) } none 1
        [k ++ "="] =
        (match IniMap.parseLine
            { IniMap.empty with lineBreak := (none : Option String) } none
            defaultReviver (k ++ "=") 1 with
         | .error e => .error e
         | .ok (m2, c2) => IniMap.parseGo defaultReviver m2 c2 2 []) := rfl
    rw [hgo, parseLine_kv_global
      { IniMap.empty with lineBreak := (none : Option String) }
      defaultReviver (k ++ "=") 1 L2.length hcomT hbrackT hidxT]
    simp only []
    have hm1 : applyPretty
        { IniMap.empty with lineBreak := (none : Option String) }
        (prettyOf (jsTrim (k ++ "=")) (L2.length + 1)) =
        { nextId := 0, lines := [], global := [], sections := [],
          lineBreak := none, pretty := some false } := by
      rw [hpretty]
      rfl
    show Except.ok _ = _
    refine congrArg Except.ok ?_
    rw [hm1, hkey, hval, hrev]
    rfl

/-- C9 witness: parsing `"k="` stores the number 0 for the key `k`. -/
theorem C9_empty_value_parses_zero_witness :
    IniMap.empty.parseStr "k=" none =
      .ok { nextId := 1,
            lines := [(0, Line.val { num := 1, sec := none, key := "k",
                                     val := .num (JNum.fin 0) })],
            global := [("k", 0)], sections := [], lineBreak := none,
            pretty := some false } :=
  C9_empty_value_parses_zero "k" (by decide) (by decide) (by decide)
    (by decide)
